import Mathlib

/-!
# STOKE machine state and path enumerator

A shallow embedding of `src/state/cpu_state.h` (struct `CpuState`) and of
`src/cfg/paths.cc` (class `CfgPaths`), with the properties of the
specification that concern them.

Machine words are natural numbers; every operation that can leave the 64-bit
range is reduced modulo `2 ^ 64` explicitly.
-/

namespace Stoke

/-! ## 64-bit arithmetic on `uint64_t` -/

/-- Left shift on `uint64_t`: the bits shifted past bit 63 are dropped. -/
def shl64 (x n : Nat) : Nat := (x <<< n) % 2 ^ 64

/-- Bitwise complement on `uint64_t` (the C++ operator `~`). -/
def not64 (x : Nat) : Nat := 2 ^ 64 - 1 - x % 2 ^ 64

/-- Subtraction on `uint64_t` and `size_t`, wrapping modulo `2 ^ 64`. -/
def sub64 (x y : Nat) : Nat := (x % 2 ^ 64 + 2 ^ 64 - y % 2 ^ 64) % 2 ^ 64

/-- Addition on `uint64_t`, wrapping modulo `2 ^ 64`. -/
def add64 (x y : Nat) : Nat := (x + y) % 2 ^ 64

/-! ## Collaborator types of `CpuState` -/

/-- Modelled from the spec: the error code of a machine state
(`src/state/error_code.h` is not among the sources); the constructors are the
fault vocabulary of spec section 6, named as the sources name them. -/
inductive ErrorCode where
  | NORMAL
  | SIGSEGV_
  | SIGFPE_
  | SIGBUS_
  | SIGCUSTOM_ABI_VIOLATION
  | SIGCUSTOM_EXCEEDED_MAX_JUMPS
  | SIGCUSTOM_INVALID_POPF
  | SIGCUSTOM_LINKER_ERROR
  deriving DecidableEq, Repr

/-- Modelled from the spec: the operand type tag `x64asm::Type` restricted to
the general-purpose register views (the x64asm library is not among the
sources): high byte, low byte, 16, 32 and 64 bit. -/
inductive RType where
  | RH
  | R_8
  | R_16
  | R_32
  | R_64
  deriving DecidableEq, Repr

/-- Modelled from the spec: a general-purpose register operand `x64asm::R`: its
type tag and the value `val` it converts to (`size_t idx = reg`). -/
structure R where
  type : RType
  val : Nat
  deriving DecidableEq, Repr

/-- Modelled from the spec: `x64asm::R::size()`, the width of the view in
bits. -/
def R.size (reg : R) : Nat :=
  match reg.type with
  | .RH => 8
  | .R_8 => 8
  | .R_16 => 16
  | .R_32 => 32
  | .R_64 => 64

/-- Modelled from the spec: `x64asm::R::check()`, the well-formedness of a
register operand: the high-byte views are ah, ch, dh, bh with values 4 to 7,
every other view names one of the 16 registers. -/
def R.check (reg : R) : Bool :=
  match reg.type with
  | .RH => decide (4 ≤ reg.val) && decide (reg.val < 8)
  | _ => decide (reg.val < 16)

/-- Modelled from the spec: `cpputil::BitVector` as the list of its 64-bit
quads, quad 0 first (`get_fixed_quad(i)` is entry `i`). -/
abbrev BitVector := List Nat

/-- Modelled from the spec: `Regs` (`src/state/regs.h` is not among the
sources), a vector of bit vectors, one per register. -/
abbrev Regs := List BitVector

/-- Modelled from the spec: `Regs::operator^=`, the bitwise exclusive or of
the two banks, register by register and quad by quad. -/
def Regs.xor (a b : Regs) : Regs :=
  List.zipWith (fun x y => List.zipWith Nat.xor x y) a b

/-- Modelled from the spec: `RFlags` (`src/state/rflags.h` is not among the
sources), the flags register as one 64-bit word, bit `i` being flag `i`. -/
abbrev RFlags := Nat

/-- Modelled from the spec: a Memory Region (`src/state/memory.h` is not
among the sources): lower address bound, byte array, parallel validity
bitmap. -/
structure Memory where
  base : Nat
  contents : List Nat
  valid : List Bool
  deriving DecidableEq, Repr

/-- Modelled from the spec: `Memory::size()`, the number of bytes held. -/
def Memory.size (m : Memory) : Nat := m.contents.length

/-- Modelled from the spec: `Memory::lower_bound()`. -/
def Memory.lower_bound (m : Memory) : Nat := m.base

/-- Modelled from the spec: `Memory::in_range(addr)`, pure bounds testing
against `[lower, lower + size)`, not wrapped. -/
def Memory.in_range (m : Memory) (addr : Nat) : Bool :=
  decide (m.lower_bound ≤ addr) && decide (addr < m.lower_bound + m.size)

/-- Modelled from the spec: `Memory::is_valid(addr)`, bounds testing that
additionally consults the validity bitmap. -/
def Memory.is_valid (m : Memory) (addr : Nat) : Bool :=
  m.in_range addr && m.valid.getD (addr - m.lower_bound) false

/-- Modelled from the spec: `Memory::operator^=`, byte-wise exclusive or of
the contents; bound and validity bitmap of the left operand are kept. -/
def Memory.xor (a b : Memory) : Memory :=
  { a with contents := List.zipWith Nat.xor a.contents b.contents }

/-- Modelled from the spec: a memory operand `x64asm::Mem`: width in bits,
displacement (already sign-extended to 64 bits), optional base and index
register numbers, and the scale applied to the index. -/
structure Mem where
  size : Nat
  disp : Nat
  base : Option Nat
  index : Option Nat
  scale : Nat
  deriving DecidableEq, Repr

/-! ## `CpuState` (src/state/cpu_state.h) -/

/-- The fields of `struct CpuState`, lines 269 to 296. -/
structure CpuState where
  code : ErrorCode
  gp : Regs
  sse : Regs
  rf : RFlags
  stack : Memory
  heap : Memory
  data : Memory
  segments : List Memory
  jumps_seen : Nat
  latency_seen : Nat
  deriving DecidableEq, Repr

/-- Quad 0 of general-purpose register `idx`: `gp[idx].get_fixed_quad(0)`. -/
def CpuState.gp_quad (s : CpuState) (idx : Nat) : Nat :=
  (s.gp.getD idx []).getD 0 0

/-- Assignment through the reference `gp[idx].get_fixed_quad(0)`. -/
def CpuState.set_gp_quad (s : CpuState) (idx val : Nat) : CpuState :=
  { s with gp := s.gp.set idx ((s.gp.getD idx []).set 0 val) }

/-- The mask computed at the head of `read_gp` and `gp_update`:
`((uint64_t)1 << width) - 1`, replaced by `-1` when `width == 64`. -/
def gp_mask (width : Nat) : Nat :=
  let mask := sub64 (shl64 1 width) 1
  if width = 64 then 2 ^ 64 - 1 else mask

/-- `CpuState::read_gp(idx, width, start)`, lines 97 to 106. -/
def CpuState.read_gp (s : CpuState) (idx width start : Nat) : Nat :=
  let full := s.gp_quad idx
  let mask := gp_mask width
  let mask := shl64 mask start
  let val := full &&& mask
  let val := val >>> start
  val

/-- `CpuState::operator[](const x64asm::R&)`, lines 67 to 75. -/
def CpuState.index (s : CpuState) (reg : R) : Nat :=
  let start := 0
  let idx := reg.val
  if reg.type = RType.RH then
    let start := 8
    let idx := sub64 idx 4
    s.read_gp idx reg.size start
  else
    s.read_gp idx reg.size start

/-- `CpuState::gp_update(idx, width, val, start)`, lines 300 to 309. -/
def CpuState.gp_update (s : CpuState) (idx width val start : Nat) : CpuState :=
  let full := s.gp_quad idx
  let mask := gp_mask width
  let val := val &&& mask
  let mask := shl64 mask start
  let full := full &&& not64 mask
  let full := full ||| shl64 val start
  s.set_gp_quad idx full

/-- `CpuState::update(const x64asm::R&, uint64_t)`, lines 109 to 117. -/
def CpuState.update (s : CpuState) (reg : R) (val : Nat) : CpuState :=
  let start := 0
  let idx := reg.val
  if reg.type = RType.RH then
    let start := 8
    let idx := sub64 idx 4
    s.gp_update idx reg.size val start
  else
    s.gp_update idx reg.size val start

/-- The bit offset at which a register view starts inside its backing quad:
8 for the high-byte view, 0 otherwise. -/
def R.start (reg : R) : Nat := if reg.type = RType.RH then 8 else 0

/-- The index of the backing 64-bit register of a view. -/
def R.idx (reg : R) : Nat := if reg.type = RType.RH then sub64 reg.val 4 else reg.val

/-- The general-purpose bank as the constructor builds it, `gp(16, 64)`: 16
registers of one 64-bit quad each. -/
def CpuState.gp_ok (s : CpuState) : Prop :=
  s.gp.length = 16 ∧ ∀ r ∈ s.gp, r.length = 1 ∧ ∀ q ∈ r, q < 2 ^ 64

instance (s : CpuState) : Decidable s.gp_ok :=
  inferInstanceAs (Decidable (s.gp.length = 16 ∧ ∀ r ∈ s.gp, r.length = 1 ∧ ∀ q ∈ r, q < 2 ^ 64))

/-- `CpuState::operator^=`, lines 39 to 48. -/
def CpuState.xor_assign (s rhs : CpuState) : CpuState :=
  let gp := Regs.xor s.gp rhs.gp
  let sse := Regs.xor s.sse rhs.sse
  let rf := Nat.xor s.rf rhs.rf
  let stack := Memory.xor s.stack rhs.stack
  let heap := Memory.xor s.heap rhs.stack
  let data := Memory.xor s.data rhs.data
  { s with gp := gp, sse := sse, rf := rf, stack := stack, heap := heap, data := data }

/-- `CpuState::operator==`, lines 56 to 60. -/
def CpuState.eq (s rhs : CpuState) : Bool :=
  decide (s.code = rhs.code) &&
    decide (s.gp = rhs.gp) && decide (s.sse = rhs.sse) && decide (s.rf = rhs.rf) &&
    decide (s.stack = rhs.stack) && decide (s.heap = rhs.heap) && decide (s.data = rhs.data)

/-- Modelled from the spec: `CpuState::get_addr(Mem)` (defined in
`src/state/cpu_state.cc`, not among the sources): displacement plus base plus
scaled index, on 64 bits. -/
def CpuState.get_addr (s : CpuState) (m : Mem) : Nat :=
  let address := m.disp % 2 ^ 64
  let address := match m.base with
    | some b => add64 address (s.gp_quad b)
    | none => address
  let address := match m.index with
    | some i => add64 address ((s.gp_quad i * m.scale) % 2 ^ 64)
    | none => address
  address

/-- What an entry of the local vector `my_segments` points to in `in_range`
and `is_valid`: one of the three named regions, or the loop variable `it` of
`for (auto it : segments) my_segments.push_back(&it)`. That loop copies each
extra segment into `it` and records the address of `it`, not of the element
of `segments`. -/
inductive SegPtr where
  | heap
  | stack
  | data
  | it
  deriving DecidableEq, Repr

/-- The vector `my_segments` after the two filling steps of lines 184 to 191:
three named regions, then one pointer to the loop variable per extra
segment. -/
def CpuState.my_segments (s : CpuState) : List SegPtr :=
  [SegPtr.heap, SegPtr.stack, SegPtr.data] ++ s.segments.map (fun _ => SegPtr.it)

/-- Dereference of an entry of `my_segments`; `slot` is the Memory found at
the address of the loop variable when the second loop reads through it. -/
def CpuState.deref (s : CpuState) (slot : Memory) : SegPtr → Memory
  | .heap => s.heap
  | .stack => s.stack
  | .data => s.data
  | .it => slot

/-- `CpuState::in_range(const x64asm::Mem&)`, lines 180 to 199. -/
def CpuState.in_range (s : CpuState) (slot : Memory) (m : Mem) : Bool :=
  let addr := s.get_addr m
  let size := m.size
  (s.my_segments).any (fun p =>
    (s.deref slot p).in_range addr &&
      (s.deref slot p).in_range (sub64 (add64 addr (size / 8)) 1))

/-- The second loop of `CpuState::is_valid`, lines 215 to 224: the first
entry with both ends in range decides. -/
def CpuState.is_valid_loop (s : CpuState) (slot : Memory) (addr size : Nat) : List SegPtr → Bool
  | [] => false
  | p :: rest =>
    if (s.deref slot p).in_range addr &&
        (s.deref slot p).in_range (sub64 (add64 addr (size / 8)) 1) then
      (List.range (size / 8)).all (fun i => (s.deref slot p).is_valid (add64 addr i))
    else
      s.is_valid_loop slot addr size rest

/-- `CpuState::is_valid(const x64asm::Mem&)`, lines 202 to 225. -/
def CpuState.is_valid (s : CpuState) (slot : Memory) (m : Mem) : Bool :=
  s.is_valid_loop slot (s.get_addr m) m.size s.my_segments

/-- The regions the specification names for a memory access: heap, stack,
data and every extra segment. -/
def CpuState.regions (s : CpuState) : List Memory :=
  [s.heap, s.stack, s.data] ++ s.segments

/-! ## `CfgPaths` (src/cfg/paths.cc) -/

/-- Modelled from the spec: the control-flow graph `Cfg` (`src/cfg/cfg.h` is
not among the sources), reduced to what `CfgPaths` reads from it: the number
of blocks, `get_entry()`, `get_exit()`, the successor range
`succ_begin(b) .. succ_end(b)` in iteration order, and `num_instrs(b)`. -/
structure Cfg where
  num_blocks : Nat
  get_entry : Nat
  get_exit : Nat
  succs : Nat → List Nat
  num_instrs : Nat → Nat

/-- A finite graph: every successor of a block is a block. -/
def Cfg.closed (cfg : Cfg) : Prop :=
  ∀ b, b < cfg.num_blocks → ∀ s ∈ cfg.succs b, s < cfg.num_blocks

instance (cfg : Cfg) : Decidable cfg.closed :=
  inferInstanceAs (Decidable (∀ b, b < cfg.num_blocks → ∀ s ∈ cfg.succs b, s < cfg.num_blocks))

/-- The successor relation of the graph. -/
def Cfg.edge (cfg : Cfg) (a b : Nat) : Prop := b ∈ cfg.succs a

instance (cfg : Cfg) (a b : Nat) : Decidable (cfg.edge a b) :=
  inferInstanceAs (Decidable (b ∈ cfg.succs a))

/-- Assignment `counts[k] = v` on the `std::map` of visit counters, read as a
total function (an absent key reads as 0, as `operator[]` inserts it). -/
def counts_set (counts : Nat → Nat) (k v : Nat) : Nat → Nat :=
  fun x => if x = k then v else counts x

/-- The test `nopass && path_so_far.size() > 1 && find(...) != nopass->end()`
of line 89. -/
def nopass_stop (path_so_far : List Nat) (last_block : Nat) : Option (List Nat) → Bool
  | none => false
  | some np => decide (path_so_far.length > 1) && decide (last_block ∈ np)

/-- One iteration of the successor loop of lines 97 to 122, given the
recursive call `recurse path counts results`; the loop state is the triple
of `path_so_far`, `counts` and `results`. -/
def succ_step (recurse : List Nat → (Nat → Nat) → List (List Nat) → List (List Nat))
    (max_count : Nat) (st : List Nat × (Nat → Nat) × List (List Nat)) (it : Nat) :
    List Nat × (Nat → Nat) × List (List Nat) :=
  let path_so_far := st.1
  let counts := st.2.1
  let results := st.2.2
  let this_count := counts it + 1
  let counts := counts_set counts it this_count
  if this_count > max_count then
    (path_so_far, counts_set counts it (counts it - 1), results)
  else
    let path_so_far := path_so_far ++ [it]
    let results := recurse path_so_far counts results
    let path_so_far := path_so_far.eraseIdx (path_so_far.length - 1)
    (path_so_far, counts_set counts it (counts it - 1), results)

/-- `CfgPaths::enumerate_paths_helper`, lines 56 to 124, returning the vector
`results` it extends by reference. The first argument bounds the recursion
depth; `helper_fuel_irrelevant` shows that the bound used by
`enumerate_paths` is never reached on a finite graph. The visit counters are
not reduced modulo `2 ^ 64`: they never exceed `max_count + 1`, which
wraps only for a bound of `2 ^ 64 - 1` visits. -/
def enumerate_paths_helper (cfg : Cfg) : Nat → List Nat → Nat → Nat → (Nat → Nat) →
    List (List Nat) → Option (List Nat) → List (List Nat)
  | 0, _, _, _, _, results, _ => results
  | fuel + 1, path_so_far, end_block, max_count, counts, results, nopass =>
    let len := path_so_far.length
    let last_block := path_so_far.getD (len - 1) 0
    let results :=
      if last_block = end_block ∧ path_so_far.length > 1 then results ++ [path_so_far]
      else results
    if nopass_stop path_so_far last_block nopass then results
    else if last_block = cfg.get_exit then results
    else
      ((cfg.succs last_block).foldl
        (succ_step (fun p c r => enumerate_paths_helper cfg fuel p end_block max_count c r nopass)
          max_count)
        (path_so_far, counts, results)).2.2

/-- The removal loop of lines 43 to 51 on one path: the iterator walks the
path and erases every block with zero instructions. -/
def remove_empty_blocks (cfg : Cfg) : List Nat → List Nat
  | [] => []
  | b :: rest =>
    if cfg.num_instrs b = 0 then remove_empty_blocks cfg rest
    else b :: remove_empty_blocks cfg rest

/-- The value `(Cfg::id_type)-1` that stands for an omitted start or end. -/
def NO_BLOCK : Nat := 2 ^ 64 - 1

/-- The start block after the default of lines 26 and 27. -/
def resolve_start (cfg : Cfg) (start : Nat) : Nat :=
  if start = NO_BLOCK then cfg.get_entry else start

/-- The end block after the default of lines 29 and 30. -/
def resolve_end (cfg : Cfg) (end_block : Nat) : Nat :=
  if end_block = NO_BLOCK then cfg.get_exit else end_block

/-- The vector `results` of `CfgPaths::enumerate_paths` when the removal
loop is reached (lines 26 to 40): the recorded depth-first paths. -/
def recorded_paths (cfg : Cfg) (max_len start end_block : Nat) (nopass : Option (List Nat)) :
    List (List Nat) :=
  let start := resolve_start cfg start
  let end_block := resolve_end cfg end_block
  let results : List (List Nat) := []
  let path_so_far := [start]
  let node_counts : Nat → Nat := fun _ => 0
  if max_len > 0 then
    enumerate_paths_helper cfg (cfg.num_blocks * max_len + 1) path_so_far end_block max_len
      node_counts results nopass
  else results

/-- `CfgPaths::enumerate_paths`, lines 24 to 54. -/
def enumerate_paths (cfg : Cfg) (max_len start end_block : Nat) (nopass : Option (List Nat)) :
    List (List Nat) :=
  (recorded_paths cfg max_len start end_block nopass).map (remove_empty_blocks cfg)

/-! ### Auxiliary definitions for the proofs -/

/-- The last block of a path as line 65 reads it, `path_so_far[len - 1]`. -/
def last_block (path_so_far : List Nat) : Nat := path_so_far.getD (path_so_far.length - 1) 0

/-- The successor loop with the restored parts of its state left out: only
`results` changes from one iteration to the next. -/
def visit (recurse : List Nat → (Nat → Nat) → List (List Nat) → List (List Nat))
    (max_count : Nat) (path : List Nat) (counts : Nat → Nat)
    (results : List (List Nat)) (it : Nat) : List (List Nat) :=
  if counts it + 1 > max_count then results
  else recurse (path ++ [it]) (counts_set counts it (counts it + 1)) results

/-- The vector `results` after the test for the end block of line 79. -/
def record (p : List Nat) (e : Nat) (res : List (List Nat)) : List (List Nat) :=
  if last_block p = e ∧ p.length > 1 then res ++ [p] else res

/-- The visit counters count the blocks pushed after the start block, and no
counter exceeds the bound. -/
def CountsGood (s k : Nat) (p : List Nat) (c : Nat → Nat) : Prop :=
  ∃ t, p = s :: t ∧ (∀ b, c b = t.count b) ∧ ∀ b, c b ≤ k

/-- Two blocks are linked when a chain of successor edges leads from the first
to the second through blocks with zero instructions only. -/
def Cfg.link (cfg : Cfg) (a b : Nat) : Prop :=
  ∃ zs : List Nat, (∀ z ∈ zs, cfg.num_instrs z = 0) ∧ List.Chain cfg.edge a (zs ++ [b])

/-- No block strictly between the first and the last element of a path is in
the forbidden list. -/
def InteriorClear (np : List Nat) (p : List Nat) : Prop :=
  ∀ i, 0 < i → i + 1 < p.length → p.getD i 0 ∉ np

/-- A graph 0 -> 1 -> 2 -> 3 in which block 1 also leads to 3. -/
def diamond : Cfg :=
  { num_blocks := 4, get_entry := 0, get_exit := 3,
    succs := fun b => if b = 0 then [1] else if b = 1 then [2, 3] else if b = 2 then [3] else [],
    num_instrs := fun _ => 1 }

/-- The search stops at a path: the forbidden-list test of line 89 or the exit
test of line 93 holds. -/
def stops (cfg : Cfg) (np : Option (List Nat)) (p : List Nat) : Prop :=
  nopass_stop p (last_block p) np = true ∨ last_block p = cfg.get_exit

/-- A block at which a walk may pass through: not the exit and not in the
forbidden list. -/
def passable (cfg : Cfg) (np : Option (List Nat)) (x : Nat) : Prop :=
  x ≠ cfg.get_exit ∧ ∀ l, np = some l → x ∉ l

/-- The visits still allowed by the counters, summed over the blocks of the
graph. -/
def budget (cfg : Cfg) (k : Nat) (c : Nat → Nat) : Nat :=
  ∑ b in Finset.range cfg.num_blocks, (k - c b)

/-- Every block pushed after the start block occurs at most `k` times. -/
def within (k : Nat) (r : List Nat) : Bool :=
  r.tail.all (fun b => decide (r.tail.count b ≤ k))

/-- The counters are the visit counts of the blocks pushed after the start
block, and block `v` has been pushed at least `m` times. -/
def CountsFrom (s v m : Nat) (p : List Nat) (c : Nat → Nat) : Prop :=
  ∃ t, p = s :: t ∧ (∀ b, c b = t.count b) ∧ m ≤ c v

/-- The blocks after the start block form a walk: successor edges from the
start block on, passable blocks before the last, and the end block last. -/
def ValidWalk (cfg : Cfg) (np : Option (List Nat)) (s e : Nat) (t : List Nat) : Prop :=
  List.Chain cfg.edge s t ∧ (∀ y ∈ t.dropLast, passable cfg np y) ∧ t.getLast? = some e

/-- The path explored so far is a walk from the start block through
passable blocks. -/
def WalkGood (cfg : Cfg) (np : Option (List Nat)) (s : Nat) (q : List Nat) : Prop :=
  ∃ t, q = s :: t ∧ List.Chain cfg.edge s t ∧ ∀ y ∈ t.dropLast, passable cfg np y

/-- A graph with one block that loops on itself and is not the exit. -/
def selfLoop : Cfg :=
  { num_blocks := 2, get_entry := 0, get_exit := 1,
    succs := fun b => if b = 0 then [0, 1] else [],
    num_instrs := fun _ => 1 }

/-- Modelled from the spec: a block that contributes zero instructions "exists
only for CFG bookkeeping" (section 4.3); the bookkeeping blocks of a graph are
its distinguished entry, which no edge enters, and its distinguished exit,
which no edge leaves. So a block without an instruction that has a
predecessor has no successor. -/
def Cfg.empty_at_ends (cfg : Cfg) : Prop :=
  ∀ a b, cfg.edge a b → cfg.num_instrs b = 0 → cfg.succs b = []

/-- A graph with its two bookkeeping blocks: the entry 0 and the exit 3 hold
no instruction, block 1 leads to block 2, and block 2 leads back to block 1 and
on to the exit. -/
def loopCfg : Cfg :=
  { num_blocks := 4, get_entry := 0, get_exit := 3,
    succs := fun b => if b = 0 then [1] else if b = 1 then [2] else if b = 2 then [1, 3] else [],
    num_instrs := fun b => if b = 0 then 0 else if b = 3 then 0 else 1 }

/-! ## Concrete inputs -/

/-- A state as the constructor leaves it, with all 16 registers zero. -/
def zeroState : CpuState :=
  { code := ErrorCode.NORMAL,
    gp := List.replicate 16 [0], sse := List.replicate 16 [0, 0, 0, 0], rf := 0,
    stack := { base := 0x700000000, contents := [], valid := [] },
    heap := { base := 0x100000000, contents := [], valid := [] },
    data := { base := 0, contents := [], valid := [] },
    segments := [], jumps_seen := 0, latency_seen := 0 }

/-- The zero state with rax holding 0x1122334455667788. -/
def raxState : CpuState :=
  { zeroState with gp := [0x1122334455667788] :: List.replicate 15 [0] }

/-- The high-byte view ah of rax. -/
def ah : R := ⟨RType.RH, 4⟩

/-- A region of eight valid zero bytes at 0x1000. -/
def segA : Memory :=
  { base := 0x1000, contents := List.replicate 8 0, valid := List.replicate 8 true }

/-- A region of one valid zero byte at 0x2000. -/
def segB : Memory := { base := 0x2000, contents := [0], valid := [true] }

/-- The zero state with the extra segment `segA`. -/
def oneSegState : CpuState := { zeroState with segments := [segA] }

/-- The zero state with the two extra segments `segA` and `segB`. -/
def twoSegState : CpuState := { zeroState with segments := [segA, segB] }

/-- The 64-bit memory operand at absolute address 0x1000. -/
def memAt1000 : Mem := { size := 64, disp := 0x1000, base := none, index := none, scale := 1 }

/-- Left operand of the exclusive-or example: one-byte stack and heap. -/
def xorLhs : CpuState :=
  { zeroState with
    stack := { base := 0x700000000, contents := [0], valid := [true] },
    heap := { base := 0x100000000, contents := [0], valid := [true] } }

/-- Right operand of the exclusive-or example: its heap byte is 1, its stack
byte is 0. -/
def xorRhs : CpuState :=
  { zeroState with
    stack := { base := 0x700000000, contents := [0], valid := [true] },
    heap := { base := 0x100000000, contents := [1], valid := [true] } }

/-! ## `Validator` (src/validator/validator.cc) -/

/-- Modelled from the spec: `x64asm::Opcode` (the x64asm library is not among
the sources): the opcodes the validator names or tests for; every other
opcode is `OTHER n`. -/
inductive Opcode where
  | CALL_LABEL
  | RET
  | LABEL_DEFN
  | JMP_LABEL_1
  | JCC (cc : Nat)
  | PUSH_R64
  | POP_R64
  | NOP
  | CPUID
  | OTHER (n : Nat)
  deriving DecidableEq, Repr

/-- Modelled from the spec: an operand of an instruction; a label operand
carries its text. -/
inductive Operand where
  | label (text : String)
  | r64 (r : Nat)
  | imm (v : Nat)
  deriving DecidableEq, Repr

/-- Modelled from the spec: `x64asm::Instruction`, an opcode with its
operands. -/
structure Instruction where
  opcode : Opcode
  operands : List Operand
  deriving DecidableEq, Repr

/-- Modelled from the spec: `Instruction::is_call()`. -/
def Instruction.is_call (i : Instruction) : Bool := decide (i.opcode = Opcode.CALL_LABEL)

/-- Modelled from the spec: `Instruction::is_ret()`. -/
def Instruction.is_ret (i : Instruction) : Bool := decide (i.opcode = Opcode.RET)

/-- Modelled from the spec: `Instruction::is_label_defn()`. -/
def Instruction.is_label_defn (i : Instruction) : Bool := decide (i.opcode = Opcode.LABEL_DEFN)

/-- Modelled from the spec: `Instruction::is_any_jump()`, true of the
unconditional and of the conditional jumps. -/
def Instruction.is_any_jump (i : Instruction) : Bool :=
  match i.opcode with
  | .JMP_LABEL_1 => true
  | .JCC _ => true
  | _ => false

/-- Modelled from the spec: `get_operand<x64asm::Label>(0)`, the text of the
label that is operand 0, when operand 0 is a label. -/
def Instruction.label0 (i : Instruction) : Option String :=
  match i.operands with
  | Operand.label t :: _ => some t
  | _ => none

/-- Modelled from the spec: an SSE register of a register set, its number
and its width in bits. -/
structure Sse where
  val : Nat
  size : Nat
  deriving DecidableEq, Repr

/-- Modelled from the spec: `x64asm::RegSet`, by the general-purpose
registers and the SSE registers it iterates over (`gp_begin .. gp_end`,
`sse_begin .. sse_end`). -/
structure RegSet where
  gp : List R
  sse : List Sse
  deriving DecidableEq, Repr

/-- Modelled from the spec: what the validator reads of a `Cfg` besides its
graph: `get_code()`, `def_ins()` and `live_outs()`. -/
structure CodeCfg where
  get_code : List Instruction
  def_ins : RegSet
  live_outs : RegSet
  deriving DecidableEq, Repr

/-- The collaborators and error fields of a `Validator`: the handler
(`full_support_opcodes()`, `regset_is_supported`), the functions held by the
sandbox under their labels, the printing of an instruction, and the members
`has_error_` and `error_`. -/
structure Validator where
  full_support_opcodes : List Opcode
  regset_is_supported : RegSet → Bool
  functions : List (String × List Instruction)
  print : Instruction → String
  has_error_ : Bool
  error_ : String

/-- `Validator::setup_support_table`, lines 45 to 52: every entry false, then
true for each fully supported opcode. -/
def setup_support_table (full : List Opcode) : Opcode → Bool :=
  full.foldl (fun tbl op => fun x => if x = op then true else tbl x) (fun _ => false)

/-- The member `support_table_` as the constructor leaves it. -/
def Validator.support_table_ (v : Validator) : Opcode → Bool :=
  setup_support_table v.full_support_opcodes

/-- `Validator::is_supported`, lines 36 to 43. -/
def Validator.is_supported (v : Validator) (i : Instruction) : Bool :=
  v.support_table_ i.opcode

/-- The loop over the code of one graph in `sanity_checks`, lines 73 to 82;
an error is the message of the `validator_error` thrown. -/
def check_supported (v : Validator) : List Instruction → Except String Unit
  | [] => Except.ok ()
  | instr :: rest =>
    if instr.is_label_defn || instr.is_any_jump || instr.is_ret then
      check_supported v rest
    else if !v.is_supported instr then
      Except.error ("Instruction " ++ v.print instr ++ " is unsupported.")
    else
      check_supported v rest

/-- `Validator::sanity_checks`, lines 54 to 85. The loop of line 71 takes the
rewrite first (`i ? target : rewrite` with `i = 0`), then the target. -/
def Validator.sanity_checks (v : Validator) (target rewrite : CodeCfg) : Except String Unit :=
  if target.def_ins ≠ rewrite.def_ins then
    Except.error "Def-ins of target/rewrite CFGs differ"
  else if target.live_outs ≠ rewrite.live_outs then
    Except.error "Live-outs of target/rewrite CFGs differ"
  else if !v.regset_is_supported target.def_ins then
    Except.error "Target def-in not supported."
  else if !v.regset_is_supported target.live_outs then
    Except.error "Target live-out not supported."
  else
    match check_supported v rewrite.get_code with
    | Except.error msg => Except.error msg
    | Except.ok _ => check_supported v target.get_code

/-- The register operand `rbp`. -/
def rbp : Operand := Operand.r64 5

/-- The label `%%END%%_<unique_id>` of lines 254 to 256. -/
def end_label (unique_id : Nat) : String := "%%END%%_" ++ toString unique_id

/-- The renaming of the label operands of lines 265 to 274. -/
def rename_labels (unique_id : Nat) (instr : Instruction) : Instruction :=
  { instr with operands := instr.operands.map (fun o =>
      match o with
      | Operand.label old_label =>
        Operand.label ("%%INLINE%%_" ++ toString unique_id ++ "_" ++ old_label)
      | o => o) }

/-- The loop over the code of the callee, lines 259 to 277, appending to
`new_code`. -/
def inline_callee (unique_id : Nat) (new_code : List Instruction) :
    List Instruction → List Instruction
  | [] => new_code
  | instr :: rest =>
    if instr.is_ret then
      inline_callee unique_id
        (new_code ++ [⟨Opcode.JMP_LABEL_1, [Operand.label (end_label unique_id)]⟩]) rest
    else
      inline_callee unique_id (new_code ++ [rename_labels unique_id instr]) rest

/-- The loop over `old_code` of `Validator::inline_functions`, lines 244 to
285, with its state `new_code`, `unique_id`. The result is `none` when the
assertion of line 252 fails, that is when the sandbox holds no function under
the label called. -/
def inline_loop (v : Validator) (new_code : List Instruction) (unique_id : Nat) :
    List Instruction → Option (List Instruction)
  | [] => some new_code
  | instr :: rest =>
    if instr.is_call then
      let new_code := new_code ++ [⟨Opcode.PUSH_R64, [rbp]⟩]
      match instr.label0.bind (fun label => v.functions.lookup label) with
      | none => none
      | some inline_code =>
        let new_code := inline_callee unique_id new_code inline_code
        let new_code := new_code ++ [⟨Opcode.LABEL_DEFN, [Operand.label (end_label unique_id)]⟩]
        let new_code := new_code ++ [⟨Opcode.POP_R64, [rbp]⟩]
        inline_loop v new_code (unique_id + 1) rest
    else
      inline_loop v (new_code ++ [instr]) unique_id rest

/-- `Validator::inline_functions`, lines 237 to 292. -/
def Validator.inline_functions (v : Validator) (cfg : CodeCfg) : Option CodeCfg :=
  match inline_loop v [] 0 cfg.get_code with
  | none => none
  | some new_code => some { get_code := new_code, def_ins := cfg.def_ins, live_outs := cfg.live_outs }

/-- What `verify` leaves behind: its return value, the members `has_error_`
and `error_`, and the number of solver queries issued. -/
structure VerifyOutcome where
  result : Bool
  has_error : Bool
  error : String
  queries : Nat
  deriving DecidableEq, Repr

/-- `DdecValidator::verify`, lines 203 to 303. The statements of lines 217 to
292 inside the `try` block (test generation, cutpoints, the two loops) are the
parameter `body`: from the inlined graphs it yields the value returned, or the
message of a `validator_error` thrown, together with the number of solver
queries it issued. The result is `none` when inlining fails its assertion. -/
def DdecValidator.verify (v : Validator)
    (body : CodeCfg → CodeCfg → Except String Bool × Nat)
    (init_target init_rewrite : CodeCfg) : Option VerifyOutcome :=
  match v.inline_functions init_target with
  | none => none
  | some target =>
    match v.inline_functions init_rewrite with
    | none => none
    | some rewrite =>
      match v.sanity_checks target rewrite with
      | Except.error msg => some ⟨false, true, msg, 0⟩
      | Except.ok _ =>
        match body target rewrite with
        | (Except.error msg, n) => some ⟨false, true, msg, n⟩
        | (Except.ok b, n) => some ⟨b, v.has_error_, v.error_, n⟩

/-- The text `sub` starts the text `s`. -/
def starts_with : List Char → List Char → Bool
  | _, [] => true
  | [], _ :: _ => false
  | c :: s, d :: sub => decide (c = d) && starts_with s sub

/-- The text `sub` occurs in the text `s`. -/
def occurs_in (sub : List Char) : List Char → Bool
  | [] => starts_with [] sub
  | c :: s => starts_with (c :: s) sub || occurs_in sub s

/-- The message contains the word given. -/
def message_contains (msg word : String) : Bool := occurs_in word.data msg.data

/-- The inlining as the specification words it: every call becomes push
%rbp, the label-renamed copy of the callee in which each return is a jump to
the end label, the definition of the end label, and pop %rbp; every other
instruction is kept. `unique_id` is the number of calls replaced so far. -/
def inline_spec (v : Validator) (unique_id : Nat) : List Instruction → List Instruction
  | [] => []
  | instr :: rest =>
    if instr.is_call then
      [⟨Opcode.PUSH_R64, [rbp]⟩] ++
        ((instr.label0.bind (fun label => v.functions.lookup label)).getD []).map (fun i =>
          if i.is_ret then ⟨Opcode.JMP_LABEL_1, [Operand.label (end_label unique_id)]⟩
          else rename_labels unique_id i) ++
        [⟨Opcode.LABEL_DEFN, [Operand.label (end_label unique_id)]⟩, ⟨Opcode.POP_R64, [rbp]⟩] ++
        inline_spec v (unique_id + 1) rest
    else
      instr :: inline_spec v unique_id rest

/-- Every call of the code names a function held by the sandbox. -/
def calls_present (v : Validator) (code : List Instruction) : Prop :=
  ∀ i ∈ code, i.is_call = true →
    ∃ label callee, i.label0 = some label ∧ v.functions.lookup label = some callee

/-- An instruction the loop of `sanity_checks` rejects: not a label
definition, not a jump, not a return, and with an opcode outside the support
table. -/
def rejected (v : Validator) (i : Instruction) : Prop :=
  i.is_label_defn = false ∧ i.is_any_jump = false ∧ i.is_ret = false ∧
    v.support_table_ i.opcode = false

/-- The five conditions under which `sanity_checks` throws. -/
def violates (v : Validator) (target rewrite : CodeCfg) : Prop :=
  target.def_ins ≠ rewrite.def_ins ∨ target.live_outs ≠ rewrite.live_outs ∨
    v.regset_is_supported target.def_ins = false ∨
    v.regset_is_supported target.live_outs = false ∨
    ∃ i, (i ∈ target.get_code ∨ i ∈ rewrite.get_code) ∧ rejected v i

/-- The validator `plainValidator` with one function in the sandbox: `foo`
executes a `nop` and returns. -/
def simpleValidator : Validator :=
  { full_support_opcodes := [Opcode.NOP, Opcode.PUSH_R64, Opcode.POP_R64],
    regset_is_supported := fun _ => true,
    functions := [("foo", [⟨Opcode.NOP, []⟩, ⟨Opcode.RET, []⟩])],
    print := fun _ => "cpuid",
    has_error_ := false, error_ := "" }

/-- A handler that supports every register set and every opcode but `CPUID`
and the opcodes it does not know, with no function in the sandbox. -/
def plainValidator : Validator :=
  { full_support_opcodes := [Opcode.NOP, Opcode.PUSH_R64, Opcode.POP_R64],
    regset_is_supported := fun _ => true,
    functions := [],
    print := fun _ => "cpuid",
    has_error_ := false, error_ := "" }

/-- The validator `plainValidator` with a handler that supports no register
set. -/
def strictValidator : Validator :=
  { plainValidator with regset_is_supported := fun _ => false }

/-- The validator `plainValidator` with two functions in the sandbox: `foo`
calls `bar` and returns, `bar` returns. -/
def nestedValidator : Validator :=
  { plainValidator with
    functions := [("foo", [⟨Opcode.CALL_LABEL, [Operand.label "bar"]⟩, ⟨Opcode.RET, []⟩]),
                  ("bar", [⟨Opcode.RET, []⟩])] }

/-- The register set of the example graphs. -/
def raxOnly : RegSet := { gp := [⟨RType.R_64, 0⟩], sse := [] }

/-- The graph of the test `UnsupportedInstruction`: `.foo:`, `cpuid`,
`retq`. -/
def cpuidCfg : CodeCfg :=
  { get_code := [⟨Opcode.LABEL_DEFN, [Operand.label ".foo"]⟩, ⟨Opcode.CPUID, []⟩,
      ⟨Opcode.RET, []⟩],
    def_ins := raxOnly, live_outs := raxOnly }

/-- A graph that calls `foo`, executes a `nop` and returns. -/
def callFooCfg : CodeCfg :=
  { get_code := [⟨Opcode.CALL_LABEL, [Operand.label "foo"]⟩, ⟨Opcode.NOP, []⟩, ⟨Opcode.RET, []⟩],
    def_ins := raxOnly, live_outs := raxOnly }

/-- A body for `verify` that proves at once with one solver query. -/
def oneQueryBody : CodeCfg → CodeCfg → Except String Bool × Nat :=
  fun _ _ => (Except.ok true, 1)

/-! ## `StateGen` (src/stategen/stategen.h, src/stategen/stategen.cc) -/

/-- Modelled from the spec: `Memory::upper_bound()`, the first address above
the region, on 64 bits. -/
def Memory.upper_bound (m : Memory) : Nat := add64 m.base m.size

/-- Modelled from the spec: the byte read `mem[addr]`. -/
def Memory.read (m : Memory) (addr : Nat) : Nat := m.contents.getD (addr - m.base) 0

/-- Modelled from the spec: `Memory::resize(newLowerBound, newSize)` changes
the addressable window, preserving the overlapping bytes and invalidating the
newly exposed ones. -/
def Memory.resize (m : Memory) (base size : Nat) : Memory :=
  { base := base,
    contents := (List.range size).map (fun i =>
      if m.in_range (base + i) then m.read (base + i) else 0),
    valid := (List.range size).map (fun i => m.is_valid (base + i)) }

/-- Modelled from the spec: `Memory::set_valid(addr, b)` changes the
definedness of one byte without touching its value. -/
def Memory.set_valid (m : Memory) (addr : Nat) (b : Bool) : Memory :=
  { m with valid := m.valid.set (addr - m.base) b }

/-- Modelled from the spec: the byte write `mem[addr] = v`. -/
def Memory.write (m : Memory) (addr v : Nat) : Memory :=
  { m with contents := m.contents.set (addr - m.base) (v % 256) }

/-- The random number generator `gen_`: the sequence of its outcomes and the
number of outcomes drawn so far. -/
structure Rng where
  draws : Nat → Nat
  pos : Nat

/-- One call `gen_()`: the next outcome, and the generator advanced. -/
def Rng.next (g : Rng) : Nat × Rng := (g.draws g.pos, { g with pos := g.pos + 1 })

/-- The members of `StateGen` that the modelled functions read. The two maps
are lists of key and value, the first entry for a key being the one in
force. -/
structure StateGen where
  stack_size_ : Nat
  max_attempts_ : Nat
  max_memory_ : Nat
  allow_unaligned_ : Bool
  max_register_values_ : List (Nat × Nat)
  bitmask_values_ : List (Nat × Nat)
  tried_to_fix_misalign_ : Bool

/-- `StateGen::get_max_value`, lines 140 to 145 of stategen.h. -/
def StateGen.get_max_value (sg : StateGen) (r : Nat) : Nat :=
  match sg.max_register_values_.lookup r with
  | some value => value
  | none => 2 ^ 64 - 1

/-- `StateGen::get_bitmask`, lines 148 to 153 of stategen.h. -/
def StateGen.get_bitmask (sg : StateGen) (r : Nat) : Nat :=
  match sg.bitmask_values_.lookup r with
  | some value => value
  | none => 2 ^ 64 - 1

/-- Modelled from the spec: assignment through `get_fixed_byte(j)` on one
quad: byte `j` of the quad becomes `b`, the other bytes stay. -/
def set_byte (q j b : Nat) : Nat :=
  (q &&& not64 (shl64 0xff (8 * j))) ||| shl64 (b &&& 0xff) (8 * j)

/-- Modelled from the spec: assignment through
`BitVector::get_fixed_byte(j)`; byte `j` lies in quad `j / 8`. -/
def set_fixed_byte (r : BitVector) (j b : Nat) : BitVector :=
  r.set (j / 8) (set_byte (r.getD (j / 8) 0) (j % 8) b)

/-- Modelled from the spec: `BitVector::num_fixed_bytes()`. -/
def num_fixed_bytes (r : BitVector) : Nat := 8 * r.length

/-- The inner loop of lines 45 to 51 over the bytes `j, j + 1, ...` of one
general-purpose register, `n` bytes remaining. -/
def gp_byte_loop : Nat → Nat → BitVector → Nat → Nat → Rng → BitVector × Rng
  | 0, _, r, _, _, g => (r, g)
  | n + 1, j, r, max, mask, g =>
    let max_byte := max &&& 0xff
    let mask_byte := mask &&& 0xff
    let x := g.next
    let r := set_fixed_byte r j ((x.1 % (max_byte + 1)) &&& mask_byte)
    gp_byte_loop n (j + 1) r (max >>> 8) (mask >>> 8) x.2

/-- The loop of lines 41 to 52 over the general-purpose registers `i, i + 1,
...`, each updated in place. -/
def gp_loop (sg : StateGen) : Nat → Regs → Rng → Regs × Rng
  | _, [], g => ([], g)
  | i, r :: rest, g =>
    let max := sg.get_max_value i
    let mask := sg.get_bitmask i
    let x := gp_byte_loop (num_fixed_bytes r) 0 r max mask g
    let y := gp_loop sg (i + 1) rest x.2
    (x.1 :: y.1, y.2)

/-- The inner loop of lines 55 to 57 over the bytes of one SSE register. -/
def sse_byte_loop : Nat → Nat → BitVector → Rng → BitVector × Rng
  | 0, _, s, g => (s, g)
  | n + 1, j, s, g =>
    let x := g.next
    sse_byte_loop n (j + 1) (set_fixed_byte s j (x.1 % 256)) x.2

/-- The loop of lines 53 to 58 over the SSE registers. -/
def sse_loop : Regs → Rng → Regs × Rng
  | [], g => ([], g)
  | s :: rest, g =>
    let x := sse_byte_loop (num_fixed_bytes s) 0 s g
    let y := sse_loop rest x.2
    (x.1 :: y.1, y.2)

/-- Modelled from the spec: `RFlags::set(i, b)`, bit `i` of the flags
becomes `b`. -/
def rf_set (rf : RFlags) (i : Nat) (b : Bool) : RFlags :=
  if b then rf ||| shl64 1 i else rf &&& not64 (shl64 1 i)

/-- The loop of lines 59 to 63 over the flags `i, i + 1, ...`, `n` flags
remaining; `is_fixed` is `RFlags::is_fixed`. -/
def rf_loop (is_fixed : Nat → Bool) : Nat → Nat → RFlags → Rng → RFlags × Rng
  | 0, _, rf, g => (rf, g)
  | n + 1, i, rf, g =>
    if !is_fixed i then
      let x := g.next
      rf_loop is_fixed n (i + 1) (rf_set rf i (decide (x.1 % 2 ≠ 0))) x.2
    else
      rf_loop is_fixed n (i + 1) rf g

/-- The loop of `StateGen::randomize_mem`, lines 244 to 252, over the offsets
`i, i + 1, ...`, `n` offsets remaining. -/
def randomize_loop : Nat → Nat → Memory → Rng → Memory × Rng
  | 0, _, mem, g => (mem, g)
  | n + 1, i, mem, g =>
    let addr := add64 mem.lower_bound i
    if !mem.is_valid addr then
      let mem := mem.set_valid addr true
      let x := g.next
      randomize_loop n (i + 1) (mem.write addr (x.1 % 256)) x.2
    else
      randomize_loop n (i + 1) mem g

/-- `StateGen::randomize_mem`, lines 244 to 252. -/
def StateGen.randomize_mem (mem : Memory) (g : Rng) : Memory × Rng :=
  randomize_loop mem.size 0 mem g

/-- The number of the register `rsp`. -/
def rsp : Nat := 4

/-- `StateGen::get(CpuState&)`, lines 39 to 75; `rf_size` and `is_fixed` are
`RFlags::size()` and `RFlags::is_fixed`. The state and the generator after
the call are returned; the call itself returns true. -/
def StateGen.get (sg : StateGen) (rf_size : Nat) (is_fixed : Nat → Bool)
    (cs : CpuState) (g : Rng) : CpuState × Rng :=
  let x := gp_loop sg 0 cs.gp g
  let cs := { cs with gp := x.1 }
  let y := sse_loop cs.sse x.2
  let cs := { cs with sse := y.1 }
  let z := rf_loop is_fixed rf_size 0 cs.rf y.2
  let cs := { cs with rf := z.1 }
  let cs := cs.set_gp_quad rsp 0x700000000
  let cs := { cs with stack := cs.stack.resize (sub64 (cs.gp_quad rsp) sg.stack_size_) sg.stack_size_ }
  let cs := { cs with heap := cs.heap.resize 0x100000000 0 }
  let cs := { cs with data := cs.data.resize 0x000000000 0 }
  let w := StateGen.randomize_mem cs.stack z.2
  ({ cs with stack := w.1 }, w.2)

/-- `StateGen::resize_within`, lines 200 to 213. The result is `none` when
the assertion of line 203 fails; otherwise the value returned, the region and
the generator. -/
def StateGen.resize_within (sg : StateGen) (mem : Memory) (addr size : Nat) (g : Rng) :
    Option (Bool × Memory × Rng) :=
  if ¬ (sub64 (add64 addr size) mem.size > mem.lower_bound) then none
  else
    let delta := sub64 (add64 addr size) mem.upper_bound
    if add64 mem.size delta > sg.max_memory_ then some (false, mem, g)
    else
      let mem := mem.resize mem.lower_bound (add64 mem.size delta)
      let x := StateGen.randomize_mem mem g
      some (true, x.1, x.2)

/-- `StateGen::resize_below`, lines 215 to 231. -/
def StateGen.resize_below (sg : StateGen) (mem : Memory) (addr size : Nat) (g : Rng) :
    Bool × Memory × Rng :=
  let new_size :=
    if sub64 (add64 addr size) mem.size > mem.lower_bound then size % 2 ^ 64
    else sub64 mem.upper_bound addr
  if new_size > sg.max_memory_ then (false, mem, g)
  else
    let mem := mem.resize addr new_size
    let x := StateGen.randomize_mem mem g
    (true, x.1, x.2)

/-- `StateGen::resize_above`, lines 233 to 242. -/
def StateGen.resize_above (sg : StateGen) (mem : Memory) (addr size : Nat) (g : Rng) :
    Bool × Memory × Rng :=
  let delta := sub64 (sub64 (add64 addr size) mem.lower_bound) mem.size
  if add64 mem.size delta > sg.max_memory_ then (false, mem, g)
  else
    let mem := mem.resize mem.lower_bound (add64 mem.size delta)
    let x := StateGen.randomize_mem mem g
    (true, x.1, x.2)

/-- `StateGen::resize_mem`, lines 254 to 268. The result is `none` when the
assertion inside `resize_within` fails. -/
def StateGen.resize_mem (sg : StateGen) (mem : Memory) (addr size : Nat) (g : Rng) :
    Option (Bool × Memory × Rng) :=
  if mem.size = 0 then
    let mem := mem.resize addr size
    let x := StateGen.randomize_mem mem g
    some (true, x.1, x.2)
  else if mem.in_range addr then
    match sg.resize_within mem addr size g with
    | none => none
    | some (true, mem, g) => some (true, mem, g)
    | some (false, mem, g) =>
      if addr < mem.lower_bound ∧ (sg.resize_below mem addr size g).1 = true then
        some (sg.resize_below mem addr size g)
      else if mem.upper_bound ≠ 0 ∧ addr ≥ mem.upper_bound ∧
          (sg.resize_above mem addr size g).1 = true then
        some (sg.resize_above mem addr size g)
      else some (false, mem, g)
  else if addr < mem.lower_bound ∧ (sg.resize_below mem addr size g).1 = true then
    some (sg.resize_below mem addr size g)
  else if mem.upper_bound ≠ 0 ∧ addr ≥ mem.upper_bound ∧
      (sg.resize_above mem addr size g).1 = true then
    some (sg.resize_above mem addr size g)
  else some (false, mem, g)

/-- The byte the loop of lines 45 to 51 writes at step `s` of a register:
the outcome drawn, reduced below the byte of the maximum and masked with the
byte of the bitmask. -/
def drawn_byte (max mask : Nat) (g : Rng) (s : Nat) : Nat :=
  (g.draws (g.pos + s) % (((max >>> (8 * s)) &&& 0xff) + 1)) &&& ((mask >>> (8 * s)) &&& 0xff)

/-- A generator as the constructor builds it: stack of 16 bytes, 16
attempts, 1024 bytes of memory, no register configured. -/
def defaultGen : StateGen :=
  { stack_size_ := 16, max_attempts_ := 16, max_memory_ := 1024, allow_unaligned_ := false,
    max_register_values_ := [], bitmask_values_ := [], tried_to_fix_misalign_ := false }

/-- The default generator after `set_max_value(rsp, 0)`. -/
def rspCappedGen : StateGen := { defaultGen with max_register_values_ := [(rsp, 0)] }

/-- The default generator after `set_max_value(rax, 0x1234)` and
`set_bitmask(rax, 0xff0f)`. -/
def raxCappedGen : StateGen :=
  { defaultGen with max_register_values_ := [(0, 0x1234)], bitmask_values_ := [(0, 0xff0f)] }

/-- The default generator after `set_max_memory(4)`. -/
def smallMemGen : StateGen := { defaultGen with max_memory_ := 4 }

/-- A generator whose every outcome is 0xffffffff. -/
def onesRng : Rng := { draws := fun _ => 0xffffffff, pos := 0 }

/-- The heap as the constructor of `CpuState` leaves it: no byte at
0x100000000. -/
def emptyHeap : Memory := { base := 0x100000000, contents := [], valid := [] }

/-- The flags that are fixed in the examples: bit 1. -/
def bitOneFixed : Nat → Bool := fun i => decide (i = 1)

/-! ## `DdecValidator` (src/validator/ddec.cc) -/

/-- The register of a column of the equality learner: a general-purpose
register or an SSE register. -/
inductive TermReg where
  | gp (r : R)
  | sse (s : Sse)
  deriving DecidableEq, Repr

/-- Modelled from the spec: `EqualityInvariant::Term`
(`src/validator/invariants/equality.h` is not among the sources), with the
fields the learner assigns. -/
structure Term where
  reg : TermReg
  is_rewrite : Bool
  sign_extend : Bool
  index : Nat
  coefficient : Nat
  deriving DecidableEq, Repr

/-- Modelled from the spec: the invariants the validator builds, as a tagged
variant carrying the constructor arguments of each class
(`src/validator/invariants/` is not among the sources). -/
inductive Invariant where
  | true_
  | false_
  | no_signals
  | memory_equality
  | state_equality (regs : RegSet)
  | flag (instr : Instruction) (is_rewrite : Bool) (is_fallthrough : Bool)
  | top_zero (r : R) (is_rewrite : Bool)
  | nonzero (r : R) (is_rewrite : Bool)
  | mod2n (r : R) (is_rewrite : Bool) (n : Nat)
  | sign (r : R) (is_rewrite : Bool) (positive : Bool)
  | inequality (r1 r2 : R) (is_rewrite1 is_rewrite2 : Bool) (arg5 arg6 : Bool)
  | memory_null (m : Mem) (is_rewrite : Bool) (is_null : Bool)
  | equality (terms : List Term) (constant : Nat)
  deriving DecidableEq, Repr

/-- One call of the solver `check(target, rewrite, p, q, assume, prove)`: the
two paths, the conjunction assumed and the invariant to prove. -/
structure Query where
  p : List Nat
  q : List Nat
  assume : List Invariant
  prove : Invariant
  deriving DecidableEq, Repr

/-- What `check_proof` reads besides the invariants: the two graphs, the
cutpoint locations, `get_jump_inv` on either side (lines 75 to 98; it reads
`ObligationChecker::is_jump` and the code of the graph, which are not among
the sources), and the solver behind `check`. -/
structure DdecEnv where
  target : Cfg
  rewrite : Cfg
  target_cuts : List Nat
  rewrite_cuts : List Nat
  target_jump_inv : List Nat → Invariant
  rewrite_jump_inv : List Nat → Invariant
  check : Query → Bool

/-- What `check_proof` writes: the map `failed_invariants` (an absent key
reads as the empty vector) and the solver queries issued so far, in order. -/
structure ProofState where
  failed_invariants : Nat → List Nat
  queries : List Query

/-- The `return` statement by which `check_proof` ends: lines 334, 341, 388,
420 and 431. -/
inductive ReturnSite where
  | target_paths_differ
  | rewrite_paths_differ
  | invariant_failed
  | divergence_failed
  | proved
  deriving DecidableEq, Repr

/-- The statement `failed_invariants[j].push_back(m)`. -/
def push_failed (failed : Nat → List Nat) (j m : Nat) : Nat → List Nat :=
  fun x => if x = j then failed j ++ [m] else failed x

/-- A path with its first block erased when the start cutpoint holds
instructions: `if (cfg.num_instrs(cuts[i])) p.erase(p.begin())`. -/
def erase_start (cfg : Cfg) (cut : Nat) (p : List Nat) : List Nat :=
  if cfg.num_instrs cut ≠ 0 then p.eraseIdx 0 else p

/-- The loop of lines 372 to 382 over the conjuncts `m, m + 1, ...` of the
end invariant; the state carries `success`. -/
def check_conjuncts (env : DdecEnv) (j : Nat) (p q : List Nat) (copy : List Invariant) :
    Nat → List Invariant → ProofState × Bool → ProofState × Bool
  | _, [], st => st
  | m, inv :: rest, st =>
    let query : Query := ⟨p, q, copy, inv⟩
    let equiv := env.check query
    let ps : ProofState := { st.1 with queries := st.1.queries ++ [query] }
    if !equiv then
      check_conjuncts env j p q copy (m + 1) rest
        ({ ps with failed_invariants := push_failed ps.failed_invariants j m }, false)
    else
      check_conjuncts env j p q copy (m + 1) rest (ps, st.2)

/-- The loop of lines 353 to 384 over the rewrite paths, for one target
path `p` (already shortened) with its jump invariant. -/
def check_rewrite_paths (env : DdecEnv) (invariants : List (List Invariant)) (i j : Nat)
    (p : List Nat) (target_jump_inv : Invariant) :
    List (List Nat) → ProofState × Bool → ProofState × Bool
  | [], st => st
  | q :: rest, st =>
    let rewrite_jump_inv := env.rewrite_jump_inv q
    let q := erase_start env.rewrite (env.rewrite_cuts.getD i 0) q
    let copy := invariants.getD i [] ++ [target_jump_inv] ++ [rewrite_jump_inv]
    let end_inv := invariants.getD j []
    check_rewrite_paths env invariants i j p target_jump_inv rest
      (check_conjuncts env j p q copy 0 end_inv st)

/-- The loop of lines 348 to 385 over the target paths. -/
def check_target_paths (env : DdecEnv) (invariants : List (List Invariant)) (i j : Nat)
    (rewrite_paths_ij : List (List Nat)) :
    List (List Nat) → ProofState × Bool → ProofState × Bool
  | [], st => st
  | p :: rest, st =>
    let target_jump_inv := env.target_jump_inv p
    let p := erase_start env.target (env.target_cuts.getD i 0) p
    check_target_paths env invariants i j rewrite_paths_ij rest
      (check_rewrite_paths env invariants i j p target_jump_inv rewrite_paths_ij st)

/-- The loop of lines 405 to 422 over the rewrite paths towards another
cutpoint; the result is false as soon as one query fails, and no further
query is issued. -/
def diverge_rewrite_paths (env : DdecEnv) (invariants : List (List Invariant)) (i : Nat)
    (p : List Nat) (target_jump_inv : Invariant) :
    List (List Nat) → ProofState → ProofState × Bool
  | [], st => (st, true)
  | q :: rest, st =>
    let rewrite_jump_inv := env.rewrite_jump_inv q
    let q := erase_start env.rewrite (env.rewrite_cuts.getD i 0) q
    let copy := invariants.getD i [] ++ [target_jump_inv] ++ [rewrite_jump_inv]
    let query : Query := ⟨p, q, copy, Invariant.false_⟩
    let equiv := env.check query
    let st : ProofState := { st with queries := st.queries ++ [query] }
    if !equiv then (st, false)
    else diverge_rewrite_paths env invariants i p target_jump_inv rest st

/-- The loop of lines 399 to 423 over the target paths. -/
def diverge_target_paths (env : DdecEnv) (invariants : List (List Invariant)) (i : Nat)
    (rewrite_paths_ik : List (List Nat)) :
    List (List Nat) → ProofState → ProofState × Bool
  | [], st => (st, true)
  | p :: rest, st =>
    let target_jump_inv := env.target_jump_inv p
    let p := erase_start env.target (env.target_cuts.getD i 0) p
    match diverge_rewrite_paths env invariants i p target_jump_inv rewrite_paths_ik st with
    | (st, false) => (st, false)
    | (st, true) => diverge_target_paths env invariants i rewrite_paths_ik rest st

/-- The loop of lines 392 to 424 over the other cutpoints `k`. -/
def diverge_cutpoints (env : DdecEnv) (invariants : List (List Invariant)) (i j : Nat)
    (target_paths_ij : List (List Nat)) :
    List Nat → ProofState → ProofState × Bool
  | [], st => (st, true)
  | k :: rest, st =>
    if j = k then diverge_cutpoints env invariants i j target_paths_ij rest st
    else
      let rewrite_paths_ik :=
        enumerate_paths env.rewrite 1 (env.rewrite_cuts.getD i 0) (env.rewrite_cuts.getD k 0)
          (some env.rewrite_cuts)
      match diverge_target_paths env invariants i rewrite_paths_ik target_paths_ij st with
      | (st, false) => (st, false)
      | (st, true) => diverge_cutpoints env invariants i j target_paths_ij rest st

/-- The body of the double loop of `check_proof` for the pair `(i, j)`, lines
312 to 424: `some site` when it returns false, `none` when the loop goes
on. -/
def check_pair (env : DdecEnv) (invariants : List (List Invariant)) (i j : Nat)
    (st : ProofState) : ProofState × Option ReturnSite :=
  let target_paths_ij :=
    enumerate_paths env.target 1 (env.target_cuts.getD i 0) (env.target_cuts.getD j 0)
      (some env.target_cuts)
  let rewrite_paths_ij :=
    enumerate_paths env.rewrite 1 (env.rewrite_cuts.getD i 0) (env.rewrite_cuts.getD j 0)
      (some env.rewrite_cuts)
  let target_paths_ij_more :=
    enumerate_paths env.target 2 (env.target_cuts.getD i 0) (env.target_cuts.getD j 0)
      (some env.target_cuts)
  let rewrite_paths_ij_more :=
    enumerate_paths env.rewrite 2 (env.rewrite_cuts.getD i 0) (env.rewrite_cuts.getD j 0)
      (some env.rewrite_cuts)
  if target_paths_ij.length ≠ target_paths_ij_more.length then
    (st, some ReturnSite.target_paths_differ)
  else if rewrite_paths_ij.length ≠ rewrite_paths_ij_more.length then
    (st, some ReturnSite.rewrite_paths_differ)
  else
    let r := check_target_paths env invariants i j rewrite_paths_ij target_paths_ij (st, true)
    if !r.2 then (r.1, some ReturnSite.invariant_failed)
    else
      let d := diverge_cutpoints env invariants i j target_paths_ij
        (List.range env.rewrite_cuts.length) r.1
      if !d.2 then (d.1, some ReturnSite.divergence_failed)
      else (d.1, none)

/-- A `for` loop whose body may return from the enclosing function. -/
def loop_until {α : Type} (body : ProofState → α → ProofState × Option ReturnSite) :
    List α → ProofState → ProofState × Option ReturnSite
  | [], st => (st, none)
  | a :: rest, st =>
    match body st a with
    | (st, some site) => (st, some site)
    | (st, none) => loop_until body rest st

/-- `DdecValidator::check_proof`, lines 305 to 433: the value returned, the
state left behind and the `return` statement taken. -/
def check_proof (env : DdecEnv) (invariants : List (List Invariant)) (st : ProofState) :
    Bool × ProofState × ReturnSite :=
  match loop_until (fun st i =>
      loop_until (fun st j => check_pair env invariants i j st)
        (List.range env.rewrite_cuts.length) st)
      (List.range env.target_cuts.length) st with
  | (st, some site) => (false, st, site)
  | (st, none) => (true, st, ReturnSite.proved)

/-- The loop of lines 268 to 276 over the sorted indices, largest first:
`last` skips the repetitions, `made_a_change` is set at every removal.
`ConjunctionInvariant::remove(index)` erases the conjunct at the index. -/
def remove_loop : List Nat → Nat → List Invariant → Bool → List Invariant × Bool
  | [], _, conj, made_a_change => (conj, made_a_change)
  | it :: rest, last, conj, made_a_change =>
    if last = it then remove_loop rest last conj made_a_change
    else remove_loop rest it (conj.eraseIdx it) true

/-- The body of the loop of line 264 for one cutpoint `i`, lines 265 to
276. -/
def remove_at (failed_invariants : Nat → List Nat)
    (st : List (List Invariant) × Bool) (i : Nat) : List (List Invariant) × Bool :=
  let to_remove := failed_invariants i
  let to_remove := to_remove.insertionSort (fun a b => a ≤ b)
  let last := 2 ^ 64 - 1
  let r := remove_loop to_remove.reverse last (st.1.getD i []) st.2
  (st.1.set i r.1, r.2)

/-- The removal step of the Houdini loop, lines 263 to 277: the invariants
after it and `made_a_change`. The loop runs over `1 <= i < size - 1` with
`size - 1` computed on `size_t`. -/
def removal_step (invariants : List (List Invariant)) (failed_invariants : Nat → List Nat) :
    List (List Invariant) × Bool :=
  (List.range' 1 (sub64 invariants.length 1 - 1)).foldl (remove_at failed_invariants)
    (invariants, false)

/-- How one iteration of the Houdini loop ends. -/
inductive HoudiniStep where
  | proved (queries : List Query)
  | stuck (queries : List Query)
  | retry (invariants : List (List Invariant)) (queries : List Query)

/-- One iteration of the Houdini loop of `verify`, lines 251 to 284: `proved`
is `return true`, `stuck` is the `break` of line 282, `retry` goes round
again with the invariants left by the removal step. -/
def houdini_iteration (env : DdecEnv) (invariants : List (List Invariant))
    (queries : List Query) : HoudiniStep :=
  let r := check_proof env invariants { failed_invariants := fun _ => [], queries := queries }
  if r.1 then HoudiniStep.proved r.2.1.queries
  else
    let s := removal_step invariants r.2.1.failed_invariants
    if !s.2 then HoudiniStep.stuck r.2.1.queries
    else HoudiniStep.retry s.1 r.2.1.queries

/-- The path counts between cutpoints `i` and `j` at bound 1 and at bound 2
agree, in the target and in the rewrite. -/
def finite_paths (env : DdecEnv) (i j : Nat) : Prop :=
  (enumerate_paths env.target 1 (env.target_cuts.getD i 0) (env.target_cuts.getD j 0)
      (some env.target_cuts)).length =
    (enumerate_paths env.target 2 (env.target_cuts.getD i 0) (env.target_cuts.getD j 0)
      (some env.target_cuts)).length ∧
  (enumerate_paths env.rewrite 1 (env.rewrite_cuts.getD i 0) (env.rewrite_cuts.getD j 0)
      (some env.rewrite_cuts)).length =
    (enumerate_paths env.rewrite 2 (env.rewrite_cuts.getD i 0) (env.rewrite_cuts.getD j 0)
      (some env.rewrite_cuts)).length

/-- A graph 0 -> 2 -> 1 in which block 2 also loops on itself. -/
def innerLoop : Cfg :=
  { num_blocks := 3, get_entry := 0, get_exit := 1,
    succs := fun b => if b = 0 then [2] else if b = 2 then [2, 1] else [],
    num_instrs := fun _ => 1 }

/-- A graph in which block 0 leads to block 1 and to block 2, and both lead
to the exit 3. -/
def fork : Cfg :=
  { num_blocks := 4, get_entry := 0, get_exit := 3,
    succs := fun b => if b = 0 then [1, 2] else if b = 1 then [3] else if b = 2 then [3] else [],
    num_instrs := fun _ => 1 }

/-- A solver that proves every obligation but `false`. -/
def allButFalse : Query → Bool := fun query =>
  match query.prove with
  | Invariant.false_ => false
  | _ => true

/-- Target and rewrite are the graph `innerLoop` with cutpoints at blocks 0
and 1. -/
def innerLoopEnv : DdecEnv :=
  { target := innerLoop, rewrite := innerLoop, target_cuts := [0, 1], rewrite_cuts := [0, 1],
    target_jump_inv := fun _ => Invariant.true_, rewrite_jump_inv := fun _ => Invariant.true_,
    check := allButFalse }

/-- Target and rewrite are the graph `fork` with cutpoints at the entry 0,
at block 1 and at the exit 3. -/
def forkEnv : DdecEnv :=
  { target := fork, rewrite := fork, target_cuts := [0, 1, 3], rewrite_cuts := [0, 1, 3],
    target_jump_inv := fun _ => Invariant.true_, rewrite_jump_inv := fun _ => Invariant.true_,
    check := allButFalse }

/-- Three cutpoints, each with the invariants no-signals and
memory-equality. -/
def threeInvariants : List (List Invariant) :=
  [[Invariant.no_signals, Invariant.memory_equality],
   [Invariant.no_signals, Invariant.memory_equality],
   [Invariant.no_signals, Invariant.memory_equality]]

/-- A map of failed invariants with entries for the first and the last
cutpoint only. -/
def endsFailed : Nat → List Nat := fun i => if i = 0 then [0, 1] else if i = 2 then [1] else []

/-- A state of `check_proof` with nothing recorded. -/
def emptyProofState : ProofState := { failed_invariants := fun _ => [], queries := [] }

/-- Two cutpoints, each with the invariants no-signals and
memory-equality. -/
def twoInvariants : List (List Invariant) :=
  [[Invariant.no_signals, Invariant.memory_equality],
   [Invariant.no_signals, Invariant.memory_equality]]

/-! ## `Disassembler` (src/disassembler/disassembler.cc) -/

/-- What the world outside answers to the disassembler: whether
`fstream::open` succeeds on a name, and whether the process stream of a shell
command is open after it was spawned. -/
structure DisEnv where
  can_open : List Char → Bool
  spawn_is_open : List Char → Bool

/-- The members of `Disassembler` the two functions touch, with a log of
every name handed to `fstream::open` and of every command handed to the
shell through `ipstream`. `set_error` stores the message. -/
structure Disassembler where
  flat_binary_ : Bool
  error_ : Option (List Char)
  opened : List (List Char)
  spawned : List (List Char)

/-- The statement `set_error(message)`. -/
def Disassembler.set_error (d : Disassembler) (message : List Char) : Disassembler :=
  { d with error_ := some message }

/-- The chain of tests of lines 100 to 114: the characters for which the
loop of `check_filename` goes on. -/
def allowed_char (c : Char) : Bool :=
  if 'a'.toNat ≤ c.toNat ∧ c.toNat ≤ 'z'.toNat then true
  else if 'A'.toNat ≤ c.toNat ∧ c.toNat ≤ 'Z'.toNat then true
  else if '0'.toNat ≤ c.toNat ∧ c.toNat ≤ '9'.toNat then true
  else if c = '.' ∨ c = '/' ∨ c = '_' ∨ c = '-' ∨ c = '~' ∨ c = '@' ∨ c = '+' then true
  else false

/-- The loop of lines 97 to 122 from position `i` on: the first character
that is not allowed, if there is one. -/
def first_rejected : List Char → Option Char
  | [] => none
  | c :: rest => if allowed_char c then first_rejected rest else some c

/-- `Disassembler::check_filename`, lines 95 to 134. -/
def Disassembler.check_filename (env : DisEnv) (d : Disassembler) (s : List Char) :
    Bool × Disassembler :=
  match first_rejected s with
  | some c =>
    (false, d.set_error ("Character '".toList ++ [c] ++
      "' not allowed in filename for security.".toList))
  | none =>
    let d := { d with opened := d.opened ++ [s] }
    if env.can_open s then (true, d)
    else (false, d.set_error "Error opening file.".toList)

/-- `Disassembler::run_objdump`, lines 136 to 162: the command of the stream
returned, `none` for `NULL`. The test of line 151 is on the result of `new`,
which is never null. -/
def Disassembler.run_objdump (env : DisEnv) (d : Disassembler) (filename : List Char)
    (only_header : Bool) : Option (List Char) × Disassembler :=
  let r := d.check_filename env filename
  if !r.1 then (none, r.2)
  else
    let d := r.2
    let target :=
      if only_header then "/usr/bin/objdump -h ".toList ++ filename
      else if d.flat_binary_ then
        "/usr/bin/objdump -D -Msuffix -b binary -m i386:x86-64 ".toList ++ filename
      else "/usr/bin/objdump -j .text -Msuffix -d ".toList ++ filename
    let d := { d with spawned := d.spawned ++ [target] }
    if !env.spawn_is_open target then
      (none, d.set_error "Unknown error spawning objdump.".toList)
    else (some target, d)

/-- The characters the specification allows in a file name: an ASCII
letter, a digit, or one of `. / _ - ~ @ +`. -/
def is_letter_digit_or_listed (c : Char) : Prop :=
  c.isAlpha = true ∨ c.isDigit = true ∨ c ∈ ['.', '/', '_', '-', '~', '@', '+']

/-- A world in which every file opens and every command spawns. -/
def openWorld : DisEnv := { can_open := fun _ => true, spawn_is_open := fun _ => true }

/-- A disassembler as constructed: no error, nothing opened or spawned. -/
def freshDisassembler : Disassembler :=
  { flat_binary_ := false, error_ := none, opened := [], spawned := [] }

/-! ## The Houdini loop of `DdecValidator::verify` as a whole -/

/-- The conjunction `c`, whose first conjunct has position `k`, with the
conjuncts at the positions listed in `L` deleted, the others in order. -/
def delete_positions_from {α : Type} (k : Nat) (c : List α) (L : List Nat) : List α :=
  ((c.enumFrom k).filter (fun p => decide (p.1 ∉ L))).map Prod.snd

/-- The conjunction `c` with the conjuncts at the positions listed in `L`
deleted, each once, the surviving conjuncts keeping their order. -/
def delete_positions {α : Type} (c : List α) (L : List Nat) : List α :=
  delete_positions_from 0 c L

/-- The cutpoints strictly between the first and the last. -/
def interior (invariants : List (List Invariant)) (i : Nat) : Prop :=
  0 < i ∧ i + 1 < invariants.length

/-- A map of failed invariants that lists positions 1, 0 and 1 again for
cutpoint 1, and positions for the two ends as well. -/
def unsortedFailed : Nat → List Nat :=
  fun i => if i = 1 then [1, 0, 1] else if i = 0 then [0] else if i = 2 then [1] else []

/-- Three cutpoints; the middle one holds three conjuncts. -/
def middleThree : List (List Invariant) :=
  [[Invariant.no_signals], [Invariant.true_, Invariant.no_signals, Invariant.memory_equality],
   [Invariant.no_signals, Invariant.memory_equality]]

/-- The inner loop of lines 251 to 284, with the behaviour of `check_proof`
as a parameter: `cp n invariants` is what its call number `n` returns and the
map of failed invariants it leaves. The result is `none` when the fuel runs
out before the loop ends; otherwise whether the loop ended with `return true`
(or else with the `break` of line 282), the invariants at that point and the
number of iterations made. -/
def houdini_loop (cp : Nat → List (List Invariant) → Bool × (Nat → List Nat)) :
    Nat → Nat → List (List Invariant) → Option (Bool × List (List Invariant) × Nat)
  | 0, _, _ => none
  | fuel + 1, n, invariants =>
    let r := cp n invariants
    if r.1 then some (true, invariants, 1)
    else
      let s := removal_step invariants r.2
      if !s.2 then some (false, s.1, 1)
      else (houdini_loop cp fuel (n + 1) s.1).map (fun x => (x.1, x.2.1, x.2.2 + 1))

/-- The number of conjuncts held at the interior cutpoints. -/
def interior_total (invariants : List (List Invariant)) : Nat :=
  ((List.range' 1 (invariants.length - 2)).map (fun i => (invariants.getD i []).length)).sum

/-- The sizes fit `size_t`, and the vector is not empty (line 240 returns
otherwise). -/
def sizes_ok (invariants : List (List Invariant)) : Prop :=
  invariants.length ≠ 0 ∧ invariants.length < 2 ^ 64 ∧
    ∀ i, interior invariants i → (invariants.getD i []).length < 2 ^ 64

/-- A `check_proof` reports only positions that exist in the conjunction of
the cutpoint. -/
def reports_in_range (cp : Nat → List (List Invariant) → Bool × (Nat → List Nat)) : Prop :=
  ∀ n invariants i, ∀ y ∈ (cp n invariants).2 i, y < (invariants.getD i []).length

/-- A `check_proof` that never succeeds and reports the first conjunct of
cutpoint 1 as failed as long as there is one. -/
def firstFails : Nat → List (List Invariant) → Bool × (Nat → List Nat) :=
  fun _ invariants =>
    (false, fun i => if i = 1 ∧ (invariants.getD 1 []).length ≠ 0 then [0] else [])

/-! ## `simplify_disjunction` (src/validator/ddec.cc, lines 439 to 516)

A conjunction is the list of its conjuncts, a disjunction the list of its
disjuncts; `α` is the type of the leaf invariants, compared with `==` of the
invariant classes. -/

/-- The loop of lines 449 to 459: a disjunct with a conjunct equal to false
is removed, and the next one moves into its place. -/
def drop_false_disjuncts {α : Type} [DecidableEq α] (_false : α) :
    List (List α) → List (List α)
  | [] => []
  | conj :: rest =>
    if conj.any (fun x => decide (x = _false)) then drop_false_disjuncts _false rest
    else conj :: drop_false_disjuncts _false rest

/-- The loop of lines 467 to 505 from index `i` of the first disjunct on. A
leaf found in every other disjunct joins `common` and every occurrence of it
is removed from every disjunct, the first included, and `i` stays (`i--`
before `++i`); otherwise `i` advances. The result is `none` when the fuel
runs out before `i` reaches the end of the first disjunct. -/
def extract_common {α : Type} [DecidableEq α] :
    Nat → Nat → List (List α) → List α → Option (List (List α) × List α)
  | 0, _, _, _ => none
  | fuel + 1, i, disjs, common =>
    let first_conjunct := disjs.headD []
    match first_conjunct.get? i with
    | none => some (disjs, common)
    | some leaf =>
      let contained_in_all := disjs.tail.all (fun other => decide (leaf ∈ other))
      if contained_in_all then
        extract_common fuel i
          (disjs.map (fun other => other.filter (fun x => decide (x ≠ leaf))))
          (common ++ [leaf])
      else extract_common fuel (i + 1) disjs common

/-- `simplify_disjunction`: the conjunction returned, as the common
conjuncts followed by the one disjunction that line 507 adds. The result is
`none` when no disjunct is left for `disjs[0]` of line 465. -/
def simplify_disjunction {α : Type} [DecidableEq α] (_false : α) (disjs : List (List α)) :
    Option (List α × List (List α)) :=
  match drop_false_disjuncts _false disjs with
  | [] => none
  | first :: rest =>
    (extract_common (first.length + 1) 0 (first :: rest) []).map (fun r => (r.2, r.1))

/-- The truth value of a conjunction under an assignment to the leaves. -/
def eval_conjunction {α : Type} (v : α → Bool) (conj : List α) : Bool := conj.all v

/-- The truth value of a disjunction of conjunctions. -/
def eval_disjunction {α : Type} (v : α → Bool) (disjs : List (List α)) : Bool :=
  disjs.any (eval_conjunction v)

/-- The truth value of what `simplify_disjunction` returns: the common
conjuncts and the residual disjunction. -/
def eval_simplified {α : Type} (v : α → Bool) (r : List α × List (List α)) : Bool :=
  eval_conjunction v r.1 && eval_disjunction v r.2

/-- A disjunction over leaves 0 (false), 1, 2, ...: the second disjunct
holds false, the others share the leaves 1 and 3, leaf 1 twice in the
first. -/
def sampleDisjunction : List (List Nat) := [[1, 2, 1, 3], [4, 0], [3, 5, 1], [1, 3]]

/-! ## `StateGen::fix` and `StateGen::fix_misalignment` (src/stategen/stategen.cc) -/

/-- The stack `get` leaves: 16 valid bytes below 0x700000000. -/
def stackRegion : Memory :=
  { base := 0x6FFFFFFF0, contents := List.replicate 16 0, valid := List.replicate 16 true }

/-- Modelled from the spec: what `StateGen` reads of an
`x64asm::Instruction` (the x64asm library is not among the sources): the
kind tests, `mem_index()` (`none` for -1), the memory operand at that index
with `contains_seg()` and `rip_offset()`, and for a rip-relative operand the
sum `fxn.get_rip_offset() + fxn.hex_offset(line) + fxn.hex_size(line)` of
the function that holds the instruction. -/
structure SgInstr where
  is_push : Bool
  is_pop : Bool
  is_any_return : Bool
  is_call : Bool
  is_explicit_memory_dereference : Bool
  is_implicit_memory_dereference : Bool
  mem_index : Option Nat
  mem : Mem
  contains_seg : Bool
  rip_offset : Bool
  rip_base : Nat
  deriving DecidableEq, Repr

/-- What a call of `fix` or `fix_misalignment` leaves: the value returned,
the generator object (for `tried_to_fix_misalign_`), the state `fixed`,
`error_message_` and the random generator. -/
structure FixOutcome where
  result : Bool
  sg : StateGen
  fixed : CpuState
  error_message_ : String
  g : Rng

/-- `StateGen::already_allocated`, lines 100 to 102 of stategen.h. -/
def already_allocated (mem : Memory) (addr size : Nat) : Bool :=
  mem.in_range addr && mem.in_range (sub64 (add64 addr size) 1)

/-- `StateGen::is_misaligned`, lines 104 to 106 of stategen.h. -/
def is_misaligned (addr size : Nat) : Bool :=
  (decide (size = 16) && decide (addr % 16 ≠ 0)) || (decide (size = 32) && decide (addr % 32 ≠ 0))

/-- `StateGen::is_supported_deref`, lines 153 to 186: the value returned
and `error_message_` after the call. -/
def is_supported_deref (instr : SgInstr) (error_message_ : String) : Bool × String :=
  if instr.is_push || instr.is_pop || instr.is_any_return || instr.is_call then
    if instr.is_explicit_memory_dereference then
      (false, "StateGen does not support push/pop with memory argument.")
    else (true, error_message_)
  else if instr.is_implicit_memory_dereference then
    (false, "Implicit memory dereferences not supported.")
  else if instr.mem_index = none then
    (false, "Could not find an explicit or implicit memory dereference." ++
      "  Bug somewhere (forgot retq?).")
  else if instr.contains_seg then (false, "No support for segment addressing")
  else (true, error_message_)

/-- `StateGen::get_size`, lines 189 to 198. -/
def get_size (instr : SgInstr) : Nat :=
  if instr.is_push || instr.is_pop || instr.is_any_return || instr.is_call then 8
  else instr.mem.size / 8

/-- Modelled from the spec: `CpuState::get_addr(Instruction)` (defined in
`src/state/cpu_state.cc`, not among the sources): the effective address of
the memory operand of the instruction. -/
def CpuState.get_addr_instr (s : CpuState) (instr : SgInstr) : Nat := s.get_addr instr.mem

/-- Assignment through `gp[idx].get_fixed_byte(0)`. -/
def CpuState.set_gp_byte0 (s : CpuState) (idx val : Nat) : CpuState :=
  { s with gp := s.gp.set idx (set_fixed_byte (s.gp.getD idx []) 0 val) }

/-- `StateGen::fix_misalignment`, lines 270 to 296. -/
def StateGen.fix_misalignment (sg : StateGen) (cs fixed : CpuState) (instr : SgInstr)
    (error_message_ : String) (g : Rng) : FixOutcome :=
  let addr := cs.get_addr_instr instr
  let mask := 0x1f
  let offset := addr &&& mask
  match instr.mem.base with
  | some base =>
    let current := cs.gp_quad base
    if (sub64 current offset) &&& mask ≠ 0 ∧ sg.tried_to_fix_misalign_ = false then
      let new_byte := sub64 (current &&& mask) offset
      { result := true, sg := { sg with tried_to_fix_misalign_ := true },
        fixed := fixed.set_gp_byte0 base new_byte, error_message_ := error_message_, g := g }
    else
      { result := false, sg := { sg with tried_to_fix_misalign_ := false }, fixed := fixed,
        error_message_ := "Could not fix misaligned memory reference.", g := g }
  | none =>
    { result := false, sg := { sg with tried_to_fix_misalign_ := false }, fixed := fixed,
      error_message_ := "Could not find misaligned memory reference.", g := g }

/-- The outcome of lines 298 to 343 of `StateGen::fix`: either the function
has returned (`done`), or a region of `fixed` was resized and the test of
lines 345 to 358 is next (`resized`). -/
inductive FixStage where
  | done (out : FixOutcome)
  | resized (sg : StateGen) (fixed : CpuState) (g : Rng)

/-- Lines 298 to 343 of `StateGen::fix`. `signal_text` stands for the text
`to_string((int)code) + " [" + readable_error_code(code) + "]"`, whose
functions are not among the sources. The result is `none` when the assertion
of `resize_within` fails. -/
def StateGen.fix_resize (sg : StateGen) (signal_text : ErrorCode → String)
    (cs fixed : CpuState) (instr : SgInstr) (g : Rng) : Option FixStage :=
  let error_message_ := ""
  if cs.code ≠ ErrorCode.SIGSEGV_ then
    some (FixStage.done
      { result := false, sg := sg, fixed := fixed, g := g,
        error_message_ :=
          "Interrupt was not segfault, but signal " ++ signal_text cs.code ++ " instead." })
  else
    let d := is_supported_deref instr error_message_
    if !d.1 then
      some (FixStage.done
        { result := false, sg := sg, fixed := fixed, g := g, error_message_ := d.2 })
    else
      let error_message_ := d.2
      let size := get_size instr
      let addr := cs.get_addr_instr instr
      let addr :=
        if instr.mem_index ≠ none ∧ instr.rip_offset = true then add64 instr.mem.disp instr.rip_base
        else addr
      if is_misaligned addr size && !sg.allow_unaligned_ then
        some (FixStage.done (sg.fix_misalignment cs fixed instr error_message_ g))
      else if already_allocated fixed.stack addr size then
        some (FixStage.done
          { result := false, sg := { sg with tried_to_fix_misalign_ := false },
            fixed := fixed, g := g,
            error_message_ := "Memory was already allocated in stack." })
      else if already_allocated fixed.heap addr size then
        some (FixStage.done
          { result := false, sg := { sg with tried_to_fix_misalign_ := false },
            fixed := fixed, g := g,
            error_message_ := "Memory was already allocated in heap." })
      else
        match sg.resize_mem fixed.stack addr size g with
        | none => none
        | some (true, stack, g) => some (FixStage.resized sg { fixed with stack := stack } g)
        | some (false, stack, g) =>
          let fixed := { fixed with stack := stack }
          match sg.resize_mem fixed.heap addr size g with
          | none => none
          | some (true, heap, g) => some (FixStage.resized sg { fixed with heap := heap } g)
          | some (false, heap, g) =>
            some (FixStage.done
              { result := false, sg := sg, fixed := { fixed with heap := heap }, g := g,
                error_message_ := "Could not resize memory." })

/-- Lines 345 to 361 of `StateGen::fix`: the test for overlap of stack and
heap and the final `return true`. The error message was cleared at line
302. -/
def overlap_check (sg : StateGen) (fixed : CpuState) (g : Rng) : FixOutcome :=
  if fixed.stack.lower_bound ≤ fixed.heap.lower_bound then
    let space := fixed.heap.lower_bound - fixed.stack.lower_bound
    if space < fixed.stack.size then
      { result := false, sg := sg, fixed := fixed, g := g,
        error_message_ := "Heap and stack overlap." }
    else { result := true, sg := sg, fixed := fixed, g := g, error_message_ := "" }
  else
    let space := fixed.stack.lower_bound - fixed.heap.lower_bound
    if space < fixed.heap.size then
      { result := false, sg := sg, fixed := fixed, g := g,
        error_message_ := "Heap and stack overlap." }
    else { result := true, sg := sg, fixed := fixed, g := g, error_message_ := "" }

/-- `StateGen::fix`, lines 298 to 362. -/
def StateGen.fix (sg : StateGen) (signal_text : ErrorCode → String)
    (cs fixed : CpuState) (instr : SgInstr) (g : Rng) : Option FixOutcome :=
  match sg.fix_resize signal_text cs fixed instr g with
  | none => none
  | some (FixStage.done out) => some out
  | some (FixStage.resized sg fixed g) => some (overlap_check sg fixed g)

/-- The two address ranges `[lower_bound, lower_bound + size)` share an
address. -/
def ranges_overlap (a b : Memory) : Prop :=
  ∃ addr, a.in_range addr = true ∧ b.in_range addr = true

/-- Whether lines 298 to 343 of `fix` ended with a region resized, so that
the test for overlap is reached. -/
def reaches_overlap_test : Option FixStage → Bool
  | some (FixStage.resized _ _ _) => true
  | _ => false

/-- The state `fixed` a stage holds. -/
def FixStage.state : FixStage → CpuState
  | FixStage.done out => out.fixed
  | FixStage.resized _ fixed _ => fixed

/-- A state that faulted with SIGSEGV, with rax holding 0x100000000 and the
stack of 16 bytes below 0x700000000; the heap is empty. -/
def segvState : CpuState :=
  { zeroState with code := ErrorCode.SIGSEGV_, gp := [0x100000000] :: List.replicate 15 [0],
                   stack := stackRegion }

/-- A 64-bit load from `(%rax)`. -/
def loadRax : SgInstr :=
  { is_push := false, is_pop := false, is_any_return := false, is_call := false,
    is_explicit_memory_dereference := true, is_implicit_memory_dereference := false,
    mem_index := some 1, mem := { size := 64, disp := 0, base := some 0, index := none, scale := 1 },
    contains_seg := false, rip_offset := false, rip_base := 0 }

/-- The text of an error code in the examples. -/
def noText : ErrorCode → String := fun _ => ""

/-- A 256-bit load from `(%rax,%rax,1)`: base and index are the same
register. -/
def doubledOperand : SgInstr :=
  { loadRax with mem := { size := 256, disp := 0, base := some 0, index := some 0, scale := 1 } }

/-- A 256-bit load from `8(%rax)`. -/
def offsetOperand : SgInstr :=
  { loadRax with mem := { size := 256, disp := 8, base := some 0, index := none, scale := 1 } }

/-- The faulting state with rax holding 1. -/
def raxOneState : CpuState := { segvState with gp := [1] :: List.replicate 15 [0] }

/-- The faulting state with rax holding 0x1001. -/
def raxOddState : CpuState := { segvState with gp := [0x1001] :: List.replicate 15 [0] }

/-! ## `Validator::memory_map_to_testcase` (src/validator/validator.cc, lines 88 to 195) -/

/-- A `Memory` as its default constructor leaves it. -/
def Memory.empty : Memory := { base := 0, contents := [], valid := [] }

/-- The order `compare` of lines 110 to 114 on pairs of address and bytes. -/
def compare_entries (p1 p2 : Nat × List Nat) : Bool :=
  if p1.1 = p2.1 then decide (p1.2.length < p2.2.length) else decide (p1.1 < p2.1)

/-- The loops of lines 129 to 132 and 163 to 166 from byte `i` on, `n`
bytes remaining: the bytes of one entry are marked valid and written into
the segment. -/
def write_entry_loop (address : Nat) (bytes : List Nat) : Nat → Nat → Memory → Memory
  | 0, _, segment => segment
  | n + 1, i, segment =>
    let segment := segment.set_valid (add64 address i) true
    let segment := segment.write (add64 address i) (bytes.getD i 0)
    write_entry_loop address bytes n (i + 1) segment

/-- The state of the loop of lines 139 to 168: the vector `segments` and
`max_addr`. The pointer `last_segment` always refers to the last element of
`segments`. -/
structure MapLoop where
  segments : List Memory
  max_addr : Nat

/-- The segment `last_segment` points to. -/
def MapLoop.last_segment (st : MapLoop) : Memory := st.segments.getLastD Memory.empty

/-- An assignment through `last_segment`. -/
def MapLoop.set_last (st : MapLoop) (m : Memory) : MapLoop :=
  { st with segments := st.segments.dropLast ++ [m] }

/-- One iteration of the loop of lines 139 to 168, for the entry of address
`pair.1` and bytes `pair.2`. -/
def map_step (st : MapLoop) (pair : Nat × List Nat) : MapLoop :=
  let address := pair.1
  let size := pair.2.length
  let st :=
    if ¬ (address < st.max_addr ∧ add64 address size ≤ st.max_addr) then
      if sub64 address st.max_addr < 32 then
        let new_size := sub64 (add64 address size) st.last_segment.lower_bound
        st.set_last (st.last_segment.resize st.last_segment.lower_bound new_size)
      else
        { st with segments := st.segments ++ [Memory.empty.resize address size] }
    else st
  let st := st.set_last (write_entry_loop address pair.2 size 0 st.last_segment)
  { st with max_addr := add64 address size }

/-- The `switch` of lines 171 to 181 and the loop of lines 183 to 185: the
first three segments become heap, stack and data, the others are appended to
`segments`. -/
def assign_segments (cs : CpuState) (segments : List Memory) : CpuState :=
  let cs := if 3 ≤ segments.length then { cs with data := segments.getD 2 Memory.empty } else cs
  let cs := if 2 ≤ segments.length then { cs with stack := segments.getD 1 Memory.empty } else cs
  let cs := if 1 ≤ segments.length then { cs with heap := segments.getD 0 Memory.empty } else cs
  { cs with segments := cs.segments ++ segments.drop 3 }

/-- `Validator::memory_map_to_testcase`: the value returned and the state
`cs` after the call. `concrete` lists the entries of the map. -/
def memory_map_to_testcase (concrete : List (Nat × List Nat)) (cs : CpuState) :
    Bool × CpuState :=
  let cs := { cs with stack := cs.stack.resize 0x700000000 0 }
  let cs := { cs with heap := cs.heap.resize 0x100000000 0 }
  let cs := { cs with data := cs.data.resize 0x000000000 0 }
  let concrete_vector := concrete.insertionSort (fun a b => compare_entries a b = true)
  match concrete_vector with
  | [] => (true, cs)
  | first :: rest =>
    let first_address := first.1
    let size := first.2.length
    let first_segment := Memory.empty.resize first_address size
    let first_segment := write_entry_loop first_address first.2 size 0 first_segment
    let st : MapLoop := { segments := [first_segment], max_addr := add64 first_address size }
    let st := rest.foldl map_step st
    (true, assign_segments cs st.segments)

/-- A memory model with two entries that overlap in part: 8 bytes at 0x1000
and 8 bytes at 0x1004, agreeing on the 4 bytes they share. -/
def overlappingMap : List (Nat × List Nat) :=
  [(0x1000, [1, 2, 3, 4, 5, 6, 7, 8]), (0x1004, [5, 6, 7, 8, 9, 10, 11, 12])]

/-- A memory model in which a short entry lies inside a long one and a third
entry follows: 16 bytes at 0x1000, 2 bytes at 0x1004, 4 bytes at 0x1008. -/
def nestedMap : List (Nat × List Nat) :=
  [(0x1000, [1, 2, 3, 4, 5, 6, 7, 8, 9, 10, 11, 12, 13, 14, 15, 16]), (0x1004, [5, 6]),
   (0x1008, [9, 10, 11, 12])]

/-! ## The jump budget of the sandbox

`src/sandbox/sandbox.h` declares `set_max_jumps` and the counter
`jumps_remaining_`; the code that runs a fragment (`sandbox.cc`) is not among
the sources. -/

/-- Modelled from the spec: the instructions of the fragments of
`TEST(SandboxTest, TrivialExampleWorks)`, `InfiniteLoopFails` and
`ShortLoopMaxIterationsOk` (tests/sandbox/sandbox.h): a label,
`xorq %rcx, %rcx`, `incq %rcx`, `addq $imm, %rdx`, `cmpq $imm, %rcx`,
`jmpq label`, `jne label` and `retq`. -/
inductive SbInstr where
  | label (name : String)
  | xorq_rcx
  | incq_rcx
  | addq_rdx (imm : Nat)
  | cmpq_rcx (imm : Nat)
  | jmpq (target : String)
  | jne (target : String)
  | retq
  deriving DecidableEq, Repr

/-- Modelled from the spec: what the counter counts. Section 4.5 speaks of a
"counter of taken branches" that is "decremented on every control-transfer",
which leaves open whether a conditional jump that is not taken and whether a
return are counted; both readings of each are kept. -/
structure SbRule where
  count_untaken : Bool
  count_ret : Bool
  deriving DecidableEq, Repr

/-- The reading under which the tests of tests/sandbox/sandbox.h hold: a
conditional jump is counted whether taken or not, a return is not counted. -/
def sb_rule : SbRule := { count_untaken := true, count_ret := false }

/-- Modelled from the spec: one execution in the sandbox (section 4.5, "state
machine view"): the line to execute next, the registers rcx and rdx and the
zero flag, the counter `jumps_remaining_`, the error code, whether the
execution is over, the number of control transfers made and the number of
jump instructions executed. -/
structure SbRun where
  line : Nat
  rcx : Nat
  rdx : Nat
  zf : Bool
  jumps_remaining_ : Nat
  code : ErrorCode
  finished : Bool
  transfers : Nat
  jumps : Nat
  deriving DecidableEq, Repr

/-- The line of the definition of a label. -/
def find_label (code : List SbInstr) (name : String) : Nat :=
  code.indexOf (SbInstr.label name)

/-- Modelled from the spec: a jump instruction that is counted decrements
the counter, a `size_t` (sandbox.h line 282), so the decrement wraps at
`2 ^ 64`; "reaching zero raises a custom exceeded max jumps error code";
otherwise control moves to the target when the jump is taken and to the next
line when it is not. -/
def sb_jump (rule : SbRule) (code : List SbInstr) (st : SbRun) (target : String)
    (taken : Bool) : SbRun :=
  if taken || rule.count_untaken then
    if sub64 st.jumps_remaining_ 1 = 0 then
      { st with jumps_remaining_ := 0, code := ErrorCode.SIGCUSTOM_EXCEEDED_MAX_JUMPS,
                finished := true, jumps := st.jumps + 1 }
    else if taken then
      { st with jumps_remaining_ := sub64 st.jumps_remaining_ 1,
                line := find_label code target,
                transfers := st.transfers + 1, jumps := st.jumps + 1 }
    else
      { st with jumps_remaining_ := sub64 st.jumps_remaining_ 1, line := st.line + 1,
                jumps := st.jumps + 1 }
  else { st with line := st.line + 1, jumps := st.jumps + 1 }

/-- Modelled from the spec: a return ends the execution; when returns are
counted it decrements the counter first and raises the error at zero. -/
def sb_ret (rule : SbRule) (st : SbRun) : SbRun :=
  if rule.count_ret then
    if sub64 st.jumps_remaining_ 1 = 0 then
      { st with jumps_remaining_ := 0, code := ErrorCode.SIGCUSTOM_EXCEEDED_MAX_JUMPS,
                finished := true }
    else { st with jumps_remaining_ := sub64 st.jumps_remaining_ 1, finished := true }
  else { st with finished := true }

/-- Modelled from the spec: one instruction of an execution. Running past
the last line ends the execution like `retq`. -/
def sb_step (rule : SbRule) (code : List SbInstr) (st : SbRun) : SbRun :=
  if st.finished then st
  else
    match code.get? st.line with
    | none => { st with finished := true }
    | some (SbInstr.label _) => { st with line := st.line + 1 }
    | some SbInstr.xorq_rcx => { st with rcx := 0, zf := true, line := st.line + 1 }
    | some SbInstr.incq_rcx =>
      { st with rcx := (st.rcx + 1) % 2 ^ 64, zf := decide ((st.rcx + 1) % 2 ^ 64 = 0),
                line := st.line + 1 }
    | some (SbInstr.addq_rdx imm) =>
      { st with rdx := (st.rdx + imm) % 2 ^ 64, zf := decide ((st.rdx + imm) % 2 ^ 64 = 0),
                line := st.line + 1 }
    | some (SbInstr.cmpq_rcx imm) => { st with zf := decide (st.rcx = imm), line := st.line + 1 }
    | some (SbInstr.jmpq target) => sb_jump rule code st target true
    | some (SbInstr.jne target) => sb_jump rule code st target (!st.zf)
    | some SbInstr.retq => sb_ret rule st

/-- Modelled from the spec: `Sandbox::run` on one input with the budget of
`set_max_jumps(max_jumps_)`: the state `READY`. -/
def sb_ready (max_jumps_ rcx rdx : Nat) : SbRun :=
  { line := 0, rcx := rcx, rdx := rdx, zf := false, jumps_remaining_ := max_jumps_,
    code := ErrorCode.NORMAL, finished := false, transfers := 0, jumps := 0 }

/-- The execution after `n` instructions. -/
def sb_run (rule : SbRule) (code : List SbInstr) : Nat → SbRun → SbRun
  | 0, st => st
  | n + 1, st => sb_run rule code n (sb_step rule code st)

/-- The fragment of `TEST(SandboxTest, TrivialExampleWorks)`. -/
def trivialExample : List SbInstr :=
  [SbInstr.label ".foo", SbInstr.incq_rcx, SbInstr.addq_rdx 0x8, SbInstr.retq]

/-- The fragment of `TEST(SandboxTest, ShortLoopMaxIterationsOk)` and of
`ShortLoopOneTooManyIterations`. -/
def shortLoop : List SbInstr :=
  [SbInstr.label ".foo", SbInstr.xorq_rcx, SbInstr.label ".L1", SbInstr.incq_rcx,
   SbInstr.cmpq_rcx 0x10, SbInstr.jne ".L1", SbInstr.retq]

/-- The assertions of tests/sandbox/sandbox.h that involve the counter:
`TrivialExampleWorks` (budget 1: NORMAL, rcx 1, rdx 8),
`ShortLoopMaxIterationsOk` (budget 17: NORMAL) and
`ShortLoopOneTooManyIterations` (budget 16: the error code). -/
def sb_tests_hold (rule : SbRule) : Bool :=
  decide ((sb_run rule trivialExample 4 (sb_ready 1 0 0)).finished = true ∧
    (sb_run rule trivialExample 4 (sb_ready 1 0 0)).code = ErrorCode.NORMAL ∧
    (sb_run rule trivialExample 4 (sb_ready 1 0 0)).rcx = 1 ∧
    (sb_run rule trivialExample 4 (sb_ready 1 0 0)).rdx = 8 ∧
    (sb_run rule shortLoop 100 (sb_ready 17 0 0)).finished = true ∧
    (sb_run rule shortLoop 100 (sb_ready 17 0 0)).code = ErrorCode.NORMAL ∧
    (sb_run rule shortLoop 100 (sb_ready 16 0 0)).finished = true ∧
    (sb_run rule shortLoop 100 (sb_ready 16 0 0)).code
      = ErrorCode.SIGCUSTOM_EXCEEDED_MAX_JUMPS)

/-! ## `DdecValidator::learn_simple_invariant` (src/validator/ddec.cc, lines 786 to 1018) -/

/-- What the learner takes from code that is not among the sources: `ext`
is the evaluation on one pair of states of the invariant classes other than
the ones modelled below (top-zero, non-zero, mod 2^n, sign, inequality,
memory-null, flag, state-equality); `bv_nullspace` is
`Nullspace::bv_nullspace` from the rows of the matrix to the vectors of the
basis; `memory_operands side` lists, in the order of the `std::set` of line
673, the operands of the explicit memory dereferences of the target (`false`)
or of the rewrite (`true`), each with its `contains_seg()`. -/
structure LearnEnv where
  ext : Invariant → CpuState → CpuState → Bool
  bv_nullspace : List (List Nat) → List (List Nat)
  memory_operands : Bool → List (Mem × Bool)

/-- Quad `index` of SSE register `idx`: `sse[idx].get_fixed_quad(index)`. -/
def CpuState.sse_quad (s : CpuState) (idx index : Nat) : Nat :=
  (s.sse.getD idx []).getD index 0

/-- Modelled from the spec: `EqualityInvariant::Term::from_state`, the 64-bit
value of a column in a pair of states: the register of the target or of the
rewrite state, for a vector register the lane `index`. -/
def Term.from_state (term : Term) (target rewrite : CpuState) : Nat :=
  let s := if term.is_rewrite then rewrite else target
  match term.reg with
  | TermReg.gp r => s.gp_quad r.val % 2 ^ 64
  | TermReg.sse r => s.sse_quad r.val term.index % 2 ^ 64

/-- Modelled from the spec: the evaluation of an invariant on one pair of
states. The constants, "no signals raised" (both error codes are `NORMAL`),
the equality of the memories and the linear equality over the columns, on 64
bits, are spelled out; the other classes are taken from `env.ext`. -/
def Invariant.holds (env : LearnEnv) (inv : Invariant) (target rewrite : CpuState) : Bool :=
  match inv with
  | Invariant.true_ => true
  | Invariant.false_ => false
  | Invariant.no_signals =>
    decide (target.code = ErrorCode.NORMAL) && decide (rewrite.code = ErrorCode.NORMAL)
  | Invariant.memory_equality =>
    decide (target.stack = rewrite.stack) && decide (target.heap = rewrite.heap) &&
      decide (target.data = rewrite.data)
  | Invariant.equality terms constant =>
    decide ((terms.map (fun x => x.coefficient * x.from_state target rewrite)).sum % 2 ^ 64
      = constant % 2 ^ 64)
  | other => env.ext other target rewrite

/-- Modelled from the spec: `Invariant::check(target_states, rewrite_states)`,
the evaluation against the concrete state pairs: the invariant holds on the
i-th target state paired with the i-th rewrite state, for every i. -/
def Invariant.check (env : LearnEnv) (inv : Invariant) (target_states rewrite_states :
    List CpuState) : Bool :=
  (target_states.zip rewrite_states).all (fun p => inv.holds env p.1 p.2)

/-- The candidates that pass `check`, in order: the loops of the form `if
(x->check(target_states, rewrite_states)) conj->add_invariant(x)`. -/
def keep_checked (env : LearnEnv) (target_states rewrite_states : List CpuState)
    (candidates : List Invariant) : List Invariant :=
  candidates.filter (fun inv => inv.check env target_states rewrite_states)

/-- The 64-bit register with the number of `r`: `r64s[r]`. -/
def r64s (r : R) : R := ⟨RType.R_64, r.val⟩

/-- The 32-bit register with the number of `r`: `r32s[r]`. -/
def r32s (r : R) : R := ⟨RType.R_32, r.val⟩

/-- Modelled from the spec: `BitVector::get_fixed_double(1)` of a register
of one quad, its upper 32 bits. -/
def get_fixed_double_1 (quad : Nat) : Nat := (quad >>> 32) % 2 ^ 32

/-- The body of the loop of line 810 for one register `it` of side `k`,
lines 811 to 848: the top-zero and the non-zero invariant when every state of
the side suggests it and `check` confirms it. -/
def topzero_nonzero_for (env : LearnEnv) (target_states rewrite_states : List CpuState)
    (k : Bool) (it : R) : List Invariant :=
  let states := if k then rewrite_states else target_states
  let all_topzero :=
    if it.size = 64 then states.all (fun state => decide (get_fixed_double_1 (state.gp_quad it.val) = 0))
    else false
  let all_nonzero := states.all (fun state => decide (state.gp_quad it.val ≠ 0))
  let tzi := Invariant.top_zero (r64s it) k
  let nz := Invariant.nonzero (r64s it) k
  (if all_topzero && tzi.check env target_states rewrite_states then [tzi] else []) ++
  (if all_nonzero && nz.check env target_states rewrite_states then [nz] else [])

/-- The loops of lines 806 to 849 over the two sides and their registers. -/
def topzero_nonzero (env : LearnEnv) (target_regs rewrite_regs : RegSet)
    (target_states rewrite_states : List CpuState) : List Invariant :=
  [false, true].flatMap (fun k =>
    (if k then rewrite_regs else target_regs).gp.flatMap
      (topzero_nonzero_for env target_states rewrite_states k))

/-- `build_mod2n_invariants`, lines 747 to 761. -/
def build_mod2n_invariants (target_regs rewrite_regs : RegSet) : List Invariant :=
  [false, true].flatMap (fun k =>
    (if k then rewrite_regs else target_regs).gp.flatMap (fun i =>
      [1, 2, 3, 4].map (fun j => Invariant.mod2n i k j)))

/-- `build_sign_invariants`, lines 764 to 778. -/
def build_sign_invariants (target_regs rewrite_regs : RegSet) : List Invariant :=
  [false, true].flatMap (fun k =>
    (if k then rewrite_regs else target_regs).gp.flatMap (fun i =>
      [Invariant.sign i k true, Invariant.sign i k false]))

/-- The body of the loops of `build_inequality_invariants` for one pair of
registers, lines 720 to 736. -/
def inequalities_for (k : Bool) (i j : R) : List Invariant :=
  if i = j then []
  else if i.size ≠ j.size then []
  else if i.size = 32 then
    [Invariant.inequality i j k k false false, Invariant.inequality i j k k true false]
  else if i.size = 64 then
    [Invariant.inequality i j k k false false, Invariant.inequality i j k k true false,
     Invariant.inequality (r32s i) (r32s j) k k false false,
     Invariant.inequality (r32s i) (r32s j) k k true false]
  else []

/-- `build_inequality_invariants`, lines 709 to 744. -/
def build_inequality_invariants (target_regs rewrite_regs : RegSet) : List Invariant :=
  [false, true].flatMap (fun k =>
    let regs := if k then rewrite_regs else target_regs
    regs.gp.flatMap (fun i => regs.gp.flatMap (fun j => inequalities_for k i j)))

/-- Whether the register set holds the 64-bit register of a number:
`regs.contains(it.get_base())`. -/
def RegSet.contains_r64 (regs : RegSet) (val : Nat) : Bool :=
  regs.gp.any (fun r => decide (r = ⟨RType.R_64, val⟩))

/-- `build_memory_null_invariants`, lines 664 to 706. -/
def build_memory_null_invariants (env : LearnEnv) (target_regs rewrite_regs : RegSet) :
    List Invariant :=
  [false, true].flatMap (fun is_rewrite =>
    let regs := if is_rewrite then rewrite_regs else target_regs
    (env.memory_operands is_rewrite).flatMap (fun it =>
      if it.2 then []
      else if it.1.base.any (fun b => !regs.contains_r64 b) then []
      else if it.1.index.any (fun b => !regs.contains_r64 b) then []
      else [Invariant.memory_null it.1 is_rewrite true]))

/-- The columns of lines 895 to 919: one per general-purpose register and
one per 64-bit lane of every SSE register, for the target and then for the
rewrite. The coefficient is assigned where a column is used. -/
def learn_columns (target_regs rewrite_regs : RegSet) : List Term :=
  [false, true].flatMap (fun k =>
    let def_ins := if k then rewrite_regs else target_regs
    def_ins.gp.map (fun r => ⟨TermReg.gp r, k, false, 0, 0⟩) ++
    def_ins.sse.flatMap (fun r =>
      (List.range (r.size / 64)).map (fun i => ⟨TermReg.sse r, k, false, i, 0⟩)))

/-- The test of lines 935 to 943: two columns agree on every pair of
states. -/
def columns_match (ci cj : Term) (target_states rewrite_states : List CpuState) : Bool :=
  (target_states.zip rewrite_states).all
    (fun p => decide (ci.from_state p.1 p.2 = cj.from_state p.1 p.2))

/-- The equality of lines 946 to 953 for two matching columns: coefficient 1
for the first and -1, on 64 bits, for the second, constant 0. -/
def column_equality (ci cj : Term) : Invariant :=
  Invariant.equality [{ ci with coefficient := 1 }, { cj with coefficient := 2 ^ 64 - 1 }] 0

/-- The loops of lines 932 to 957 over the pairs of columns `i < j`. -/
def simple_equalities (target_states rewrite_states : List CpuState) :
    List Term → List Invariant
  | [] => []
  | ci :: rest =>
    (rest.filter (fun cj => columns_match ci cj target_states rewrite_states)).map
      (column_equality ci) ++ simple_equalities target_states rewrite_states rest

/-- The matrix of lines 961 to 968: one row per pair of states, the columns
followed by the constant 1. -/
def learn_matrix (columns : List Term) (target_states rewrite_states : List CpuState) :
    List (List Nat) :=
  (target_states.zip rewrite_states).map
    (fun p => columns.map (fun c => c.from_state p.1 p.2) ++ [1])

/-- The equality of lines 987 to 999 for one vector of the nullspace: the
columns with a coefficient that is not zero, and minus the last entry as the
constant. -/
def nullspace_equality (columns : List Term) (vector : List Nat) : Invariant :=
  Invariant.equality
    ((columns.zip vector).flatMap (fun p =>
      if p.2 ≠ 0 then [{ p.1 with coefficient := p.2 }] else []))
    (sub64 0 (vector.getD columns.length 0))

/-- `DdecValidator::learn_simple_invariant`: the conjuncts of the
conjunction returned, in order. The result is `none` when the assertion of
line 788 fails. -/
def learn_simple_invariant (env : LearnEnv) (target_regs rewrite_regs : RegSet)
    (target_states rewrite_states : List CpuState) : Option (List Invariant) :=
  if target_states.length ≠ rewrite_states.length then none
  else
    let conj := [Invariant.no_signals, Invariant.memory_equality]
    if target_states.length = 0 ∨ rewrite_states.length = 0 then
      some (conj ++ [Invariant.false_])
    else
      let keep := keep_checked env target_states rewrite_states
      let columns := learn_columns target_regs rewrite_regs
      let nullspace_out := env.bv_nullspace (learn_matrix columns target_states rewrite_states)
      some (conj ++
        topzero_nonzero env target_regs rewrite_regs target_states rewrite_states ++
        keep (build_mod2n_invariants target_regs rewrite_regs) ++
        keep (build_sign_invariants target_regs rewrite_regs) ++
        keep (build_inequality_invariants target_regs rewrite_regs) ++
        keep (build_memory_null_invariants env target_regs rewrite_regs) ++
        simple_equalities target_states rewrite_states columns ++
        keep (nullspace_out.map (nullspace_equality columns)))

/-- A learner environment in which no other invariant holds, the nullspace
is empty and the code has no memory operand. -/
def bareEnv : LearnEnv :=
  { ext := fun _ _ _ => false, bv_nullspace := fun _ => [], memory_operands := fun _ => [] }

/-- A target state that raised SIGSEGV. -/
def signalledState : CpuState := { zeroState with code := ErrorCode.SIGSEGV_ }

/-- A rewrite state whose heap holds one byte. -/
def heapByteState : CpuState :=
  { zeroState with heap := { base := 0x100000000, contents := [7], valid := [true] } }

/-! ## Bit-level lemmas -/

theorem testBit_not64 (x i : Nat) :
    (not64 x).testBit i = (decide (i < 64) && !x.testBit i) := by
  unfold not64
  have h : x % 2 ^ 64 < 2 ^ 64 := Nat.mod_lt _ (by positivity)
  have h2 := Nat.testBit_two_pow_sub_succ h i
  rw [show 2 ^ 64 - 1 - x % 2 ^ 64 = 2 ^ 64 - (x % 2 ^ 64 + 1) by omega, h2,
    Nat.testBit_mod_two_pow]
  by_cases hi : i < 64 <;> simp [hi]

theorem testBit_shl64 (x n i : Nat) :
    (shl64 x n).testBit i = (decide (i < 64) && (decide (n ≤ i) && x.testBit (i - n))) := by
  unfold shl64
  rw [Nat.testBit_mod_two_pow, Nat.testBit_shiftLeft]

theorem testBit_gp_mask (w i : Nat) (hw : w ≤ 64) :
    (gp_mask w).testBit i = decide (i < w) := by
  unfold gp_mask
  split
  · subst_vars; exact Nat.testBit_two_pow_sub_one 64 i
  · have hw2 : w < 64 := by omega
    have hm : sub64 (shl64 1 w) 1 = 2 ^ w - 1 := by
      unfold sub64 shl64
      have h1 : 2 ^ w < 2 ^ 64 := Nat.pow_lt_pow_right (by norm_num) hw2
      have h0 : 0 < 2 ^ w := by positivity
      rw [Nat.one_shiftLeft, Nat.mod_eq_of_lt h1, Nat.mod_eq_of_lt h1]
      norm_num
      omega
    simp only [hm]
    exact Nat.testBit_two_pow_sub_one w i

/-- Reading the view back from a quad written by `gp_update` gives the value
reduced to the width of the view. -/
theorem read_write_quad (full w v st : Nat) (hw : st + w ≤ 64) :
    (((full &&& not64 (shl64 (gp_mask w) st)) ||| shl64 (v &&& gp_mask w) st) &&&
      shl64 (gp_mask w) st) >>> st = v % 2 ^ w := by
  apply Nat.eq_of_testBit_eq
  intro i
  have hw1 : w ≤ 64 := by omega
  simp only [Nat.testBit_shiftRight, Nat.testBit_and, Nat.testBit_or,
    testBit_shl64, testBit_not64, testBit_gp_mask _ _ hw1, Nat.testBit_mod_two_pow]
  by_cases h : i < w
  · have h1 : st + i < 64 := by omega
    simp [h, h1]
  · simp [h]

/-- The bits of a quad outside the view are the bits `gp_update` found
there. -/
theorem write_quad_frame (full w v st i : Nat) (hw : st + w ≤ 64) (hfull : full < 2 ^ 64)
    (hi : i < st ∨ st + w ≤ i) :
    ((full &&& not64 (shl64 (gp_mask w) st)) ||| shl64 (v &&& gp_mask w) st).testBit i
      = full.testBit i := by
  have hw1 : w ≤ 64 := by omega
  simp only [Nat.testBit_and, Nat.testBit_or, testBit_shl64, testBit_not64,
    testBit_gp_mask _ _ hw1]
  by_cases h64 : i < 64
  · rcases hi with hi | hi
    · have : ¬ st ≤ i := by omega
      simp [h64, this]
    · have : ¬ i - st < w := by omega
      simp [h64, this]
  · have : full.testBit i = false :=
      Nat.testBit_lt_two_pow (lt_of_lt_of_le hfull (Nat.pow_le_pow_right (by norm_num) (by omega)))
    simp [h64, this]

/-! ## Register bank lemmas -/

theorem R.idx_lt (reg : R) (h : reg.check = true) : reg.idx < 16 := by
  unfold R.idx R.check at *
  cases hty : reg.type <;> simp [hty, sub64] at h ⊢ <;> omega

theorem R.start_add_size (reg : R) : reg.start + reg.size ≤ 64 := by
  unfold R.start R.size
  cases hty : reg.type <;> simp

theorem update_eq (s : CpuState) (reg : R) (v : Nat) :
    s.update reg v = s.gp_update reg.idx reg.size v reg.start := by
  unfold CpuState.update R.idx R.start
  split <;> rfl

theorem index_eq (s : CpuState) (reg : R) :
    s.index reg = s.read_gp reg.idx reg.size reg.start := by
  unfold CpuState.index R.idx R.start
  split <;> rfl

theorem gp_quad_set_same (s : CpuState) (idx val : Nat) (hidx : idx < s.gp.length)
    (hq : 0 < (s.gp.getD idx []).length) :
    (s.set_gp_quad idx val).gp_quad idx = val := by
  simp [CpuState.gp_quad, CpuState.set_gp_quad, List.getD_eq_getElem?_getD, hidx] at hq ⊢
  simp [List.getElem?_set, hq]

theorem gp_set_other (s : CpuState) (idx val j : Nat) (hj : j ≠ idx) :
    (s.set_gp_quad idx val).gp.getD j [] = s.gp.getD j [] := by
  simp [CpuState.set_gp_quad, List.getD_eq_getElem?_getD, List.getElem?_set, Ne.symm hj]

theorem gp_ok_quad (s : CpuState) (hs : s.gp_ok) (idx : Nat) (hidx : idx < 16) :
    idx < s.gp.length ∧ 0 < (s.gp.getD idx []).length ∧ s.gp_quad idx < 2 ^ 64 := by
  obtain ⟨hlen, hall⟩ := hs
  have hi : idx < s.gp.length := by omega
  have hmem : s.gp[idx] ∈ s.gp := List.getElem_mem hi
  obtain ⟨h1, h2⟩ := hall _ hmem
  refine ⟨hi, ?_, ?_⟩
  · simp [List.getD_eq_getElem?_getD, hi, h1]
  · have h0 : 0 < (s.gp[idx]).length := by omega
    have : s.gp_quad idx = (s.gp[idx])[0] := by
      simp [CpuState.gp_quad, List.getD_eq_getElem?_getD, hi, h0]
    rw [this]
    exact h2 _ (List.getElem_mem h0)

/-! ## C1, C2: register update and read -/

/-- C1: for every state with a 16-entry register bank, every well-formed
general-purpose register view and every value, reading the view after
updating it returns the value reduced modulo two to the width of the view. -/
theorem C1_update_then_read (s : CpuState) (reg : R) (v : Nat)
    (hreg : reg.check = true) (hs : s.gp_ok) :
    (s.update reg v).index reg = v % 2 ^ reg.size := by
  obtain ⟨h1, h2, _⟩ := gp_ok_quad s hs reg.idx (R.idx_lt reg hreg)
  rw [update_eq, index_eq]
  unfold CpuState.read_gp CpuState.gp_update
  simp only [gp_quad_set_same s _ _ h1 h2]
  exact read_write_quad _ _ _ _ (R.start_add_size reg)

/-- C1 at a concrete input: writing 0xabcd to the high-byte view ah of the
zero state and reading ah back gives 0xcd. -/
theorem C1_update_then_read_witness :
    (zeroState.update ⟨RType.RH, 4⟩ 0xabcd).index ⟨RType.RH, 4⟩ = 0xabcd % 2 ^ 8 :=
  C1_update_then_read zeroState ⟨RType.RH, 4⟩ 0xabcd (by decide) (by decide)

/-- C2: updating a register view leaves every bit of the backing 64-bit
register outside the view unchanged, and leaves every other general-purpose
register, the vector registers, the flags, the memory regions, the extra
segments and the error code unchanged. -/
theorem C2_update_frame (s : CpuState) (reg : R) (v : Nat)
    (hreg : reg.check = true) (hs : s.gp_ok) :
    (∀ i, (i < reg.start ∨ reg.start + reg.size ≤ i) →
      ((s.update reg v).gp_quad reg.idx).testBit i = (s.gp_quad reg.idx).testBit i) ∧
    (∀ j, j ≠ reg.idx → (s.update reg v).gp.getD j [] = s.gp.getD j []) ∧
    (s.update reg v).sse = s.sse ∧ (s.update reg v).rf = s.rf ∧
    (s.update reg v).stack = s.stack ∧ (s.update reg v).heap = s.heap ∧
    (s.update reg v).data = s.data ∧ (s.update reg v).segments = s.segments ∧
    (s.update reg v).code = s.code := by
  obtain ⟨h1, h2, h3⟩ := gp_ok_quad s hs reg.idx (R.idx_lt reg hreg)
  rw [update_eq]
  unfold CpuState.gp_update
  refine ⟨?_, ?_, rfl, rfl, rfl, rfl, rfl, rfl, rfl⟩
  · intro i hi
    simp only [gp_quad_set_same s _ _ h1 h2]
    exact write_quad_frame _ _ _ _ _ (R.start_add_size reg) h3 hi
  · intro j hj
    exact gp_set_other s _ _ j hj

/-- C2 at a concrete input: writing 0xcd to ah of a state whose rax is
0x1122334455667788 keeps bit 3 and bit 20 of rax and the vector bank. -/
theorem C2_update_frame_witness :
    ah.check = true ∧ raxState.gp_ok ∧
    ((raxState.update ah 0xcd).gp_quad ah.idx).testBit 3 = (raxState.gp_quad ah.idx).testBit 3 ∧
    ((raxState.update ah 0xcd).gp_quad ah.idx).testBit 20
      = (raxState.gp_quad ah.idx).testBit 20 ∧
    (raxState.update ah 0xcd).sse = raxState.sse :=
  ⟨by decide, by decide,
    (C2_update_frame raxState ah 0xcd (by decide) (by decide)).1 3 (Or.inl (by decide)),
    (C2_update_frame raxState ah 0xcd (by decide) (by decide)).1 20 (Or.inr (by decide)),
    (C2_update_frame raxState ah 0xcd (by decide) (by decide)).2.2.1⟩

/-! ## C3: equality -/

/-- C3, as stated, fails: two states that differ in their extra segments compare
equal, so equality does not imply agreement on `segments`. -/
theorem C3_eq_ignores_segments :
    zeroState.eq oneSegState = true ∧
    ¬ (zeroState.code = oneSegState.code ∧ zeroState.gp = oneSegState.gp ∧
        zeroState.sse = oneSegState.sse ∧ zeroState.rf = oneSegState.rf ∧
        zeroState.stack = oneSegState.stack ∧ zeroState.heap = oneSegState.heap ∧
        zeroState.data = oneSegState.data ∧ zeroState.segments = oneSegState.segments) := by
  decide

/-- C3, amended: two states compare equal if and only if they agree on the
error code, the general-purpose bank, the vector bank, the flags and the
stack, heap and data regions; the extra segments and the two counters take no
part in the comparison. -/
theorem C3_eq_iff (a b : CpuState) :
    a.eq b = true ↔
      (a.code = b.code ∧ a.gp = b.gp ∧ a.sse = b.sse ∧ a.rf = b.rf ∧
        a.stack = b.stack ∧ a.heap = b.heap ∧ a.data = b.data) := by
  simp [CpuState.eq, and_assoc]

/-! ## C4: exclusive or -/

/-- C4 at the failing input: the heap of the result is the old heap combined
with the stack of the right operand, which differs from the old heap combined
with the heap of the right operand; the other components are combined with
their own counterpart and the error code is kept. -/
theorem C4_xor_heap_takes_stack :
    (xorLhs.xor_assign xorRhs).heap = Memory.xor xorLhs.heap xorRhs.stack ∧
    (xorLhs.xor_assign xorRhs).heap ≠ Memory.xor xorLhs.heap xorRhs.heap ∧
    (xorLhs.xor_assign xorRhs).stack = Memory.xor xorLhs.stack xorRhs.stack ∧
    (xorLhs.xor_assign xorRhs).data = Memory.xor xorLhs.data xorRhs.data ∧
    (xorLhs.xor_assign xorRhs).code = xorLhs.code := by
  decide

/-! ## C5: range check of a memory operand -/

/-- Without extra segments `in_range` is the test on heap, stack and data:
both ends of the access lie in one of the three regions. -/
theorem in_range_without_segments (s : CpuState) (slot : Memory) (m : Mem)
    (h : s.segments = []) :
    s.in_range slot m = true ↔
      ∃ r ∈ s.regions, r.in_range (s.get_addr m) = true ∧
        r.in_range (sub64 (add64 (s.get_addr m) (m.size / 8)) 1) = true := by
  simp [CpuState.in_range, CpuState.my_segments, CpuState.regions, CpuState.deref, h]

theorem is_valid_loop_imp_any (s : CpuState) (slot : Memory) (addr size : Nat)
    (l : List SegPtr) (h : s.is_valid_loop slot addr size l = true) :
    l.any (fun p => (s.deref slot p).in_range addr &&
      (s.deref slot p).in_range (sub64 (add64 addr (size / 8)) 1)) = true := by
  induction l with
  | nil => simp [CpuState.is_valid_loop] at h
  | cons p rest ih =>
    unfold CpuState.is_valid_loop at h
    rw [List.any_cons]
    split at h
    · rename_i hc
      rw [hc]; rfl
    · rw [ih h]; simp

/-- An access that `is_valid` accepts is accepted by `in_range`. -/
theorem is_valid_imp_in_range (s : CpuState) (slot : Memory) (m : Mem)
    (h : s.is_valid slot m = true) : s.in_range slot m = true :=
  is_valid_loop_imp_any s slot (s.get_addr m) m.size s.my_segments h

/-- The answer of `in_range` depends on the extra segments through their
number only: replacing them by any other list of the same length changes
nothing. -/
theorem in_range_segments_by_length (s : CpuState) (slot : Memory) (m : Mem)
    (segs : List Memory) (h : segs.length = s.segments.length) :
    CpuState.in_range { s with segments := segs } slot m = s.in_range slot m := by
  have hmap : ∀ (l₁ l₂ : List Memory), l₁.length = l₂.length →
      l₁.map (fun _ => SegPtr.it) = l₂.map (fun _ => SegPtr.it) := by
    intro l₁
    induction l₁ with
    | nil => intro l₂ hl; cases l₂ with
      | nil => rfl
      | cons _ _ => simp at hl
    | cons a t ih => intro l₂ hl; cases l₂ with
      | nil => simp at hl
      | cons b u => simp only [List.map_cons]; rw [ih u (by simpa using hl)]
  have hseg : CpuState.my_segments { s with segments := segs } = s.my_segments := by
    simp only [CpuState.my_segments]
    rw [hmap segs s.segments h]
  unfold CpuState.in_range
  rw [hseg]
  rfl

/-- C5 at the failing input: the access of eight bytes at 0x1000 lies inside
the first extra segment, yet `in_range` and `is_valid` answer false when the
loop variable holds the copy made last (the second extra segment). -/
theorem C5_in_range_misses_segment :
    (∃ r ∈ twoSegState.regions,
      r.in_range (twoSegState.get_addr memAt1000) = true ∧
      r.in_range (twoSegState.get_addr memAt1000 + memAt1000.size / 8 - 1) = true) ∧
    twoSegState.in_range segB memAt1000 = false ∧
    twoSegState.is_valid segB memAt1000 = false := by
  refine ⟨⟨segA, by decide, by decide, by decide⟩, by decide, by decide⟩

/-! ## Path enumerator: unfolding the search -/

theorem last_block_append (p : List Nat) (x : Nat) : last_block (p ++ [x]) = x := by
  simp [last_block, List.getD_eq_getElem?_getD]

theorem getLast?_eq_last_block (p : List Nat) (x : Nat) (h : x ∈ p.getLast?) :
    x = last_block p := by
  rcases List.eq_nil_or_concat p with rfl | ⟨q, y, rfl⟩
  · simp at h
  · simp at h
    rw [List.concat_eq_append] at *
    rw [last_block_append]
    exact h.symm

theorem eraseIdx_last_append (p : List Nat) (x : Nat) :
    (p ++ [x]).eraseIdx ((p ++ [x]).length - 1) = p := by
  have h : (p ++ [x]).length - 1 = p.length := by simp
  rw [h, List.eraseIdx_append_of_length_le (Nat.le_refl _)]
  simp

theorem counts_restore (c : Nat → Nat) (it : Nat) :
    counts_set (counts_set c it (c it + 1)) it (counts_set c it (c it + 1) it - 1) = c := by
  funext x
  by_cases h : x = it <;> simp [counts_set, h]

theorem succ_step_eq (recurse : List Nat → (Nat → Nat) → List (List Nat) → List (List Nat))
    (k : Nat) (path : List Nat) (c : Nat → Nat) (res : List (List Nat)) (it : Nat) :
    succ_step recurse k (path, c, res) it = (path, c, visit recurse k path c res it) := by
  unfold succ_step visit
  simp only [eraseIdx_last_append, counts_restore]
  split <;> rfl

theorem foldl_succ_step (recurse : List Nat → (Nat → Nat) → List (List Nat) → List (List Nat))
    (k : Nat) (path : List Nat) (c : Nat → Nat) (l : List Nat) (res : List (List Nat)) :
    l.foldl (succ_step recurse k) (path, c, res)
      = (path, c, l.foldl (visit recurse k path c) res) := by
  induction l generalizing res with
  | nil => rfl
  | cons it rest ih => rw [List.foldl_cons, succ_step_eq, ih, List.foldl_cons]

/-- One level of `enumerate_paths_helper`, with the loop state reduced to
`results`. -/
theorem helper_succ (cfg : Cfg) (fuel : Nat) (p : List Nat) (e k : Nat) (c : Nat → Nat)
    (res : List (List Nat)) (np : Option (List Nat)) :
    enumerate_paths_helper cfg (fuel + 1) p e k c res np =
      if nopass_stop p (last_block p) np = true ∨ last_block p = cfg.get_exit then record p e res
      else (cfg.succs (last_block p)).foldl
        (visit (fun q d r => enumerate_paths_helper cfg fuel q e k d r np) k p c)
        (record p e res) := by
  rw [enumerate_paths_helper]
  simp only [foldl_succ_step, record, last_block]
  split_ifs <;> simp_all

theorem helper_zero (cfg : Cfg) (p : List Nat) (e k : Nat) (c : Nat → Nat)
    (res : List (List Nat)) (np : Option (List Nat)) :
    enumerate_paths_helper cfg 0 p e k c res np = res := by
  rw [enumerate_paths_helper]

theorem foldl_invariant {α β : Type} (Q : β → Prop) (f : β → α → β) (l : List α)
    (hf : ∀ a ∈ l, ∀ acc, Q acc → Q (f acc a)) (acc : β) (h : Q acc) : Q (l.foldl f acc) := by
  induction l generalizing acc with
  | nil => exact h
  | cons a rest ih =>
    rw [List.foldl_cons]
    exact ih (fun b hb => hf b (List.mem_cons_of_mem _ hb)) _ (hf a (List.mem_cons_self _ _) acc h)

/-! ## The recursion bound is never reached -/

theorem budget_decrease (cfg : Cfg) (k : Nat) (c : Nat → Nat) (it : Nat)
    (hit : it < cfg.num_blocks) (hle : c it + 1 ≤ k) :
    budget cfg k (counts_set c it (c it + 1)) < budget cfg k c := by
  unfold budget
  refine Finset.sum_lt_sum ?_ ⟨it, Finset.mem_range.mpr hit, ?_⟩
  · intro b _
    by_cases hb : b = it
    · subst hb; simp [counts_set]; omega
    · simp [counts_set, hb]
  · simp [counts_set]; omega

/-- On a finite graph the result of the search does not depend on the
recursion bound once the bound exceeds the remaining visit budget. -/
theorem helper_fuel_irrelevant (cfg : Cfg) (hclosed : cfg.closed) (e k : Nat)
    (np : Option (List Nat)) :
    ∀ (fuel1 fuel2 : Nat) (p : List Nat) (c : Nat → Nat) (res : List (List Nat)),
      budget cfg k c < fuel1 → budget cfg k c < fuel2 → last_block p < cfg.num_blocks →
      enumerate_paths_helper cfg fuel1 p e k c res np
        = enumerate_paths_helper cfg fuel2 p e k c res np := by
  intro fuel1
  induction fuel1 with
  | zero => intro fuel2 p c res h1; omega
  | succ f1 ih =>
    intro fuel2 p c res h1 h2 hp
    obtain ⟨f2, rfl⟩ : ∃ f2, fuel2 = f2 + 1 := ⟨fuel2 - 1, by omega⟩
    rw [helper_succ, helper_succ]
    split
    · rfl
    · refine List.foldl_ext _ _ _ ?_
      intro acc it hit
      unfold visit
      split
      · rfl
      · rename_i hcount
        have hlt : it < cfg.num_blocks := hclosed _ hp it hit
        have hdec := budget_decrease cfg k c it hlt (by omega)
        exact ih f2 _ _ acc (by omega) (by omega) (by rw [last_block_append]; exact hlt)

/-- On a finite graph whose start block is a block of the graph, the recorded
paths are those of the search run with any recursion bound above
`num_blocks * max_len`, so the bound chosen in `recorded_paths` cuts nothing
off. -/
theorem recorded_paths_any_fuel (cfg : Cfg) (hclosed : cfg.closed) (k start e : Nat)
    (np : Option (List Nat)) (hstart : resolve_start cfg start < cfg.num_blocks)
    (hk : 0 < k) (fuel : Nat) (hfuel : cfg.num_blocks * k < fuel) :
    recorded_paths cfg k start e np =
      enumerate_paths_helper cfg fuel [resolve_start cfg start] (resolve_end cfg e) k
        (fun _ => 0) [] np := by
  unfold recorded_paths
  simp only [if_pos hk]
  have hb : budget cfg k (fun _ => 0) = cfg.num_blocks * k := by
    simp [budget]
  exact helper_fuel_irrelevant cfg hclosed _ k np _ _ _ _ _ (by omega) (by omega)
    (by simpa [last_block] using hstart)

/-! ## Path enumerator: what every recorded path satisfies -/

/-- Induction over the search. A property `Good` of the pair of
`path_so_far` and `counts` that holds at the root call and is kept by every
extension the loop makes holds at every recorded path. -/
theorem helper_recorded (cfg : Cfg) (e k : Nat) (np : Option (List Nat))
    (Good : List Nat → (Nat → Nat) → Prop)
    (hstep : ∀ p c it, Good p c → nopass_stop p (last_block p) np = false →
      last_block p ≠ cfg.get_exit → it ∈ cfg.succs (last_block p) → c it + 1 ≤ k →
      Good (p ++ [it]) (counts_set c it (c it + 1))) :
    ∀ (fuel : Nat) (p : List Nat) (c : Nat → Nat) (res : List (List Nat)), Good p c →
      ∀ r ∈ enumerate_paths_helper cfg fuel p e k c res np,
        r ∈ res ∨ ((∃ d, Good r d) ∧ r.length > 1 ∧ last_block r = e) := by
  intro fuel
  induction fuel with
  | zero =>
    intro p c res _ r hr
    rw [helper_zero] at hr
    exact Or.inl hr
  | succ fuel ih =>
    intro p c res hg r hr
    rw [helper_succ] at hr
    have hrec : ∀ r ∈ record p e res,
        r ∈ res ∨ ((∃ d, Good r d) ∧ r.length > 1 ∧ last_block r = e) := by
      intro r hr
      unfold record at hr
      split at hr
      · rename_i hcond
        rcases List.mem_append.mp hr with h | h
        · exact Or.inl h
        · rw [List.mem_singleton] at h
          subst h
          exact Or.inr ⟨⟨c, hg⟩, hcond.2, hcond.1⟩
      · exact Or.inl hr
    split at hr
    · exact hrec r hr
    · rename_i hstop
      push_neg at hstop
      have hstop1 : nopass_stop p (last_block p) np = false := by
        cases h : nopass_stop p (last_block p) np
        · rfl
        · exact absurd h hstop.1
      refine foldl_invariant
        (fun acc => ∀ r ∈ acc, r ∈ res ∨ ((∃ d, Good r d) ∧ r.length > 1 ∧ last_block r = e))
        _ _ ?_ _ hrec r hr
      intro it hit acc hacc r hr
      unfold visit at hr
      split at hr
      · exact hacc r hr
      · rename_i hcount
        rcases ih (p ++ [it]) _ acc (hstep p c it hg hstop1 hstop.2 hit (by omega)) r hr
          with h | h
        · exact hacc r h
        · exact Or.inr h

/-- Every recorded path satisfies a property kept by the search, for the root
call made by `enumerate_paths`. -/
theorem recorded_paths_good (cfg : Cfg) (k start e : Nat) (np : Option (List Nat))
    (Good : List Nat → (Nat → Nat) → Prop)
    (h0 : Good [resolve_start cfg start] (fun _ => 0))
    (hstep : ∀ p c it, Good p c → nopass_stop p (last_block p) np = false →
      last_block p ≠ cfg.get_exit → it ∈ cfg.succs (last_block p) → c it + 1 ≤ k →
      Good (p ++ [it]) (counts_set c it (c it + 1))) :
    ∀ r ∈ recorded_paths cfg k start e np,
      (∃ d, Good r d) ∧ r.length > 1 ∧ last_block r = resolve_end cfg e := by
  intro r hr
  unfold recorded_paths at hr
  simp only at hr
  split at hr
  · rcases helper_recorded cfg _ k np Good hstep _ _ _ _ h0 r hr with h | h
    · simp at h
    · exact h
  · simp at hr

theorem remove_empty_blocks_eq_filter (cfg : Cfg) (q : List Nat) :
    remove_empty_blocks cfg q = q.filter (fun b => decide (cfg.num_instrs b ≠ 0)) := by
  induction q with
  | nil => rfl
  | cons b rest ih =>
    unfold remove_empty_blocks
    by_cases h : cfg.num_instrs b = 0 <;> simp [h, ih]

theorem mem_enumerate_paths (cfg : Cfg) (k start e : Nat) (np : Option (List Nat))
    (p : List Nat) (hp : p ∈ enumerate_paths cfg k start e np) :
    ∃ q ∈ recorded_paths cfg k start e np, p = remove_empty_blocks cfg q := by
  unfold enumerate_paths at hp
  obtain ⟨q, hq, rfl⟩ := List.mem_map.mp hp
  exact ⟨q, hq, rfl⟩

/-! ## C6: visit bound -/

theorem countsGood_step (s k : Nat) (p : List Nat) (c : Nat → Nat) (it : Nat)
    (hg : CountsGood s k p c) (hle : c it + 1 ≤ k) :
    CountsGood s k (p ++ [it]) (counts_set c it (c it + 1)) := by
  obtain ⟨t, rfl, hc, hk⟩ := hg
  refine ⟨t ++ [it], rfl, ?_, ?_⟩
  · intro b
    by_cases h : b = it
    · subst h; simp [counts_set, hc]
    · simp [counts_set, h, hc, List.count_singleton, Ne.symm h]
  · intro b
    by_cases h : b = it
    · subst h; simp [counts_set]; omega
    · simp [counts_set, h, hk b]

theorem recorded_count_le (cfg : Cfg) (k start e : Nat) (np : Option (List Nat))
    (q : List Nat) (hq : q ∈ recorded_paths cfg k start e np) :
    ∃ t, q = resolve_start cfg start :: t ∧ ∀ b, t.count b ≤ k := by
  obtain ⟨⟨d, t, rfl, hc, hk⟩, _, _⟩ :=
    recorded_paths_good cfg k start e np (CountsGood (resolve_start cfg start) k)
      ⟨[], rfl, by simp, by simp⟩
      (fun p c it hg _ _ _ hle => countsGood_step _ k p c it hg hle) q hq
  exact ⟨t, rfl, fun b => hc b ▸ hk b⟩

/-- C6, as stated, fails: on a block that loops on itself, with bound 1 and
start equal to end, the returned path holds the start block twice. -/
theorem C6_start_block_twice :
    [0, 0] ∈ enumerate_paths selfLoop 1 0 0 none ∧ ¬ List.count 0 [0, 0] ≤ 1 := by
  decide

/-- C6, amended: in every returned path the start block occurs at most k + 1
times and every other block at most k times; the first element of the search
is pushed without being counted. -/
theorem C6_visit_bound (cfg : Cfg) (k start e : Nat) (np : Option (List Nat))
    (p : List Nat) (hp : p ∈ enumerate_paths cfg k start e np) (b : Nat) :
    p.count b ≤ if b = resolve_start cfg start then k + 1 else k := by
  obtain ⟨q, hq, rfl⟩ := mem_enumerate_paths cfg k start e np p hp
  obtain ⟨t, rfl, ht⟩ := recorded_count_le cfg k start e np q hq
  rw [remove_empty_blocks_eq_filter]
  have h1 : List.count b ((resolve_start cfg start :: t).filter
      (fun b => decide (cfg.num_instrs b ≠ 0))) ≤ List.count b (resolve_start cfg start :: t) :=
    List.Sublist.count_le (List.filter_sublist _) b
  have h2 := ht b
  generalize List.count b ((resolve_start cfg start :: t).filter
      (fun b => decide (cfg.num_instrs b ≠ 0))) = n at h1
  rw [List.count_cons] at h1
  by_cases hb : b = resolve_start cfg start
  · rw [if_pos hb]
    split at h1 <;> omega
  · rw [if_neg hb]
    have hne : (resolve_start cfg start == b) = false := by
      simpa using fun h => hb h.symm
    rw [hne] at h1
    simp at h1
    omega

/-- C6 amended, at a concrete input: in the path returned for the
self-looping block with bound 1, block 0 occurs at most twice. -/
theorem C6_visit_bound_witness :
    [0, 0] ∈ enumerate_paths selfLoop 1 0 0 none ∧
    List.count 0 [0, 0] ≤ if 0 = resolve_start selfLoop 0 then 1 + 1 else 1 :=
  ⟨by decide, C6_visit_bound selfLoop 1 0 0 none [0, 0] (by decide) 0⟩

/-! ## C7: consecutive blocks -/

theorem recorded_chain (cfg : Cfg) (k start e : Nat) (np : Option (List Nat))
    (q : List Nat) (hq : q ∈ recorded_paths cfg k start e np) : List.Chain' cfg.edge q := by
  obtain ⟨⟨_, hc⟩, _, _⟩ :=
    recorded_paths_good cfg k start e np (fun p _ => List.Chain' cfg.edge p)
      (List.chain'_singleton _)
      (fun p c it hg _ _ hit _ => by
        refine List.Chain'.append hg (List.chain'_singleton _) ?_
        intro x hx y hy
        simp at hy
        subst hy
        rw [getLast?_eq_last_block p x hx]
        exact hit) q hq
  exact hc

theorem chain_link_remove (cfg : Cfg) (q : List Nat) :
    ∀ (a : Nat) (zs : List Nat), (∀ z ∈ zs, cfg.num_instrs z = 0) →
      List.Chain cfg.edge a (zs ++ q) → List.Chain cfg.link a (remove_empty_blocks cfg q) := by
  induction q with
  | nil => intro a zs _ _; exact List.Chain.nil
  | cons b rest ih =>
    intro a zs hzs hch
    unfold remove_empty_blocks
    split
    · rename_i hb
      refine ih a (zs ++ [b]) ?_ ?_
      · intro z hz
        rcases List.mem_append.mp hz with h | h
        · exact hzs z h
        · rw [List.mem_singleton] at h; rw [h]; exact hb
      · simpa using hch
    · rw [List.chain_split] at hch
      exact List.Chain.cons ⟨zs, hzs, hch.1⟩ (ih b [] (by simp) (by simpa using hch.2))

theorem chain'_link_remove (cfg : Cfg) (q : List Nat) (h : List.Chain' cfg.edge q) :
    List.Chain' cfg.link (remove_empty_blocks cfg q) := by
  induction q with
  | nil => exact List.chain'_nil
  | cons a rest ih =>
    unfold remove_empty_blocks
    split
    · exact ih (List.Chain'.tail h)
    · exact chain_link_remove cfg rest a [] (by simp) (by simpa using h)

/-- Every returned path is a recorded path with its zero-instruction blocks
removed; in the returned path each pair of consecutive blocks is joined by a
chain of successor edges that passes through zero-instruction blocks only. -/
theorem returned_path_linked (cfg : Cfg) (k start e : Nat) (np : Option (List Nat))
    (p : List Nat) (hp : p ∈ enumerate_paths cfg k start e np) :
    List.Chain' cfg.link p ∧
    ∃ q ∈ recorded_paths cfg k start e np,
      p = remove_empty_blocks cfg q ∧ List.Chain' cfg.edge q := by
  obtain ⟨q, hq, rfl⟩ := mem_enumerate_paths cfg k start e np p hp
  have hc := recorded_chain cfg k start e np q hq
  exact ⟨chain'_link_remove cfg q hc, q, hq, rfl, hc⟩

/-- When the blocks without an instruction are at the ends of the graph, the
removal keeps a chain of successor edges from a block a chain from that
block: an empty block of the chain has a predecessor, hence no successor, and
is the last block. -/
theorem chain_edge_remove (cfg : Cfg) (hends : cfg.empty_at_ends) :
    ∀ (l : List Nat) (a : Nat), List.Chain cfg.edge a l →
      List.Chain cfg.edge a (remove_empty_blocks cfg l) := by
  intro l
  induction l with
  | nil => intro a _; exact List.Chain.nil
  | cons b rest ih =>
    intro a hch
    rw [List.chain_cons] at hch
    unfold remove_empty_blocks
    split
    · rename_i hb
      have hnil := hends a b hch.1 hb
      cases rest with
      | nil => exact List.Chain.nil
      | cons c rest2 =>
        have hbc : c ∈ cfg.succs b := (List.chain_cons.mp hch.2).1
        rw [hnil] at hbc
        simp at hbc
    · exact List.Chain.cons hch.1 (ih b hch.2)

theorem chain'_edge_remove (cfg : Cfg) (hends : cfg.empty_at_ends) (q : List Nat)
    (h : List.Chain' cfg.edge q) : List.Chain' cfg.edge (remove_empty_blocks cfg q) := by
  cases q with
  | nil => exact List.chain'_nil
  | cons a l =>
    have hch : List.Chain cfg.edge a (remove_empty_blocks cfg l) :=
      chain_edge_remove cfg hends l a h
    unfold remove_empty_blocks
    split
    · exact List.Chain'.tail (show List.Chain' cfg.edge (a :: remove_empty_blocks cfg l) from hch)
    · exact hch

theorem loopCfg_empty_at_ends : loopCfg.empty_at_ends := by
  intro a b hab hb
  simp only [Cfg.edge, loopCfg] at hab hb ⊢
  split_ifs at hab hb ⊢ <;> simp_all

/-- C7: in a graph whose blocks without an instruction are at its ends (a
block without an instruction that has a predecessor has no successor), in
every path returned by `enumerate_paths`, that is after the zero-instruction
blocks have been stripped, each pair of consecutive blocks is joined by a
successor edge of the graph. -/
theorem C7_consecutive_blocks_edge (cfg : Cfg) (k start e : Nat) (np : Option (List Nat))
    (hends : cfg.empty_at_ends)
    (p : List Nat) (hp : p ∈ enumerate_paths cfg k start e np) :
    List.Chain' cfg.edge p := by
  obtain ⟨q, hq, rfl⟩ := mem_enumerate_paths cfg k start e np p hp
  exact chain'_edge_remove cfg hends q (recorded_chain cfg k start e np q hq)

/-- C7 at a concrete input: in the loop graph with empty entry and exit, the
path 1, 2, 1, 2 returned at bound 2 from the entry to the exit follows
successor edges. -/
theorem C7_consecutive_blocks_edge_witness :
    loopCfg.empty_at_ends ∧ [1, 2, 1, 2] ∈ enumerate_paths loopCfg 2 0 3 none ∧
    List.Chain' loopCfg.edge [1, 2, 1, 2] :=
  ⟨loopCfg_empty_at_ends, by decide,
    C7_consecutive_blocks_edge loopCfg 2 0 3 none loopCfg_empty_at_ends [1, 2, 1, 2] (by decide)⟩

/-! ## C8: completeness of the search -/

theorem helper_mono (cfg : Cfg) (e k : Nat) (np : Option (List Nat)) :
    ∀ (fuel : Nat) (p : List Nat) (c : Nat → Nat) (res : List (List Nat)),
      ∀ r ∈ res, r ∈ enumerate_paths_helper cfg fuel p e k c res np := by
  intro fuel
  induction fuel with
  | zero => intro p c res r hr; rw [helper_zero]; exact hr
  | succ fuel ih =>
    intro p c res r hr
    rw [helper_succ]
    have hrec : r ∈ record p e res := by
      unfold record
      split
      · exact List.mem_append_left _ hr
      · exact hr
    split
    · exact hrec
    · refine foldl_invariant (fun acc => r ∈ acc) _ _ ?_ _ hrec
      intro it _ acc hacc
      unfold visit
      split
      · exact hacc
      · exact ih _ _ _ r hacc

theorem mem_foldl_of_mem {α β : Type} (Q : β → Prop) (f : β → α → β) (x : α) :
    ∀ (l : List α), x ∈ l → (∀ acc, Q (f acc x)) → (∀ acc a, Q acc → Q (f acc a)) →
      ∀ acc, Q (l.foldl f acc) := by
  intro l
  induction l with
  | nil => intro hx; simp at hx
  | cons a rest ih =>
    intro hx hfx hmono acc
    rw [List.foldl_cons]
    rcases List.mem_cons.mp hx with h | h
    · subst h
      exact foldl_invariant Q f rest (fun b _ acc hacc => hmono acc b hacc) _ (hfx acc)
    · exact ih h hfx hmono _

theorem not_stops_of_passable (cfg : Cfg) (np : Option (List Nat)) (p : List Nat) (x : Nat)
    (hx : passable cfg np x) : ¬ stops cfg np (p ++ [x]) := by
  unfold stops
  rw [last_block_append]
  rintro (h | h)
  · cases np with
    | none => simp [nopass_stop] at h
    | some l =>
      simp only [nopass_stop, Bool.and_eq_true, decide_eq_true_eq] at h
      exact hx.2 l rfl h.2
  · exact hx.1 h

theorem mem_helper_self (cfg : Cfg) (e k : Nat) (np : Option (List Nat)) (fuel : Nat)
    (p : List Nat) (c : Nat → Nat) (res : List (List Nat))
    (hlast : last_block p = e) (hlen : 1 < p.length) :
    p ∈ enumerate_paths_helper cfg (fuel + 1) p e k c res np := by
  rw [helper_succ]
  have hrec : p ∈ record p e res := by
    unfold record
    rw [if_pos ⟨hlast, hlen⟩]
    exact List.mem_append_right _ (List.mem_singleton_self p)
  split
  · exact hrec
  · refine foldl_invariant (fun acc => p ∈ acc) _ _ ?_ _ hrec
    intro it _ acc hacc
    unfold visit
    split
    · exact hacc
    · exact helper_mono cfg e k np _ _ _ _ p hacc

/-- A walk that continues the current path along successor edges, within the
visit budget and through passable blocks, is recorded. -/
theorem helper_complete (cfg : Cfg) (e k : Nat) (np : Option (List Nat)) :
    ∀ (rest : List Nat) (x : Nat) (fuel : Nat) (p : List Nat) (c : Nat → Nat)
      (res : List (List Nat)),
      p ≠ [] → rest.length + 1 < fuel → ¬ stops cfg np p →
      List.Chain cfg.edge (last_block p) (x :: rest) →
      (∀ b, c b + (x :: rest).count b ≤ k) →
      (∀ y ∈ (x :: rest).dropLast, passable cfg np y) →
      last_block (p ++ x :: rest) = e →
      p ++ x :: rest ∈ enumerate_paths_helper cfg fuel p e k c res np := by
  intro rest
  induction rest with
  | nil =>
    intro x fuel p c res hp hfuel hstop hch hbud _ hlast
    obtain ⟨f, rfl⟩ : ∃ f, fuel = f + 1 := ⟨fuel - 1, by omega⟩
    obtain ⟨g, rfl⟩ : ∃ g, f = g + 1 := ⟨f - 1, by simp at hfuel; omega⟩
    unfold stops at hstop
    rw [helper_succ, if_neg hstop]
    have hx : x ∈ cfg.succs (last_block p) := by
      rw [List.chain_cons] at hch; exact hch.1
    have hcx : ¬ c x + 1 > k := by
      have := hbud x; simp at this; omega
    have hlen : 1 < (p ++ [x]).length := by
      have : 0 < p.length := List.length_pos.mpr hp
      simp; omega
    refine mem_foldl_of_mem (fun acc => p ++ [x] ∈ acc) _ x _ hx ?_ ?_ _
    · intro acc
      unfold visit
      rw [if_neg hcx]
      exact mem_helper_self cfg e k np g _ _ _ hlast hlen
    · intro acc a hacc
      unfold visit
      split
      · exact hacc
      · exact helper_mono cfg e k np _ _ _ _ _ hacc
  | cons y rest ih =>
    intro x fuel p c res hp hfuel hstop hch hbud hpass hlast
    obtain ⟨f, rfl⟩ : ∃ f, fuel = f + 1 := ⟨fuel - 1, by omega⟩
    unfold stops at hstop
    rw [helper_succ, if_neg hstop]
    rw [List.chain_cons] at hch
    have hcx : ¬ c x + 1 > k := by
      have := hbud x
      rw [List.count_cons_self] at this
      omega
    refine mem_foldl_of_mem (fun acc => p ++ x :: y :: rest ∈ acc) _ x _ hch.1 ?_ ?_ _
    · intro acc
      unfold visit
      rw [if_neg hcx]
      have hgoal := ih y f (p ++ [x]) (counts_set c x (c x + 1)) acc (by simp)
        (by simp at hfuel ⊢; omega)
        (not_stops_of_passable cfg np p x (hpass x (by simp)))
        (by rw [last_block_append]; exact hch.2)
        (by
          intro b
          have := hbud b
          rw [List.count_cons] at this
          by_cases hb : b = x
          · subst hb; simp [counts_set] at this ⊢; omega
          · have hne : (x == b) = false := by simpa using fun h => hb h.symm
            rw [hne] at this
            simp [counts_set, hb] at this ⊢; omega)
        (by
          intro z hz
          refine hpass z ?_
          rw [List.dropLast_cons_of_ne_nil (by simp)]
          exact List.mem_cons_of_mem _ hz)
        (by simpa using hlast)
      simpa using hgoal
    · intro acc a hacc
      unfold visit
      split
      · exact hacc
      · exact helper_mono cfg e k np _ _ _ _ _ hacc

theorem length_le_of_count_le (l : List Nat) (N k : Nat) (h1 : ∀ x ∈ l, x < N)
    (h2 : ∀ b, l.count b ≤ k) : l.length ≤ N * k := by
  have hsum := Multiset.toFinset_sum_count_eq (l : Multiset Nat)
  simp only [Multiset.coe_count, Multiset.coe_card] at hsum
  have hsub : (l : Multiset Nat).toFinset ⊆ Finset.range N := by
    intro x hx
    simp only [Multiset.mem_toFinset, Multiset.mem_coe] at hx
    exact Finset.mem_range.mpr (h1 x hx)
  have hcard : (l : Multiset Nat).toFinset.card ≤ N := by
    simpa using Finset.card_le_card hsub
  calc l.length = ∑ a in (l : Multiset Nat).toFinset, l.count a := hsum.symm
    _ ≤ ∑ _a in (l : Multiset Nat).toFinset, k := Finset.sum_le_sum (fun a _ => h2 a)
    _ = (l : Multiset Nat).toFinset.card * k := by simp
    _ ≤ N * k := Nat.mul_le_mul_right k hcard

theorem chain_lt_num_blocks (cfg : Cfg) (hclosed : cfg.closed) :
    ∀ (l : List Nat) (a : Nat), a < cfg.num_blocks → List.Chain cfg.edge a l →
      ∀ x ∈ l, x < cfg.num_blocks := by
  intro l
  induction l with
  | nil => intro a _ _ x hx; simp at hx
  | cons b rest ih =>
    intro a ha hch x hx
    rw [List.chain_cons] at hch
    have hb : b < cfg.num_blocks := hclosed a ha b hch.1
    rcases List.mem_cons.mp hx with h | h
    · rw [h]; exact hb
    · exact ih b hb hch.2 x h

/-- On a finite graph, every walk along successor edges that starts at the
start block, provided the start block is not the graph exit, ends at the end
block, has at least one edge, visits no block more than k times and has
neither a forbidden block nor the graph exit strictly inside, is returned,
with its zero-instruction blocks removed. -/
theorem walk_returned (cfg : Cfg) (k start e : Nat) (np : Option (List Nat))
    (w : List Nat)
    (hclosed : cfg.closed) (hstart : resolve_start cfg start < cfg.num_blocks)
    (hnot_exit : resolve_start cfg start ≠ cfg.get_exit)
    (hhead : w.head? = some (resolve_start cfg start))
    (hlast : w.getLast? = some (resolve_end cfg e))
    (hedge : 2 ≤ w.length)
    (hwalk : List.Chain' cfg.edge w)
    (hcount : ∀ b, w.count b ≤ k)
    (hinner : ∀ x ∈ w.tail.dropLast, x ≠ cfg.get_exit ∧ ∀ l, np = some l → x ∉ l) :
    remove_empty_blocks cfg w ∈ enumerate_paths cfg k start e np := by
  obtain ⟨s, t, rfl⟩ : ∃ s t, w = s :: t := by
    cases w with
    | nil => simp at hedge
    | cons s t => exact ⟨s, t, rfl⟩
  obtain ⟨x, rest, rfl⟩ : ∃ x rest, t = x :: rest := by
    cases t with
    | nil => simp at hedge
    | cons x rest => exact ⟨x, rest, rfl⟩
  simp only [List.head?_cons, Option.some.injEq] at hhead
  subst hhead
  have hch : List.Chain cfg.edge (resolve_start cfg start) (x :: rest) := hwalk
  have hk : 0 < k := by
    have := hcount (resolve_start cfg start)
    rw [List.count_cons_self] at this
    omega
  have hall : ∀ y ∈ resolve_start cfg start :: x :: rest, y < cfg.num_blocks := by
    intro y hy
    rcases List.mem_cons.mp hy with h | h
    · rw [h]; exact hstart
    · exact chain_lt_num_blocks cfg hclosed _ _ hstart hch y h
  have hlen := length_le_of_count_le _ cfg.num_blocks k hall hcount
  have hlb : last_block ([resolve_start cfg start] ++ x :: rest) = resolve_end cfg e := by
    exact (getLast?_eq_last_block _ _ (by simpa using hlast)).symm
  have hmem : [resolve_start cfg start] ++ x :: rest ∈ recorded_paths cfg k start e np := by
    unfold recorded_paths
    simp only [if_pos hk]
    refine helper_complete cfg _ k np rest x _ _ _ _ (by simp) ?_ ?_ ?_ ?_ ?_ hlb
    · simp at hlen; omega
    · unfold stops
      rintro (h | h)
      · cases np with
        | none => simp [nopass_stop] at h
        | some l => simp [nopass_stop] at h
      · exact hnot_exit (by simpa [last_block] using h)
    · simpa [last_block] using hch
    · intro b
      have := hcount b
      rw [List.count_cons] at this
      omega
    · intro y hy
      exact hinner y (by simpa using hy)
  unfold enumerate_paths
  exact List.mem_map.mpr ⟨_, hmem, rfl⟩

/-- C8: on a finite graph whose exit has no successor, for every bound k,
start, end and forbidden list, every walk along successor edges that starts at
the start block, ends at the end block, has at least one edge, visits no
block more than k times (so k is at least 1) and has neither a forbidden
block nor the graph exit strictly inside, is returned, with its
zero-instruction blocks removed. -/
theorem C8_completeness (cfg : Cfg) (k start e : Nat) (np : Option (List Nat))
    (w : List Nat)
    (hclosed : cfg.closed) (hexit : cfg.succs cfg.get_exit = [])
    (hstart : resolve_start cfg start < cfg.num_blocks)
    (hhead : w.head? = some (resolve_start cfg start))
    (hlast : w.getLast? = some (resolve_end cfg e))
    (hedge : 2 ≤ w.length)
    (hwalk : List.Chain' cfg.edge w)
    (hcount : ∀ b, w.count b ≤ k)
    (hinner : ∀ x ∈ w.tail.dropLast, x ≠ cfg.get_exit ∧ ∀ l, np = some l → x ∉ l) :
    remove_empty_blocks cfg w ∈ enumerate_paths cfg k start e np := by
  refine walk_returned cfg k start e np w hclosed hstart ?_ hhead hlast hedge hwalk hcount hinner
  intro hs
  cases w with
  | nil => simp at hedge
  | cons s t =>
    cases t with
    | nil => simp at hedge
    | cons x rest =>
      simp only [List.head?_cons, Option.some.injEq] at hhead
      have hx : x ∈ cfg.succs s := (List.chain'_cons.mp hwalk).1
      rw [hhead, hs, hexit] at hx
      simp at hx

/-- C8 at a concrete input: the walk 0, 1, 2, 1, 2, 3 of the loop graph, from
the empty entry twice round the loop to the empty exit, is returned at
bound 2 as 1, 2, 1, 2. -/
theorem C8_completeness_witness :
    loopCfg.closed ∧ loopCfg.succs loopCfg.get_exit = [] ∧
    resolve_start loopCfg 0 < loopCfg.num_blocks ∧
    remove_empty_blocks loopCfg [0, 1, 2, 1, 2, 3] = [1, 2, 1, 2] ∧
    remove_empty_blocks loopCfg [0, 1, 2, 1, 2, 3] ∈ enumerate_paths loopCfg 2 0 3 none :=
  ⟨by decide, by decide, by decide, by decide,
    C8_completeness loopCfg 2 0 3 none [0, 1, 2, 1, 2, 3] (by decide) (by decide) (by decide)
      (by decide) (by decide) (by decide)
      (by simp [List.Chain', Cfg.edge, loopCfg])
      (by
        intro b
        by_cases h0 : b = 0
        · subst h0; decide
        by_cases h1 : b = 1
        · subst h1; decide
        by_cases h2 : b = 2
        · subst h2; decide
        by_cases h3 : b = 3
        · subst h3; decide
        have : List.count b [0, 1, 2, 1, 2, 3] = 0 :=
          List.count_eq_zero.mpr (by simp [h0, h1, h2, h3])
        omega)
      (by decide)⟩

/-! ## C9: forbidden blocks -/

theorem nopass_stop_true (p np : List Nat) (h1 : 1 < p.length) (h2 : last_block p ∈ np) :
    nopass_stop p (last_block p) (some np) = true := by
  simp only [nopass_stop, Bool.and_eq_true, decide_eq_true_eq]
  exact ⟨h1, h2⟩

theorem interiorClear_step (np : List Nat) (p : List Nat) (it : Nat)
    (hg : InteriorClear np p) (hstop : nopass_stop p (last_block p) (some np) = false) :
    InteriorClear np (p ++ [it]) := by
  intro i hi0 hi
  have hlen : i < p.length := by simpa using hi
  have hget : (p ++ [it]).getD i 0 = p.getD i 0 := by
    simp [List.getD_eq_getElem?_getD, List.getElem?_append_left hlen]
  rw [hget]
  by_cases hlast : i + 1 < p.length
  · exact hg i hi0 hlast
  · have hi1 : i = p.length - 1 := by omega
    have hp1 : 1 < p.length := by omega
    intro hmem
    have : nopass_stop p (last_block p) (some np) = true :=
      nopass_stop_true p np hp1 (by rw [last_block, ← hi1]; exact hmem)
    rw [this] at hstop
    exact Bool.noConfusion hstop

/-- C9: with a forbidden list, no recorded path has a forbidden block strictly
between its first and its last element (before the zero-instruction blocks
are removed), and a call of the search on a path of more than one block whose
last block is forbidden records that path if it ends the search and extends
nothing. -/
theorem C9_no_forbidden_interior (cfg : Cfg) (k start e : Nat) (np : List Nat)
    (q : List Nat) (hq : q ∈ recorded_paths cfg k start e (some np)) :
    (∀ i, 0 < i → i + 1 < q.length → q.getD i 0 ∉ np) ∧
    (∀ (fuel : Nat) (p : List Nat) (c : Nat → Nat) (res : List (List Nat)),
      1 < p.length → p.getD (p.length - 1) 0 ∈ np →
      enumerate_paths_helper cfg (fuel + 1) p e k c res (some np) =
        if p.getD (p.length - 1) 0 = e ∧ p.length > 1 then res ++ [p] else res) := by
  constructor
  · obtain ⟨⟨_, hc⟩, _, _⟩ :=
      recorded_paths_good cfg k start e (some np) (fun p _ => InteriorClear np p)
        (by intro i h0 h1; simp at h1)
        (fun p c it hg hstop _ _ _ => interiorClear_step np p it hg hstop) q hq
    exact hc
  · intro fuel p c res hlen hmem
    rw [helper_succ]
    rw [if_pos (Or.inl (nopass_stop_true p np hlen hmem))]
    rfl

/-- C9 at a concrete input: with block 2 forbidden, the path 0, 1, 3 is
recorded in the diamond graph and its interior block 1 is not forbidden. -/
theorem C9_no_forbidden_interior_witness :
    [0, 1, 3] ∈ recorded_paths diamond 1 0 3 (some [2]) ∧
    [0, 1, 3].getD 1 0 ∉ [2] ∧
    [0, 1, 2, 3] ∉ recorded_paths diamond 1 0 3 (some [2]) :=
  ⟨by decide,
    (C9_no_forbidden_interior diamond 1 0 3 [2] [0, 1, 3] (by decide)).1 1
      (by decide) (by decide),
    by decide⟩

/-! ## C10: zero-instruction blocks -/

theorem remove_empty_blocks_sublist (cfg : Cfg) (q : List Nat) :
    (remove_empty_blocks cfg q).Sublist q := by
  rw [remove_empty_blocks_eq_filter]
  exact List.filter_sublist _

/-- C10: no returned path contains a block with zero instructions, and the
returned paths are, one for one and in the same order, the recorded
depth-first paths with exactly their zero-instruction blocks deleted, the
remaining blocks keeping their relative order. -/
theorem C10_zero_blocks_removed (cfg : Cfg) (k start e : Nat) (np : Option (List Nat)) :
    (∀ p ∈ enumerate_paths cfg k start e np, ∀ b ∈ p, cfg.num_instrs b ≠ 0) ∧
    enumerate_paths cfg k start e np =
      (recorded_paths cfg k start e np).map
        (fun q => q.filter (fun b => decide (cfg.num_instrs b ≠ 0))) ∧
    List.Forall₂ (fun p q => p.Sublist q ∧ ∀ b ∈ q, cfg.num_instrs b ≠ 0 → b ∈ p)
      (enumerate_paths cfg k start e np) (recorded_paths cfg k start e np) := by
  refine ⟨?_, ?_, ?_⟩
  · intro p hp b hb
    obtain ⟨q, _, rfl⟩ := mem_enumerate_paths cfg k start e np p hp
    rw [remove_empty_blocks_eq_filter] at hb
    simpa using (List.mem_filter.mp hb).2
  · unfold enumerate_paths
    exact List.map_congr_left (fun q _ => remove_empty_blocks_eq_filter cfg q)
  · unfold enumerate_paths
    rw [List.forall₂_map_left_iff]
    refine List.forall₂_same.mpr ?_
    intro q _
    refine ⟨remove_empty_blocks_sublist cfg q, ?_⟩
    intro b hb hne
    rw [remove_empty_blocks_eq_filter]
    exact List.mem_filter.mpr ⟨hb, by simpa using hne⟩

/-! ## C11: the bound k against the bound k + 1 -/

theorem foldl_visit_append
    (recurse : List Nat → (Nat → Nat) → List (List Nat) → List (List Nat))
    (hrec : ∀ q d r, recurse q d r = r ++ recurse q d [])
    (k : Nat) (p : List Nat) (c : Nat → Nat) (l : List Nat) :
    ∀ acc, l.foldl (visit recurse k p c) acc = acc ++ l.foldl (visit recurse k p c) [] := by
  induction l with
  | nil => intro acc; simp
  | cons a rest ih =>
    intro acc
    have hv : visit recurse k p c acc a = acc ++ visit recurse k p c [] a := by
      unfold visit
      split
      · simp
      · exact hrec _ _ _
    rw [List.foldl_cons, List.foldl_cons, ih (visit recurse k p c acc a),
      ih (visit recurse k p c [] a), hv, List.append_assoc]

/-- The search only appends to `results`. -/
theorem helper_append (cfg : Cfg) (e k : Nat) (np : Option (List Nat)) :
    ∀ (fuel : Nat) (p : List Nat) (c : Nat → Nat) (res : List (List Nat)),
      enumerate_paths_helper cfg fuel p e k c res np
        = res ++ enumerate_paths_helper cfg fuel p e k c [] np := by
  intro fuel
  induction fuel with
  | zero => intro p c res; simp [helper_zero]
  | succ fuel ih =>
    intro p c res
    have hrec : record p e res = res ++ record p e [] := by
      unfold record; split <;> simp
    rw [helper_succ, helper_succ]
    split
    · exact hrec
    · rw [foldl_visit_append _ (fun q d r => ih q d r) k p c _ (record p e res),
        foldl_visit_append _ (fun q d r => ih q d r) k p c _ (record p e []), hrec,
        List.append_assoc]

theorem within_iff (k : Nat) (r : List Nat) :
    within k r = true ↔ ∀ b, r.tail.count b ≤ k := by
  unfold within
  rw [List.all_eq_true]
  constructor
  · intro h b
    by_cases hb : b ∈ r.tail
    · simpa using h b hb
    · rw [List.count_eq_zero.mpr hb]; exact Nat.zero_le _
  · intro h b _
    simpa using h b

theorem countsFrom_step (s v m : Nat) (p : List Nat) (c : Nat → Nat) (it : Nat)
    (hg : CountsFrom s v m p c) :
    CountsFrom s v m (p ++ [it]) (counts_set c it (c it + 1)) := by
  obtain ⟨t, rfl, hc, hm⟩ := hg
  refine ⟨t ++ [it], rfl, ?_, ?_⟩
  · intro b
    by_cases h : b = it
    · subst h; simp [counts_set, hc]
    · simp [counts_set, h, hc, List.count_singleton, Ne.symm h]
  · by_cases h : v = it
    · subst h; simp [counts_set]; omega
    · simp [counts_set, h, hm]

/-- A path recorded below a path that already holds block `v` more than `k`
times is not within the bound `k`. -/
theorem helper_beyond_not_within (cfg : Cfg) (e k k' : Nat) (np : Option (List Nat))
    (s v : Nat) (fuel : Nat) (p : List Nat) (c : Nat → Nat)
    (hg : CountsFrom s v (k + 1) p c) :
    (enumerate_paths_helper cfg fuel p e k' c [] np).filter (within k) = [] := by
  rw [List.filter_eq_nil_iff]
  intro r hr
  rcases helper_recorded cfg e k' np (CountsFrom s v (k + 1))
    (fun p c it hg _ _ _ _ => countsFrom_step s v (k + 1) p c it hg) fuel p c [] hg r hr
    with h | h
  · simp at h
  · obtain ⟨⟨d, t, rfl, hd, hm⟩, _, _⟩ := h
    intro hw
    have := (within_iff k (s :: t)).mp hw v
    simp only [List.tail_cons] at this
    rw [← hd v] at this
    omega

/-- The search at bound `k` records the paths that the search at a larger
bound records and that are within the bound `k`, in the same order. -/
theorem helper_filter_within (cfg : Cfg) (e k k' : Nat) (hk : k ≤ k')
    (np : Option (List Nat)) (s : Nat) :
    ∀ (fuel : Nat) (p : List Nat) (c : Nat → Nat) (acc : List (List Nat)),
      CountsGood s k p c →
      enumerate_paths_helper cfg fuel p e k c (acc.filter (within k)) np
        = (enumerate_paths_helper cfg fuel p e k' c acc np).filter (within k) := by
  intro fuel
  induction fuel with
  | zero => intro p c acc _; simp [helper_zero]
  | succ fuel ih =>
    intro p c acc hg
    have hwp : within k p = true := by
      obtain ⟨t, rfl, hc, hle⟩ := hg
      rw [within_iff]
      intro b
      simp only [List.tail_cons]
      rw [← hc b]; exact hle b
    have hrec : record p e (acc.filter (within k)) = (record p e acc).filter (within k) := by
      unfold record
      split
      · simp [List.filter_append, hwp]
      · rfl
    rw [helper_succ, helper_succ]
    split
    · exact hrec
    · rw [hrec]
      generalize record p e acc = acc0
      generalize cfg.succs (last_block p) = l
      induction l generalizing acc0 with
      | nil => rfl
      | cons it rest ihl =>
        rw [List.foldl_cons, List.foldl_cons]
        have hstep :
            visit (fun q d r => enumerate_paths_helper cfg fuel q e k d r np) k p c
              (acc0.filter (within k)) it
            = (visit (fun q d r => enumerate_paths_helper cfg fuel q e k' d r np) k' p c
              acc0 it).filter (within k) := by
          unfold visit
          by_cases h1 : c it + 1 > k'
          · have h2 : c it + 1 > k := by omega
            rw [if_pos h1, if_pos h2]
          · rw [if_neg h1]
            by_cases h2 : c it + 1 > k
            · rw [if_pos h2]
              beta_reduce
              rw [helper_append, List.filter_append]
              have hfrom : CountsFrom s it (k + 1) (p ++ [it])
                  (counts_set c it (c it + 1)) := by
                obtain ⟨t, rfl, hc, _⟩ := hg
                refine ⟨t ++ [it], rfl, ?_, ?_⟩
                · intro b
                  by_cases h : b = it
                  · subst h; simp [counts_set, hc]
                  · simp [counts_set, h, hc, List.count_singleton, Ne.symm h]
                · simp [counts_set]; omega
              rw [helper_beyond_not_within cfg e k k' np s it fuel _ _ hfrom]
              simp
            · rw [if_neg h2]
              beta_reduce
              exact ih _ _ acc0 (countsGood_step s k p c it hg (by omega))
        rw [hstep]
        exact ihl _

theorem walkGood_step (cfg : Cfg) (np : Option (List Nat)) (s : Nat) (q : List Nat) (it : Nat)
    (hg : WalkGood cfg np s q) (hstop : nopass_stop q (last_block q) np = false)
    (hexit : last_block q ≠ cfg.get_exit) (hit : it ∈ cfg.succs (last_block q)) :
    WalkGood cfg np s (q ++ [it]) := by
  obtain ⟨t, rfl, hch, hpass⟩ := hg
  refine ⟨t ++ [it], rfl, ?_, ?_⟩
  · have h1 : List.Chain' cfg.edge (s :: t) := hch
    have h2 : List.Chain' cfg.edge ((s :: t) ++ [it]) := by
      refine List.Chain'.append h1 (List.chain'_singleton _) ?_
      intro x hx y hy
      simp at hy
      subst hy
      rw [getLast?_eq_last_block _ x hx]
      exact hit
    exact h2
  · rw [List.dropLast_concat]
    intro y hy
    by_cases ht : t = []
    · subst ht; simp at hy
    · have hsplit := List.dropLast_append_getLast ht
      rw [← hsplit] at hy
      rcases List.mem_append.mp hy with h | h
      · exact hpass y h
      · rw [List.mem_singleton] at h
        have hlast : last_block (s :: t) = y := by
          have : y ∈ (s :: t).getLast? := by
            rw [h]
            cases t with
            | nil => exact absurd rfl ht
            | cons a u =>
              rw [List.getLast?_cons_cons, List.getLast?_eq_getLast _ (by simp)]
              simp
          exact (getLast?_eq_last_block _ y this).symm
        refine ⟨hlast ▸ hexit, ?_⟩
        intro l hl
        subst hl
        intro hmem
        have hlen : 1 < (s :: t).length := by
          have : 0 < t.length := List.length_pos.mpr ht
          simp; omega
        rw [nopass_stop_true (s :: t) l hlen (hlast ▸ hmem)] at hstop
        exact Bool.noConfusion hstop

/-- Every recorded path is the start block followed by a walk to the end
block. -/
theorem recorded_valid_walk (cfg : Cfg) (k start e : Nat) (np : Option (List Nat))
    (r : List Nat) (hr : r ∈ recorded_paths cfg k start e np) :
    ∃ t, r = resolve_start cfg start :: t ∧
      ValidWalk cfg np (resolve_start cfg start) (resolve_end cfg e) t := by
  obtain ⟨⟨_, t, rfl, hch, hpass⟩, hlen, hlast⟩ :=
    recorded_paths_good cfg k start e np (fun q _ => WalkGood cfg np (resolve_start cfg start) q)
      ⟨[], rfl, List.Chain.nil, by simp⟩
      (fun p c it hg hstop hexit hit _ => walkGood_step cfg np _ p it hg hstop hexit hit) r hr
  refine ⟨t, rfl, hch, hpass, ?_⟩
  cases t with
  | nil => simp at hlen
  | cons a u =>
    have hx : (a :: u).getLast (by simp) ∈ (resolve_start cfg start :: a :: u).getLast? := by
      rw [List.getLast?_cons_cons, List.getLast?_eq_getLast _ (by simp)]
      simp
    rw [List.getLast?_eq_getLast _ (by simp), getLast?_eq_last_block _ _ hx, hlast]

/-- Cutting loops out of a walk that visits some block at least `K` times
leaves a walk that visits no block more than `K` times and some block exactly
`K` times. -/
theorem walk_cut (cfg : Cfg) (np : Option (List Nat)) (s e K : Nat) (hK : 1 ≤ K) :
    ∀ (n : Nat) (t : List Nat), t.length ≤ n → ValidWalk cfg np s e t →
      (∃ v, K ≤ t.count v) →
      ∃ t', ValidWalk cfg np s e t' ∧ (∀ b, t'.count b ≤ K) ∧ ∃ v, K ≤ t'.count v := by
  intro n
  induction n with
  | zero =>
    intro t hlen _ hv
    obtain ⟨v, hv⟩ := hv
    have : t = [] := List.length_eq_zero.mp (by omega)
    subst this
    simp at hv
    omega
  | succ n ih =>
    intro t hlen hw hv
    by_cases hall : ∀ b, t.count b ≤ K
    · exact ⟨t, hw, hall, hv⟩
    · push_neg at hall
      obtain ⟨v, hvK⟩ := hall
      have hmem : v ∈ t := List.count_pos_iff.mp (by omega)
      obtain ⟨t1, u, rfl, hnot1⟩ := List.eq_append_cons_of_mem hmem
      have hcu : K ≤ u.count v := by
        rw [List.count_append, List.count_cons_self, List.count_eq_zero.mpr hnot1] at hvK
        omega
      have hmem2 : v ∈ u := List.count_pos_iff.mp (by omega)
      obtain ⟨t2, t3, rfl, hnot2⟩ := List.eq_append_cons_of_mem hmem2
      obtain ⟨hch, hpass, hlast⟩ := hw
      refine ih (t1 ++ v :: t3) ?_ ⟨?_, ?_, ?_⟩ ⟨v, ?_⟩
      · simp at hlen ⊢; omega
      · rw [List.chain_split] at hch ⊢
        refine ⟨hch.1, ?_⟩
        have h2 := hch.2
        rw [List.chain_split] at h2
        exact h2.2
      · intro y hy
        refine hpass y ?_
        cases t3 with
        | nil =>
          rw [List.dropLast_concat] at hy
          rw [show t1 ++ v :: (t2 ++ [v]) = (t1 ++ v :: t2) ++ [v] by simp,
            List.dropLast_concat]
          exact List.mem_append_left _ hy
        | cons a t4 =>
          rw [List.dropLast_append_of_ne_nil _ (by simp),
            List.dropLast_cons_of_ne_nil (by simp)] at hy
          rw [List.dropLast_append_of_ne_nil _ (by simp),
            List.dropLast_cons_of_ne_nil (by simp),
            List.dropLast_append_of_ne_nil _ (by simp),
            List.dropLast_cons_of_ne_nil (by simp)]
          rcases List.mem_append.mp hy with h | h
          · exact List.mem_append_left _ h
          · refine List.mem_append_right _ ?_
            rcases List.mem_cons.mp h with h | h
            · rw [h]; exact List.mem_cons_self _ _
            · exact List.mem_cons_of_mem _
                (List.mem_append_right _ (List.mem_cons_of_mem _ h))
      · rw [← hlast]
        simp [List.getLast?_append, List.getLast?_cons]
      · rw [List.count_append, List.count_cons_self] at hcu
        rw [List.count_append, List.count_cons_self, List.count_eq_zero.mpr hnot1]
        rw [List.count_eq_zero.mpr hnot2] at hcu
        omega

theorem recorded_paths_filter_within (cfg : Cfg) (hclosed : cfg.closed) (k k' start e : Nat)
    (np : Option (List Nat)) (hstart : resolve_start cfg start < cfg.num_blocks)
    (hk : 0 < k) (hkk : k ≤ k') :
    recorded_paths cfg k start e np = (recorded_paths cfg k' start e np).filter (within k) := by
  have hfuel : cfg.num_blocks * k < cfg.num_blocks * k' + 1 :=
    Nat.lt_succ_of_le (Nat.mul_le_mul_left _ hkk)
  rw [recorded_paths_any_fuel cfg hclosed k start e np hstart hk _ hfuel,
    recorded_paths_any_fuel cfg hclosed k' start e np hstart (by omega) _ (Nat.lt_succ_self _)]
  exact helper_filter_within cfg _ k k' hkk np (resolve_start cfg start) _ _ _ []
    ⟨[], rfl, by simp, by simp⟩

theorem recorded_paths_from_exit (cfg : Cfg) (k start e : Nat) (np : Option (List Nat))
    (h : resolve_start cfg start = cfg.get_exit) : recorded_paths cfg k start e np = [] := by
  unfold recorded_paths
  simp only
  split
  · rw [helper_succ, if_pos (Or.inr (by simpa [last_block] using h))]
    simp [record]
  · rfl

/-- A walk that stays within the visit bound is recorded, on a finite graph
and from a start block that is a block of the graph and not the exit. -/
theorem valid_walk_recorded (cfg : Cfg) (hclosed : cfg.closed) (k start e : Nat)
    (np : Option (List Nat)) (hstart : resolve_start cfg start < cfg.num_blocks)
    (hnot_exit : resolve_start cfg start ≠ cfg.get_exit) (t : List Nat)
    (hw : ValidWalk cfg np (resolve_start cfg start) (resolve_end cfg e) t)
    (hcount : ∀ b, t.count b ≤ k) :
    resolve_start cfg start :: t ∈ recorded_paths cfg k start e np := by
  obtain ⟨hch, hpass, hlast⟩ := hw
  obtain ⟨x, rest, rfl⟩ : ∃ x rest, t = x :: rest := by
    cases t with
    | nil => simp at hlast
    | cons x rest => exact ⟨x, rest, rfl⟩
  have hk : 0 < k := by
    have := hcount x
    rw [List.count_cons_self] at this
    omega
  have hall := chain_lt_num_blocks cfg hclosed _ _ hstart hch
  have hlen := length_le_of_count_le _ cfg.num_blocks k hall hcount
  have hx : (x :: rest).getLast (by simp) ∈ (resolve_start cfg start :: x :: rest).getLast? := by
    rw [List.getLast?_cons_cons, List.getLast?_eq_getLast _ (by simp)]
    simp
  have hlb : last_block ([resolve_start cfg start] ++ x :: rest) = resolve_end cfg e := by
    rw [List.getLast?_eq_getLast _ (by simp)] at hlast
    rw [List.singleton_append, ← getLast?_eq_last_block _ _ hx]
    exact Option.some.inj hlast
  unfold recorded_paths
  simp only [if_pos hk]
  refine helper_complete cfg _ k np rest x _ _ _ _ (by simp) ?_ ?_ ?_ ?_ hpass hlb
  · simp at hlen; omega
  · unfold stops
    rintro (h | h)
    · cases np with
      | none => simp [nopass_stop] at h
      | some l => simp [nopass_stop] at h
    · exact hnot_exit (by simpa [last_block] using h)
  · simpa [last_block] using hch
  · intro b
    have := hcount b
    omega

/-- If every path recorded at bound `k + 1` is within the bound `k`, so is
every path recorded at any larger bound. -/
theorem recorded_within_of_next (cfg : Cfg) (hclosed : cfg.closed) (k start e : Nat)
    (np : Option (List Nat)) (hstart : resolve_start cfg start < cfg.num_blocks)
    (hnot_exit : resolve_start cfg start ≠ cfg.get_exit)
    (hnext : ∀ r ∈ recorded_paths cfg (k + 1) start e np, within k r = true)
    (k' : Nat) (r : List Nat) (hr : r ∈ recorded_paths cfg k' start e np) :
    within k r = true := by
  by_contra hnot
  obtain ⟨t, rfl, hw⟩ := recorded_valid_walk cfg k' start e np r hr
  have hv : ∃ v, k + 1 ≤ t.count v := by
    by_contra hno
    push_neg at hno
    exact hnot ((within_iff k _).mpr (fun b => by
      have := hno b
      simp only [List.tail_cons]
      omega))
  obtain ⟨t', hw', hle, v, hv'⟩ :=
    walk_cut cfg np _ _ (k + 1) (by omega) t.length t (Nat.le_refl _) hw hv
  have hmem := valid_walk_recorded cfg hclosed (k + 1) start e np hstart hnot_exit t' hw' hle
  have := (within_iff k _).mp (hnext _ hmem) v
  simp only [List.tail_cons] at this
  omega

/-- C11: on a finite graph, for a bound k of at least 1, the enumerations at
bound k and at bound k + 1 return the same number of paths if and only if
the enumeration at every bound from k on returns exactly the paths it
returns at bound k. -/
theorem C11_same_count_iff_captured (cfg : Cfg) (k a b : Nat) (np : Option (List Nat))
    (hclosed : cfg.closed) (hstart : resolve_start cfg a < cfg.num_blocks) (hk : 1 ≤ k) :
    (enumerate_paths cfg k a b np).length = (enumerate_paths cfg (k + 1) a b np).length ↔
      ∀ k', k ≤ k' → enumerate_paths cfg k' a b np = enumerate_paths cfg k a b np := by
  constructor
  · intro hlen k' hkk
    unfold enumerate_paths at hlen ⊢
    rw [List.length_map, List.length_map] at hlen
    by_cases hexit : resolve_start cfg a = cfg.get_exit
    · rw [recorded_paths_from_exit cfg k' a b np hexit,
        recorded_paths_from_exit cfg k a b np hexit]
    · have hnext : ∀ r ∈ recorded_paths cfg (k + 1) a b np, within k r = true := by
        rw [recorded_paths_filter_within cfg hclosed k (k + 1) a b np hstart hk (by omega)]
          at hlen
        exact List.filter_length_eq_length.mp hlen
      have hall : ∀ r ∈ recorded_paths cfg k' a b np, within k r = true :=
        fun r hr => recorded_within_of_next cfg hclosed k a b np hstart hexit hnext k' r hr
      rw [recorded_paths_filter_within cfg hclosed k k' a b np hstart hk hkk,
        List.filter_eq_self.mpr hall]
  · intro h
    rw [h (k + 1) (by omega)]

/-- C11 at a concrete input: in the diamond graph the enumerations from block
0 to block 3 at bounds 1 and 2 have the same length, and the enumeration at
bound 5 returns the paths of bound 1. -/
theorem C11_same_count_iff_captured_witness :
    diamond.closed ∧ resolve_start diamond 0 < diamond.num_blocks ∧ 1 ≤ 1 ∧
    (enumerate_paths diamond 1 0 3 none).length = (enumerate_paths diamond 2 0 3 none).length ∧
    enumerate_paths diamond 5 0 3 none = enumerate_paths diamond 1 0 3 none :=
  ⟨by decide, by decide, by decide, by decide,
    (C11_same_count_iff_captured diamond 1 0 3 none (by decide) (by decide) (by decide)).mp
      (by decide) 5 (by decide)⟩

/-! ## C12: the preconditions of the validator -/

theorem setup_support_table_fold (full : List Opcode) (tbl : Opcode → Bool) (op : Opcode) :
    full.foldl (fun tbl op => fun x => if x = op then true else tbl x) tbl op = true ↔
      op ∈ full ∨ tbl op = true := by
  induction full generalizing tbl with
  | nil => simp
  | cons a rest ih =>
    rw [List.foldl_cons, ih]
    by_cases h : op = a
    · simp [h]
    · simp [h]

/-- The support table holds true exactly at the fully supported opcodes. -/
theorem support_table_iff (v : Validator) (op : Opcode) :
    v.support_table_ op = true ↔ op ∈ v.full_support_opcodes := by
  unfold Validator.support_table_ setup_support_table
  rw [setup_support_table_fold]
  simp

theorem check_supported_ok_iff (v : Validator) (code : List Instruction) :
    check_supported v code = Except.ok () ↔ ∀ i ∈ code, ¬ rejected v i := by
  induction code with
  | nil => simp [check_supported]
  | cons a rest ih =>
    unfold check_supported
    by_cases h1 : (a.is_label_defn || a.is_any_jump || a.is_ret) = true
    · rw [if_pos h1, ih]
      have ha : ¬ rejected v a := by
        rintro ⟨h2, h3, h4, _⟩
        simp [h2, h3, h4] at h1
      simp [ha]
    · rw [if_neg h1]
      have h1' : a.is_label_defn = false ∧ a.is_any_jump = false ∧ a.is_ret = false := by
        simpa [not_or, and_assoc] using h1
      by_cases h2 : v.is_supported a = true
      · have ha : ¬ rejected v a := by
          rintro ⟨_, _, _, h5⟩
          rw [Validator.is_supported, h5] at h2
          exact Bool.noConfusion h2
        simp [h2, ih, ha]
      · have h2' : v.is_supported a = false := by simpa using h2
        have ha : rejected v a := ⟨h1'.1, h1'.2.1, h1'.2.2, h2'⟩
        simp [h2']
        intro hna
        exact absurd ha hna

theorem check_supported_error (v : Validator) (code : List Instruction) (msg : String)
    (h : check_supported v code = Except.error msg) :
    ∃ i ∈ code, rejected v i ∧ msg = "Instruction " ++ v.print i ++ " is unsupported." := by
  induction code with
  | nil => simp [check_supported] at h
  | cons a rest ih =>
    unfold check_supported at h
    split at h
    · obtain ⟨i, hi, hr⟩ := ih h
      exact ⟨i, List.mem_cons_of_mem _ hi, hr⟩
    · rename_i h1
      have h1' : a.is_label_defn = false ∧ a.is_any_jump = false ∧ a.is_ret = false := by
        simpa [not_or, and_assoc] using h1
      split at h
      · rename_i h2
        have h2' : v.is_supported a = false := by simpa using h2
        refine ⟨a, List.mem_cons_self _ _, ⟨h1'.1, h1'.2.1, h1'.2.2, h2'⟩, ?_⟩
        exact (Except.error.inj h).symm
      · obtain ⟨i, hi, hr⟩ := ih h
        exact ⟨i, List.mem_cons_of_mem _ hi, hr⟩

theorem check_supported_cases (v : Validator) (code : List Instruction) :
    check_supported v code = Except.ok () ∨ ∃ msg, check_supported v code = Except.error msg := by
  cases h : check_supported v code with
  | ok u => exact Or.inl rfl
  | error msg => exact Or.inr ⟨msg, rfl⟩

theorem sanity_checks_ok_iff (v : Validator) (target rewrite : CodeCfg) :
    v.sanity_checks target rewrite = Except.ok () ↔ ¬ violates v target rewrite := by
  unfold Validator.sanity_checks violates
  split_ifs with h1 h2 h3 h4
  · exact ⟨fun h => False.elim h, fun h => absurd (Or.inl h1) h⟩
  · exact ⟨fun h => False.elim h, fun h => absurd (Or.inr (Or.inl h2)) h⟩
  · exact ⟨fun h => False.elim h,
      fun h => absurd (Or.inr (Or.inr (Or.inl (by simpa using h3)))) h⟩
  · exact ⟨fun h => False.elim h,
      fun h => absurd (Or.inr (Or.inr (Or.inr (Or.inl (by simpa using h4))))) h⟩
  · have h3' : v.regset_is_supported target.def_ins ≠ false := by simpa using h3
    have h4' : v.regset_is_supported target.live_outs ≠ false := by simpa using h4
    have hpre : ∀ P : Prop, (target.def_ins ≠ rewrite.def_ins ∨
        target.live_outs ≠ rewrite.live_outs ∨
        v.regset_is_supported target.def_ins = false ∨
        v.regset_is_supported target.live_outs = false ∨ P) ↔ P := by
      intro P
      constructor
      · rintro (h | h | h | h | h)
        · exact absurd h h1
        · exact absurd h h2
        · exact absurd h h3'
        · exact absurd h h4'
        · exact h
      · intro h; exact Or.inr (Or.inr (Or.inr (Or.inr h)))
    rw [hpre]
    rcases check_supported_cases v rewrite.get_code with hr | ⟨msg, hr⟩
    · rw [hr]
      simp only
      rw [check_supported_ok_iff]
      rw [check_supported_ok_iff] at hr
      constructor
      · rintro ht ⟨i, hi | hi, hrej⟩
        · exact ht i hi hrej
        · exact hr i hi hrej
      · intro hno i hi hrej
        exact hno ⟨i, Or.inl hi, hrej⟩
    · rw [hr]
      simp only
      obtain ⟨i, hi, hrej, _⟩ := check_supported_error v _ msg hr
      exact ⟨fun h => Except.noConfusion h, fun hno => absurd ⟨i, Or.inr hi, hrej⟩ hno⟩

/-- C12: `sanity_checks` throws a validator error if and only if the def-ins
differ, or the live-outs differ, or the handler does not support the def-ins
or the live-outs of the target, or some instruction of the target or of the
rewrite that is no label definition, no jump and no return has an opcode
outside the support table; otherwise it returns normally. -/
theorem C12_sanity_checks_throws_iff (v : Validator) (target rewrite : CodeCfg) :
    ((∃ msg, v.sanity_checks target rewrite = Except.error msg) ↔
      (target.def_ins ≠ rewrite.def_ins ∨ target.live_outs ≠ rewrite.live_outs ∨
        v.regset_is_supported target.def_ins = false ∨
        v.regset_is_supported target.live_outs = false ∨
        ∃ i, (i ∈ target.get_code ∨ i ∈ rewrite.get_code) ∧
          i.is_label_defn = false ∧ i.is_any_jump = false ∧ i.is_ret = false ∧
          v.support_table_ i.opcode = false)) ∧
    ((¬ ∃ msg, v.sanity_checks target rewrite = Except.error msg) ↔
      v.sanity_checks target rewrite = Except.ok ()) := by
  have hcases : v.sanity_checks target rewrite = Except.ok () ∨
      ∃ msg, v.sanity_checks target rewrite = Except.error msg := by
    cases h : v.sanity_checks target rewrite with
    | ok u => exact Or.inl rfl
    | error msg => exact Or.inr ⟨msg, rfl⟩
  have hiff := sanity_checks_ok_iff v target rewrite
  constructor
  · constructor
    · rintro ⟨msg, hmsg⟩
      by_contra hno
      have hok := hiff.mpr hno
      rw [hmsg] at hok
      exact Except.noConfusion hok
    · intro hviol
      rcases hcases with hok | herr
      · exact absurd hviol (hiff.mp hok)
      · exact herr
  · constructor
    · intro hno
      rcases hcases with hok | herr
      · exact hok
      · exact absurd herr hno
    · rintro hok ⟨msg, hmsg⟩
      rw [hmsg] at hok
      exact Except.noConfusion hok

/-! ## Inlining: the loop against its specification -/

theorem inline_callee_eq (unique_id : Nat) (callee new_code : List Instruction) :
    inline_callee unique_id new_code callee =
      new_code ++ callee.map (fun i =>
        if i.is_ret then ⟨Opcode.JMP_LABEL_1, [Operand.label (end_label unique_id)]⟩
        else rename_labels unique_id i) := by
  induction callee generalizing new_code with
  | nil => simp [inline_callee]
  | cons a rest ih =>
    unfold inline_callee
    split
    · rename_i h; rw [ih]; simp [h]
    · rename_i h; rw [ih]; simp [h]

/-- When every call names a function of the sandbox, the loop appends the
inlining the specification words. -/
theorem inline_loop_eq_spec (v : Validator) (code : List Instruction) :
    ∀ (new_code : List Instruction) (unique_id : Nat), calls_present v code →
      inline_loop v new_code unique_id code = some (new_code ++ inline_spec v unique_id code) := by
  induction code with
  | nil => intro new_code unique_id _; simp [inline_loop, inline_spec]
  | cons a rest ih =>
    intro new_code unique_id hp
    have hrest : calls_present v rest := fun i hi => hp i (List.mem_cons_of_mem _ hi)
    unfold inline_loop inline_spec
    by_cases hc : a.is_call = true
    · obtain ⟨label, callee, hl, hf⟩ := hp a (List.mem_cons_self _ _) hc
      have hb : (a.label0.bind fun label => v.functions.lookup label) = some callee := by
        rw [hl]; exact hf
      simp only [hc, if_true, hb, Option.getD_some]
      rw [ih _ _ hrest, inline_callee_eq]
      simp
    · simp only [hc, if_false, Bool.false_eq_true]
      rw [ih _ _ hrest]
      simp

/-- The loop succeeds only when every call names a function of the
sandbox. -/
theorem inline_loop_some (v : Validator) (code : List Instruction) :
    ∀ (new_code : List Instruction) (unique_id : Nat) (out : List Instruction),
      inline_loop v new_code unique_id code = some out → calls_present v code := by
  induction code with
  | nil => intro _ _ _ _ i hi; simp at hi
  | cons a rest ih =>
    intro new_code unique_id out h
    unfold inline_loop at h
    by_cases hc : a.is_call = true
    · simp only [hc, if_true] at h
      cases hb : a.label0.bind (fun label => v.functions.lookup label) with
      | none => rw [hb] at h; exact Option.noConfusion h
      | some callee =>
        rw [hb] at h
        simp only at h
        have hrest := ih _ _ _ h
        intro i hi hcall
        rcases List.mem_cons.mp hi with rfl | hi
        · cases hl : i.label0 with
          | none => rw [hl] at hb; simp at hb
          | some label =>
            rw [hl] at hb
            exact ⟨label, callee, rfl, by simpa using hb⟩
        · exact hrest i hi hcall
    · simp only [hc, if_false, Bool.false_eq_true] at h
      have hrest := ih _ _ _ h
      intro i hi hcall
      rcases List.mem_cons.mp hi with rfl | hi
      · exact absurd hcall hc
      · exact hrest i hi hcall

theorem inline_spec_keeps (v : Validator) (code : List Instruction) :
    ∀ unique_id, (code.filter (fun i => !i.is_call)).Sublist (inline_spec v unique_id code) := by
  induction code with
  | nil => intro _; simp [inline_spec]
  | cons a rest ih =>
    intro unique_id
    unfold inline_spec
    by_cases hc : a.is_call = true
    · simp only [hc, if_true, List.filter_cons, Bool.not_true, Bool.false_eq_true, if_false]
      exact List.Sublist.trans (ih (unique_id + 1)) (List.sublist_append_right _ _)
    · have hc' : a.is_call = false := by simpa using hc
      simp only [hc', Bool.false_eq_true, if_false, List.filter_cons, Bool.not_false, if_true]
      exact List.Sublist.cons₂ a (ih unique_id)

theorem rename_labels_is_call (unique_id : Nat) (i : Instruction) :
    (rename_labels unique_id i).is_call = i.is_call := rfl

theorem inline_spec_no_call (v : Validator) (code : List Instruction)
    (hcallee : ∀ i ∈ code, i.is_call = true → ∀ label callee, i.label0 = some label →
      v.functions.lookup label = some callee → ∀ j ∈ callee, j.is_call = false) :
    ∀ unique_id, ∀ i ∈ inline_spec v unique_id code, i.is_call = false := by
  induction code with
  | nil => intro _ i hi; simp [inline_spec] at hi
  | cons a rest ih =>
    intro unique_id i hi
    have hrest := ih (fun i hi => hcallee i (List.mem_cons_of_mem _ hi))
    unfold inline_spec at hi
    by_cases hc : a.is_call = true
    · simp only [hc, if_true, List.mem_append, List.mem_map] at hi
      rcases hi with ((hi | ⟨j, hj, hji⟩) | hi) | hi
      · rw [List.mem_singleton] at hi
        subst hi
        rfl
      · have hjc : j.is_call = false := by
          cases hl : a.label0 with
          | none => rw [hl] at hj; simp at hj
          | some label =>
            rw [hl] at hj
            cases hf : v.functions.lookup label with
            | none => simp [hf] at hj
            | some callee =>
              simp only [Option.some_bind, hf, Option.getD_some] at hj
              exact hcallee a (List.mem_cons_self _ _) hc label callee hl hf j hj
        rw [← hji]
        split
        · rfl
        · rw [rename_labels_is_call]; exact hjc
      · simp only [List.mem_cons, List.not_mem_nil, or_false] at hi
        rcases hi with rfl | rfl <;> rfl
      · exact hrest _ i hi
    · have hc' : a.is_call = false := by simpa using hc
      simp only [hc', Bool.false_eq_true, if_false, List.mem_cons] at hi
      rcases hi with rfl | hi
      · exact hc'
      · exact hrest _ i hi

theorem inline_functions_succeeds (v : Validator) (cfg : CodeCfg) (hcalls : calls_present v cfg.get_code) :
    ∃ out, v.inline_functions cfg = some out ∧ out.get_code = inline_spec v 0 cfg.get_code := by
  refine ⟨⟨inline_spec v 0 cfg.get_code, cfg.def_ins, cfg.live_outs⟩, ?_, rfl⟩
  unfold Validator.inline_functions
  rw [inline_loop_eq_spec v _ [] 0 hcalls]
  rfl

/-! ## C13: an unsupported instruction -/

theorem starts_with_append (sub post : List Char) : starts_with (sub ++ post) sub = true := by
  induction sub with
  | nil => cases post <;> rfl
  | cons c rest ih => simp [starts_with, ih]

theorem occurs_in_of_starts (sub s : List Char) (h : starts_with s sub = true) :
    occurs_in sub s = true := by
  cases s with
  | nil => exact h
  | cons c rest => simp [occurs_in, h]

theorem occurs_in_append (sub pre post : List Char) :
    occurs_in sub (pre ++ (sub ++ post)) = true := by
  induction pre with
  | nil => exact occurs_in_of_starts _ _ (starts_with_append sub post)
  | cons c rest ih => simp [occurs_in, ih]

/-- The message thrown for an unsupported instruction contains the word
`unsupported`, whatever the instruction prints as. -/
theorem unsupported_message (text : String) :
    message_contains ("Instruction " ++ text ++ " is unsupported.") "unsupported" = true := by
  unfold message_contains
  have h : ("Instruction " ++ text ++ " is unsupported.").data =
      ("Instruction ".data ++ text.data ++ " is ".data) ++ ("unsupported".data ++ ".".data) := by
    simp only [String.data_append, List.append_assoc]
    rfl
  rw [h]
  exact occurs_in_append _ _ _

theorem mem_inline_of_not_call (v : Validator) (cfg out : CodeCfg)
    (h : v.inline_functions cfg = some out) (i : Instruction) (hi : i ∈ cfg.get_code)
    (hc : i.is_call = false) : i ∈ out.get_code := by
  unfold Validator.inline_functions at h
  cases hl : inline_loop v [] 0 cfg.get_code with
  | none => rw [hl] at h; exact Option.noConfusion h
  | some new_code =>
    rw [hl] at h
    have hp := inline_loop_some v _ _ _ _ hl
    rw [inline_loop_eq_spec v _ [] 0 hp] at hl
    have hout : out.get_code = inline_spec v 0 cfg.get_code := by
      have h1 := Option.some.inj h
      have h2 := Option.some.inj hl
      rw [← h1]
      simpa using h2.symm
    rw [hout]
    exact (inline_spec_keeps v _ 0).subset (List.mem_filter.mpr ⟨hi, by simp [hc]⟩)

theorem inline_functions_regs (v : Validator) (cfg out : CodeCfg)
    (h : v.inline_functions cfg = some out) :
    out.def_ins = cfg.def_ins ∧ out.live_outs = cfg.live_outs := by
  unfold Validator.inline_functions at h
  cases hl : inline_loop v [] 0 cfg.get_code with
  | none => rw [hl] at h; exact Option.noConfusion h
  | some new_code =>
    rw [hl] at h
    have h1 := Option.some.inj h
    rw [← h1]
    exact ⟨rfl, rfl⟩

/-- C13, as stated, fails: target and rewrite agree on def-ins and live-outs
and contain `cpuid`, whose opcode is outside the support table, but the
handler does not support the register set; `verify` returns false with an
error whose message is `Target def-in not supported.`, which does not contain
the word `unsupported`. -/
theorem C13_regset_message :
    cpuidCfg.def_ins = cpuidCfg.def_ins ∧ cpuidCfg.live_outs = cpuidCfg.live_outs ∧
    (⟨Opcode.CPUID, []⟩ : Instruction) ∈ cpuidCfg.get_code ∧
    strictValidator.support_table_ Opcode.CPUID = false ∧
    DdecValidator.verify strictValidator oneQueryBody cpuidCfg cpuidCfg =
      some ⟨false, true, "Target def-in not supported.", 0⟩ ∧
    message_contains "Target def-in not supported." "unsupported" = false := by
  decide

/-- C13, amended: when every call names a function held by the sandbox,
target and rewrite agree on def-ins and live-outs, the handler supports both
register sets, and the target or the rewrite contains an instruction that is
no call, no label definition, no jump and no return and whose opcode is
outside the support table, then `verify` returns false, `has_error` is true,
the message contains the word `unsupported`, and no solver query has been
issued. -/
theorem C13_unsupported_instruction (v : Validator)
    (body : CodeCfg → CodeCfg → Except String Bool × Nat)
    (init_target init_rewrite : CodeCfg)
    (hcalls_t : calls_present v init_target.get_code)
    (hcalls_r : calls_present v init_rewrite.get_code)
    (hdef : init_target.def_ins = init_rewrite.def_ins)
    (hlive : init_target.live_outs = init_rewrite.live_outs)
    (hsup_def : v.regset_is_supported init_target.def_ins = true)
    (hsup_live : v.regset_is_supported init_target.live_outs = true)
    (hbad : ∃ i, (i ∈ init_target.get_code ∨ i ∈ init_rewrite.get_code) ∧ i.is_call = false ∧
      i.is_label_defn = false ∧ i.is_any_jump = false ∧ i.is_ret = false ∧
      v.support_table_ i.opcode = false) :
    ∃ out, DdecValidator.verify v body init_target init_rewrite = some out ∧
      out.result = false ∧ out.has_error = true ∧
      message_contains out.error "unsupported" = true ∧ out.queries = 0 := by
  obtain ⟨target, ht, _⟩ := inline_functions_succeeds v init_target hcalls_t
  obtain ⟨rewrite, hr, _⟩ := inline_functions_succeeds v init_rewrite hcalls_r
  obtain ⟨htd, htl⟩ := inline_functions_regs v _ _ ht
  obtain ⟨hrd, hrl⟩ := inline_functions_regs v _ _ hr
  obtain ⟨i, hi, hcall, hrej⟩ := hbad
  have hviol : violates v target rewrite := by
    refine Or.inr (Or.inr (Or.inr (Or.inr ⟨i, ?_, hrej⟩)))
    rcases hi with hi | hi
    · exact Or.inl (mem_inline_of_not_call v _ _ ht i hi hcall)
    · exact Or.inr (mem_inline_of_not_call v _ _ hr i hi hcall)
  have hnot_ok : v.sanity_checks target rewrite ≠ Except.ok () :=
    fun h => (sanity_checks_ok_iff v target rewrite).mp h hviol
  unfold DdecValidator.verify
  rw [ht, hr]
  simp only
  cases hs : v.sanity_checks target rewrite with
  | ok u => exact absurd hs hnot_ok
  | error msg =>
    refine ⟨⟨false, true, msg, 0⟩, rfl, rfl, rfl, ?_, rfl⟩
    have hform : ∃ j, msg = "Instruction " ++ v.print j ++ " is unsupported." := by
      unfold Validator.sanity_checks at hs
      rw [if_neg (by rw [htd, hrd]; exact not_not.mpr hdef),
        if_neg (by rw [htl, hrl]; exact not_not.mpr hlive),
        if_neg (by rw [htd, hsup_def]; simp), if_neg (by rw [htl, hsup_live]; simp)] at hs
      cases hc : check_supported v rewrite.get_code with
      | error m =>
        rw [hc] at hs
        obtain ⟨j, _, _, hm⟩ := check_supported_error v _ m hc
        exact ⟨j, by rw [← Except.error.inj hs, hm]⟩
      | ok u =>
        rw [hc] at hs
        obtain ⟨j, _, _, hm⟩ := check_supported_error v _ msg hs
        exact ⟨j, hm⟩
    obtain ⟨j, rfl⟩ := hform
    exact unsupported_message _

/-- C13 amended, at a concrete input: the graphs of the test
`UnsupportedInstruction` with a handler that supports the register set. -/
theorem C13_unsupported_instruction_witness :
    calls_present plainValidator cpuidCfg.get_code ∧
    ∃ out, DdecValidator.verify plainValidator oneQueryBody cpuidCfg cpuidCfg = some out ∧
      out.result = false ∧ out.has_error = true ∧
      message_contains out.error "unsupported" = true ∧ out.queries = 0 :=
  have h : calls_present plainValidator cpuidCfg.get_code := by
    intro i hi hc
    simp only [cpuidCfg, List.mem_cons, List.not_mem_nil, or_false] at hi
    rcases hi with rfl | rfl | rfl <;> exact absurd hc (by decide)
  ⟨h, C13_unsupported_instruction plainValidator oneQueryBody cpuidCfg cpuidCfg h h rfl rfl
    (by decide) (by decide)
    ⟨⟨Opcode.CPUID, []⟩, Or.inl (by decide), by decide, by decide, by decide, by decide,
      by decide⟩⟩

/-! ## C14: inlining -/

/-- C14, as stated, fails: the callee `foo` itself calls `bar`; both are held
by the sandbox, and the code returned for a graph that calls `foo` contains
the call copied from `foo`. -/
theorem C14_nested_call_remains :
    (∀ i ∈ callFooCfg.get_code, i.is_call = true →
      ∃ callee, nestedValidator.functions.lookup "foo" = some callee ∧
        i.label0 = some "foo") ∧
    nestedValidator.functions.lookup "bar" = some [⟨Opcode.RET, []⟩] ∧
    (nestedValidator.inline_functions callFooCfg).map (fun out => out.get_code) =
      some [⟨Opcode.PUSH_R64, [rbp]⟩,
        ⟨Opcode.CALL_LABEL, [Operand.label "%%INLINE%%_0_bar"]⟩,
        ⟨Opcode.JMP_LABEL_1, [Operand.label "%%END%%_0"]⟩,
        ⟨Opcode.LABEL_DEFN, [Operand.label "%%END%%_0"]⟩,
        ⟨Opcode.POP_R64, [rbp]⟩, ⟨Opcode.NOP, []⟩, ⟨Opcode.RET, []⟩] ∧
    (⟨Opcode.CALL_LABEL, [Operand.label "%%INLINE%%_0_bar"]⟩ : Instruction).is_call = true := by
  decide

/-- C14, amended: when every call of the graph names a function held by the
sandbox, `inline_functions` returns the def-ins and live-outs unchanged and
the code in which every call is replaced by push %rbp, the label-renamed copy
of the callee with each return turned into a jump to the end label of that
call, the definition of the end label, and pop %rbp; the instructions that are
no calls are kept unchanged and in order; and the code returned contains no
call provided no callee contains one. -/
theorem C14_inline_functions (v : Validator) (cfg : CodeCfg)
    (hcalls : calls_present v cfg.get_code) :
    ∃ out, v.inline_functions cfg = some out ∧
      out.def_ins = cfg.def_ins ∧ out.live_outs = cfg.live_outs ∧
      out.get_code = inline_spec v 0 cfg.get_code ∧
      (cfg.get_code.filter (fun i => !i.is_call)).Sublist out.get_code ∧
      ((∀ i ∈ cfg.get_code, i.is_call = true → ∀ label callee, i.label0 = some label →
          v.functions.lookup label = some callee → ∀ j ∈ callee, j.is_call = false) →
        ∀ i ∈ out.get_code, i.is_call = false) := by
  refine ⟨⟨inline_spec v 0 cfg.get_code, cfg.def_ins, cfg.live_outs⟩, ?_, rfl, rfl, rfl,
    inline_spec_keeps v _ 0, fun h => inline_spec_no_call v _ h 0⟩
  unfold Validator.inline_functions
  rw [inline_loop_eq_spec v _ [] 0 hcalls]
  rfl

/-- C14 amended, at a concrete input: the graph that calls `foo`, where `foo`
is a `nop` and a return. -/
theorem C14_inline_functions_witness :
    calls_present simpleValidator callFooCfg.get_code ∧
    ∃ out, simpleValidator.inline_functions callFooCfg = some out ∧
      out.def_ins = callFooCfg.def_ins ∧ out.live_outs = callFooCfg.live_outs ∧
      out.get_code = inline_spec simpleValidator 0 callFooCfg.get_code ∧
      (callFooCfg.get_code.filter (fun i => !i.is_call)).Sublist out.get_code ∧
      ((∀ i ∈ callFooCfg.get_code, i.is_call = true → ∀ label callee, i.label0 = some label →
          simpleValidator.functions.lookup label = some callee →
          ∀ j ∈ callee, j.is_call = false) →
        ∀ i ∈ out.get_code, i.is_call = false) :=
  have h : calls_present simpleValidator callFooCfg.get_code := by
    intro i hi hc
    simp only [callFooCfg, List.mem_cons, List.not_mem_nil, or_false] at hi
    rcases hi with rfl | rfl | rfl
    · exact ⟨"foo", _, rfl, rfl⟩
    · exact absurd hc (by decide)
    · exact absurd hc (by decide)
  ⟨h, C14_inline_functions simpleValidator callFooCfg h⟩

/-! ## C19: the registers of a generated state -/

theorem testBit_255 (k : Nat) : (0xff : Nat).testBit k = decide (k < 8) :=
  Nat.testBit_two_pow_sub_one 8 k

theorem and_255 (x : Nat) : x &&& 0xff = x % 256 :=
  Nat.and_pow_two_sub_one_eq_mod x 8

theorem testBit_set_byte (q j b i : Nat) (hj : j < 8) :
    (set_byte q j b).testBit i =
      if 8 * j ≤ i ∧ i < 8 * j + 8 then b.testBit (i - 8 * j)
      else (decide (i < 64) && q.testBit i) := by
  unfold set_byte
  simp only [Nat.testBit_or, Nat.testBit_and, testBit_shl64, testBit_not64, testBit_255]
  by_cases h1 : 8 * j ≤ i
  · by_cases h2 : i < 8 * j + 8
    · have h3 : i < 64 := by omega
      have h4 : i - 8 * j < 8 := by omega
      simp [h1, h2, h3, h4]
    · have h4 : ¬ i - 8 * j < 8 := by omega
      simp [h1, h2, h4, Bool.and_comm]
  · simp [h1, Bool.and_comm]

theorem set_byte_lt (q j b : Nat) : set_byte q j b < 2 ^ 64 := by
  unfold set_byte
  refine Nat.or_lt_two_pow (Nat.and_lt_two_pow _ ?_) ?_
  · unfold not64; omega
  · unfold shl64; exact Nat.mod_lt _ (by positivity)

theorem set_fixed_byte_single (q j b : Nat) (hj : j < 8) :
    set_fixed_byte [q] j b = [set_byte q j b] := by
  unfold set_fixed_byte
  rw [Nat.div_eq_of_lt hj, Nat.mod_eq_of_lt hj]
  rfl

/-- The byte loop on a register of one quad: the bytes below `j` stay, byte
`t` from `j` on is the byte drawn at step `t - j`, and the generator has
advanced by the number of bytes written. -/
theorem gp_byte_loop_spec :
    ∀ (n j q max mask : Nat) (g : Rng), j + n = 8 →
      ∃ q', gp_byte_loop n j [q] max mask g = ([q'], { g with pos := g.pos + n }) ∧
        (n ≠ 0 → q' < 2 ^ 64) ∧
        (∀ i, i < 8 * j → q'.testBit i = q.testBit i) ∧
        (∀ t u, j ≤ t → t < 8 → u < 8 →
          q'.testBit (8 * t + u) = (drawn_byte max mask g (t - j)).testBit u) := by
  intro n
  induction n with
  | zero =>
    intro j q max mask g hj
    refine ⟨q, rfl, fun h => absurd rfl h, fun _ _ => rfl, ?_⟩
    intro t u h1 h2 _
    omega
  | succ n ih =>
    intro j q max mask g hj
    have hj8 : j < 8 := by omega
    obtain ⟨q', hq, hlt, hlow, hhigh⟩ :=
      ih (j + 1) (set_byte q j ((g.draws g.pos % ((max &&& 0xff) + 1)) &&& (mask &&& 0xff)))
        (max >>> 8) (mask >>> 8) g.next.2 (by omega)
    refine ⟨q', ?_, ?_, ?_, ?_⟩
    · rw [gp_byte_loop]
      simp only [Rng.next, set_fixed_byte_single _ _ _ hj8] at hq ⊢
      rw [hq, Nat.add_assoc, Nat.add_comm 1 n]
    · intro _
      by_cases hn : n = 0
      · subst hn
        simp only [gp_byte_loop, Rng.next, Prod.mk.injEq, List.cons.injEq, and_true] at hq
        rw [← hq]
        exact set_byte_lt _ _ _
      · exact hlt hn
    · intro i hi
      rw [hlow i (by omega), testBit_set_byte _ _ _ _ hj8]
      have : ¬ (8 * j ≤ i ∧ i < 8 * j + 8) := by omega
      have h64 : i < 64 := by omega
      simp [this, h64]
    · intro t u h1 h2 hu
      by_cases ht : t = j
      · subst ht
        rw [hlow (8 * t + u) (by omega), testBit_set_byte _ _ _ _ hj8]
        have : 8 * t ≤ 8 * t + u ∧ 8 * t + u < 8 * t + 8 := by omega
        rw [if_pos this]
        simp [drawn_byte]
      · rw [hhigh t u (by omega) h2 hu]
        have hs : t - j = (t - (j + 1)) + 1 := by omega
        simp only [drawn_byte, Rng.next]
        rw [hs]
        have e1 : g.pos + 1 + (t - (j + 1)) = g.pos + (t - (j + 1) + 1) := by omega
        have e2 : ∀ x : Nat, (x >>> 8) >>> (8 * (t - (j + 1))) = x >>> (8 * (t - (j + 1) + 1)) := by
          intro x
          rw [← Nat.shiftRight_add]
          congr 1
          omega
        rw [e1, e2, e2]

/-- What the byte loop leaves in a register of one quad: a 64-bit value
whose every byte is the byte drawn for it. -/
theorem gp_byte_loop_full (q max mask : Nat) (g : Rng) :
    ∃ q', gp_byte_loop 8 0 [q] max mask g = ([q'], { g with pos := g.pos + 8 }) ∧
      q' < 2 ^ 64 ∧
      ∀ t u, t < 8 → u < 8 → q'.testBit (8 * t + u) = (drawn_byte max mask g t).testBit u := by
  obtain ⟨q', h1, h2, _, h4⟩ := gp_byte_loop_spec 8 0 q max mask g rfl
  exact ⟨q', h1, h2 (by decide), fun t u ht hu => h4 t u (Nat.zero_le _) ht hu⟩

theorem drawn_byte_le (max mask : Nat) (g : Rng) (s : Nat) :
    drawn_byte max mask g s ≤ (max >>> (8 * s)) % 256 := by
  unfold drawn_byte
  refine Nat.le_trans Nat.and_le_left ?_
  rw [and_255]
  exact Nat.le_of_lt_succ (Nat.mod_lt _ (Nat.succ_pos _))

theorem drawn_byte_bits (max mask : Nat) (g : Rng) (s u : Nat)
    (h : (drawn_byte max mask g s).testBit u = true) : mask.testBit (8 * s + u) = true := by
  unfold drawn_byte at h
  simp only [Nat.testBit_and, Nat.testBit_shiftRight, Bool.and_eq_true] at h
  exact h.2.1

/-- The byte `t` of a value equals the byte drawn when all its bits do. -/
theorem byte_eq_of_bits (q b t : Nat) (hb : b < 256)
    (h : ∀ u, u < 8 → q.testBit (8 * t + u) = b.testBit u) : (q >>> (8 * t)) % 256 = b := by
  apply Nat.eq_of_testBit_eq
  intro u
  rw [show (256 : Nat) = 2 ^ 8 by norm_num, Nat.testBit_mod_two_pow, Nat.testBit_shiftRight]
  by_cases hu : u < 8
  · simp [hu, h u hu]
  · have : b.testBit u = false :=
      Nat.testBit_lt_two_pow (lt_of_lt_of_le hb (by
        rw [show (256 : Nat) = 2 ^ 8 by norm_num]
        exact Nat.pow_le_pow_right (by norm_num) (by omega)))
    simp [hu, this]

theorem le_of_digits_le :
    ∀ (n v m : Nat), v < 256 ^ n →
      (∀ t, t < n → (v / 256 ^ t) % 256 ≤ (m / 256 ^ t) % 256) → v ≤ m := by
  intro n
  induction n with
  | zero =>
    intro v m hv _
    simp at hv
    omega
  | succ n ih =>
    intro v m hv h
    have h0 := h 0 (Nat.succ_pos _)
    simp only [pow_zero, Nat.div_one] at h0
    have hdiv : v / 256 ≤ m / 256 := by
      apply ih
      · rw [pow_succ] at hv
        exact Nat.div_lt_of_lt_mul (by rw [Nat.mul_comm]; exact hv)
      · intro t ht
        have := h (t + 1) (by omega)
        rw [pow_succ, Nat.mul_comm, ← Nat.div_div_eq_div_mul, ← Nat.div_div_eq_div_mul] at this
        exact this
    omega

theorem le_of_bytes_le (v m : Nat) (hv : v < 2 ^ 64)
    (h : ∀ t, t < 8 → (v >>> (8 * t)) % 256 ≤ (m >>> (8 * t)) % 256) : v ≤ m := by
  apply le_of_digits_le 8 v m
  · rw [show (256 : Nat) ^ 8 = 2 ^ 64 by norm_num]
    exact hv
  · intro t ht
    have := h t ht
    rw [Nat.shiftRight_eq_div_pow, Nat.shiftRight_eq_div_pow, pow_mul] at this
    norm_num at this
    exact this

theorem gp_loop_spec (sg : StateGen) :
    ∀ (regs : Regs) (i0 : Nat) (g : Rng), (∀ r ∈ regs, r.length = 1) →
      (gp_loop sg i0 regs g).1.length = regs.length ∧
      ∀ k, k < regs.length →
        (gp_loop sg i0 regs g).1.getD k [] =
          (gp_byte_loop 8 0 (regs.getD k []) (sg.get_max_value (i0 + k))
            (sg.get_bitmask (i0 + k)) { g with pos := g.pos + 8 * k }).1 := by
  intro regs
  induction regs with
  | nil => intro i0 g _; exact ⟨rfl, fun k hk => by simp at hk⟩
  | cons r rest ih =>
    intro i0 g hlen
    obtain ⟨q, rfl⟩ : ∃ q, r = [q] := by
      have := hlen r (List.mem_cons_self _ _)
      match r, this with
      | [q], _ => exact ⟨q, rfl⟩
    obtain ⟨q', hq, _, _⟩ := gp_byte_loop_full q (sg.get_max_value i0) (sg.get_bitmask i0) g
    have hrest := ih (i0 + 1) { g with pos := g.pos + 8 }
      (fun r hr => hlen r (List.mem_cons_of_mem _ hr))
    have hunf : gp_loop sg i0 ([q] :: rest) g =
        ([q'] :: (gp_loop sg (i0 + 1) rest { g with pos := g.pos + 8 }).1,
          (gp_loop sg (i0 + 1) rest { g with pos := g.pos + 8 }).2) := by
      rw [gp_loop]
      simp only [num_fixed_bytes, List.length_singleton, Nat.mul_one, hq]
    rw [hunf]
    refine ⟨by simp [hrest.1], ?_⟩
    intro k hk
    cases k with
    | zero =>
      simp only [List.getD_cons_zero, Nat.mul_zero, Nat.add_zero]
      rw [hq]
    | succ k =>
      simp only [List.getD_cons_succ]
      rw [hrest.2 k (by simpa using hk)]
      have e1 : i0 + 1 + k = i0 + (k + 1) := by omega
      have e2 : g.pos + 8 + 8 * k = g.pos + 8 * (k + 1) := by omega
      simp only [e1, e2]

/-- The general-purpose bank after `get`: the bank the register loop leaves,
with quad 0 of `rsp` overwritten. -/
theorem get_gp (sg : StateGen) (rf_size : Nat) (is_fixed : Nat → Bool) (cs : CpuState)
    (g : Rng) :
    (sg.get rf_size is_fixed cs g).1.gp =
      (CpuState.set_gp_quad { cs with gp := (gp_loop sg 0 cs.gp g).1 } rsp 0x700000000).gp :=
  rfl

/-- Quad 0 of a register other than `rsp` after `get` is what the byte loop
leaves for it. -/
theorem get_gp_quad (sg : StateGen) (rf_size : Nat) (is_fixed : Nat → Bool) (cs : CpuState)
    (g : Rng) (hs : cs.gp_ok) (i : Nat) (hi : i < 16) (hne : i ≠ rsp) :
    ∃ q q', q' < 2 ^ 64 ∧ (sg.get rf_size is_fixed cs g).1.gp_quad i = q' ∧
      gp_byte_loop 8 0 [q] (sg.get_max_value i) (sg.get_bitmask i)
        { g with pos := g.pos + 8 * i } = ([q'], { g with pos := g.pos + 8 * i + 8 }) ∧
      ∀ t u, t < 8 → u < 8 → q'.testBit (8 * t + u) =
        (drawn_byte (sg.get_max_value i) (sg.get_bitmask i)
          { g with pos := g.pos + 8 * i } t).testBit u := by
  obtain ⟨hlen, hall⟩ := hs
  have hspec := gp_loop_spec sg cs.gp 0 g (fun r hr => (hall r hr).1)
  have hk : i < cs.gp.length := by omega
  have hmem : cs.gp[i] ∈ cs.gp := List.getElem_mem hk
  obtain ⟨q, hq⟩ : ∃ q, cs.gp.getD i [] = [q] := by
    have h1 := (hall _ hmem).1
    have h2 : cs.gp.getD i [] = cs.gp[i] := by
      simp [List.getD_eq_getElem?_getD, hk]
    rw [h2]
    match cs.gp[i], h1 with
    | [q], _ => exact ⟨q, rfl⟩
  obtain ⟨q', hloop, hlt, hbits⟩ := gp_byte_loop_full q (sg.get_max_value i) (sg.get_bitmask i)
    { g with pos := g.pos + 8 * i }
  refine ⟨q, q', hlt, ?_, hloop, hbits⟩
  have hget := hspec.2 i hk
  rw [Nat.zero_add, hq, hloop] at hget
  unfold CpuState.gp_quad
  rw [get_gp, gp_set_other _ _ _ i hne]
  simp only [hget]
  rfl

theorem default_byte (t : Nat) (ht : t < 8) : ((2 ^ 64 - 1) >>> (8 * t)) &&& 0xff = 255 := by
  interval_cases t <;> decide

/-- C19, as stated, fails for the stack pointer: after `set_max_value(rsp,
0)` the state generated holds 0x700000000 in `rsp`, above the maximum 0. -/
theorem C19_rsp_above_maximum :
    rspCappedGen.get_max_value rsp = 0 ∧
    (rspCappedGen.get 64 bitOneFixed zeroState onesRng).1.gp_quad rsp = 0x700000000 ∧
    ¬ (rspCappedGen.get 64 bitOneFixed zeroState onesRng).1.gp_quad rsp
        ≤ rspCappedGen.get_max_value rsp := by
  decide

/-- C19, amended: for every generator outcome and every configured maximum
and bitmask, each general-purpose register other than the stack pointer holds
a value that is at most its maximum and has no bit outside its bitmask; the
stack pointer holds 0x700000000 whatever is configured for it; and a register
other than the stack pointer with no maximum and no bitmask configured can
take every 64-bit value. -/
theorem C19_register_bounds (sg : StateGen) (rf_size : Nat) (is_fixed : Nat → Bool)
    (cs : CpuState) (g : Rng) (hs : cs.gp_ok) (i : Nat) (hi : i < 16) (hne : i ≠ rsp) :
    (sg.get rf_size is_fixed cs g).1.gp_quad i ≤ sg.get_max_value i ∧
    (sg.get rf_size is_fixed cs g).1.gp_quad i &&& not64 (sg.get_bitmask i) = 0 ∧
    (sg.get rf_size is_fixed cs g).1.gp_quad rsp = 0x700000000 ∧
    (sg.max_register_values_.lookup i = none → sg.bitmask_values_.lookup i = none →
      ∀ v, v < 2 ^ 64 → ∃ g', (sg.get rf_size is_fixed cs g').1.gp_quad i = v) := by
  refine ⟨?_, ?_, ?_, ?_⟩
  · obtain ⟨q, q', hlt, hq, _, hbits⟩ := get_gp_quad sg rf_size is_fixed cs g hs i hi hne
    rw [hq]
    refine le_of_bytes_le q' _ hlt ?_
    intro t ht
    rw [byte_eq_of_bits q' _ t
      (lt_of_le_of_lt (drawn_byte_le _ _ _ t) (Nat.mod_lt _ (by norm_num)))
      (fun u hu => hbits t u ht hu)]
    exact drawn_byte_le _ _ _ t
  · obtain ⟨q, q', hlt, hq, _, hbits⟩ := get_gp_quad sg rf_size is_fixed cs g hs i hi hne
    rw [hq]
    apply Nat.eq_of_testBit_eq
    intro k
    rw [Nat.testBit_and, testBit_not64, Nat.zero_testBit]
    by_cases hk : k < 64
    · have hdecomp : k = 8 * (k / 8) + k % 8 := by omega
      cases hb : q'.testBit k with
      | false => simp
      | true =>
        rw [hdecomp, hbits (k / 8) (k % 8) (by omega) (by omega)] at hb
        have := drawn_byte_bits _ _ _ _ _ hb
        rw [← hdecomp] at this
        simp [this]
    · have : q'.testBit k = false :=
        Nat.testBit_lt_two_pow (lt_of_lt_of_le hlt (Nat.pow_le_pow_right (by norm_num) (by omega)))
      simp [this]
  · obtain ⟨hlen, hall⟩ := hs
    have hspec := gp_loop_spec sg cs.gp 0 g (fun r hr => (hall r hr).1)
    have h1 : rsp < (gp_loop sg 0 cs.gp g).1.length := by
      rw [hspec.1, hlen]; decide
    have h2 : 0 < ((gp_loop sg 0 cs.gp g).1.getD rsp []).length := by
      have hk : rsp < cs.gp.length := by rw [hlen]; decide
      have hmem : cs.gp[rsp] ∈ cs.gp := List.getElem_mem hk
      obtain ⟨q, hq⟩ : ∃ q, cs.gp.getD rsp [] = [q] := by
        have h1 := (hall _ hmem).1
        have h2 : cs.gp.getD rsp [] = cs.gp[rsp] := by
          simp [List.getD_eq_getElem?_getD, hk]
        rw [h2]
        match cs.gp[rsp], h1 with
        | [q], _ => exact ⟨q, rfl⟩
      obtain ⟨q', hloop, _, _⟩ := gp_byte_loop_full q (sg.get_max_value rsp)
        (sg.get_bitmask rsp) { g with pos := g.pos + 8 * rsp }
      rw [hspec.2 rsp hk, Nat.zero_add, hq, hloop]
      simp
    unfold CpuState.gp_quad
    rw [get_gp]
    exact gp_quad_set_same { cs with gp := (gp_loop sg 0 cs.gp g).1 } rsp 0x700000000 h1 h2
  · intro hmax hmask v hv
    refine ⟨{ draws := fun n => (v >>> (8 * (n % 8))) % 256, pos := 0 }, ?_⟩
    obtain ⟨q, q', hlt, hq, _, hbits⟩ := get_gp_quad sg rf_size is_fixed cs
      { draws := fun n => (v >>> (8 * (n % 8))) % 256, pos := 0 } hs i hi hne
    rw [hq]
    have hM : sg.get_max_value i = 2 ^ 64 - 1 := by simp [StateGen.get_max_value, hmax]
    have hB : sg.get_bitmask i = 2 ^ 64 - 1 := by simp [StateGen.get_bitmask, hmask]
    apply Nat.eq_of_testBit_eq
    intro k
    by_cases hk : k < 64
    · have hdecomp : k = 8 * (k / 8) + k % 8 := by omega
      have ht : k / 8 < 8 := by omega
      have hu : k % 8 < 8 := by omega
      rw [hdecomp, hbits (k / 8) (k % 8) ht hu]
      simp only [drawn_byte, hM, hB, default_byte _ ht]
      have hmod : (0 + 8 * i + k / 8) % 8 = k / 8 := by omega
      rw [hmod]
      have h255 : (255 : Nat) = 0xff := rfl
      rw [h255, and_255, Nat.mod_mod_of_dvd _ (by norm_num : 256 ∣ 255 + 1)]
      norm_num
      rw [show (256 : Nat) = 2 ^ 8 by norm_num, Nat.testBit_mod_two_pow,
        Nat.testBit_shiftRight]
      simp [hu]
    · have h1 : q'.testBit k = false :=
        Nat.testBit_lt_two_pow (lt_of_lt_of_le hlt (Nat.pow_le_pow_right (by norm_num) (by omega)))
      have h2 : v.testBit k = false :=
        Nat.testBit_lt_two_pow (lt_of_lt_of_le hv (Nat.pow_le_pow_right (by norm_num) (by omega)))
      rw [h1, h2]

/-- C19 amended, at a concrete input: with a maximum of 0x1234 and a bitmask
of 0xff0f configured for `rax`, the value generated for `rax` from the all-ones
generator is within both. -/
theorem C19_register_bounds_witness :
    zeroState.gp_ok ∧ 0 < 16 ∧ 0 ≠ rsp ∧
    (raxCappedGen.get 64 bitOneFixed zeroState onesRng).1.gp_quad 0
      ≤ raxCappedGen.get_max_value 0 ∧
    (raxCappedGen.get 64 bitOneFixed zeroState onesRng).1.gp_quad 0
      &&& not64 (raxCappedGen.get_bitmask 0) = 0 :=
  ⟨by decide, by decide, by decide,
    (C19_register_bounds raxCappedGen 64 bitOneFixed zeroState onesRng (by decide) 0
      (by decide) (by decide)).1,
    (C19_register_bounds raxCappedGen 64 bitOneFixed zeroState onesRng (by decide) 0
      (by decide) (by decide)).2.1⟩

/-! ## C20: the memory budget -/

theorem size_resize (m : Memory) (base size : Nat) : (m.resize base size).size = size := by
  simp [Memory.resize, Memory.size]

theorem randomize_loop_size :
    ∀ (n i : Nat) (mem : Memory) (g : Rng), (randomize_loop n i mem g).1.size = mem.size := by
  intro n
  induction n with
  | zero => intro i mem g; rfl
  | succ n ih =>
    intro i mem g
    rw [randomize_loop]
    split
    · rw [ih]
      simp [Memory.write, Memory.set_valid, Memory.size]
    · rw [ih]

theorem randomize_mem_size (mem : Memory) (g : Rng) :
    (StateGen.randomize_mem mem g).1.size = mem.size :=
  randomize_loop_size _ _ _ _

theorem resize_within_le (sg : StateGen) (mem mem' : Memory) (addr size : Nat) (g g' : Rng)
    (h : sg.resize_within mem addr size g = some (true, mem', g')) :
    mem'.size ≤ sg.max_memory_ := by
  unfold StateGen.resize_within at h
  split at h
  · exact Option.noConfusion h
  · simp only at h
    split at h
    · simp at h
    · rename_i hle
      simp only [Option.some.injEq, Prod.mk.injEq, true_and] at h
      rw [← h.1, randomize_mem_size, size_resize]
      omega

theorem resize_below_le (sg : StateGen) (mem : Memory) (addr size : Nat) (g : Rng)
    (h : (sg.resize_below mem addr size g).1 = true) :
    (sg.resize_below mem addr size g).2.1.size ≤ sg.max_memory_ := by
  unfold StateGen.resize_below at h ⊢
  simp only at h ⊢
  generalize (if sub64 (add64 addr size) mem.size > mem.lower_bound then size % 2 ^ 64
      else sub64 mem.upper_bound addr) = ns at h ⊢
  by_cases hgt : ns > sg.max_memory_
  · rw [if_pos hgt] at h
    exact Bool.noConfusion h
  · rw [if_neg hgt]
    simp only
    rw [randomize_mem_size, size_resize]
    omega

theorem resize_above_le (sg : StateGen) (mem : Memory) (addr size : Nat) (g : Rng)
    (h : (sg.resize_above mem addr size g).1 = true) :
    (sg.resize_above mem addr size g).2.1.size ≤ sg.max_memory_ := by
  unfold StateGen.resize_above at h ⊢
  simp only at h ⊢
  by_cases hgt : add64 mem.size (sub64 (sub64 (add64 addr size) mem.lower_bound) mem.size)
      > sg.max_memory_
  · rw [if_pos hgt] at h
    exact Bool.noConfusion h
  · rw [if_neg hgt]
    simp only
    rw [randomize_mem_size, size_resize]
    omega

/-- A repair of a region that holds at least one byte stays within the
memory budget. -/
theorem resize_mem_nonempty_le (sg : StateGen) (mem mem' : Memory) (addr size : Nat)
    (g g' : Rng) (hne : mem.size ≠ 0)
    (h : sg.resize_mem mem addr size g = some (true, mem', g')) :
    mem'.size ≤ sg.max_memory_ := by
  have htail : ∀ (m : Memory) (r : Rng),
      (if addr < m.lower_bound ∧ (sg.resize_below m addr size r).1 = true then
        some (sg.resize_below m addr size r)
      else if m.upper_bound ≠ 0 ∧ addr ≥ m.upper_bound ∧
          (sg.resize_above m addr size r).1 = true then
        some (sg.resize_above m addr size r)
      else some (false, m, r)) = some (true, mem', g') → mem'.size ≤ sg.max_memory_ := by
    intro m r hres
    split at hres
    · rename_i hb
      have := resize_below_le sg m addr size r hb.2
      rw [Option.some.inj hres] at this
      exact this
    · split at hres
      · rename_i ha
        have := resize_above_le sg m addr size r ha.2.2
        rw [Option.some.inj hres] at this
        exact this
      · simp at hres
  unfold StateGen.resize_mem at h
  rw [if_neg hne] at h
  split at h
  · split at h
    · exact Option.noConfusion h
    · rename_i m r hw
      rw [Option.some.inj h] at hw
      exact resize_within_le sg mem mem' addr size g g' hw
    · exact htail _ _ h
  · exact htail _ _ h

/-- C20 at the failing input: with a budget of 4 bytes the repair of the
empty heap for an access of 8 bytes at 0x1000 returns true and leaves a
region of 8 bytes. -/
theorem C20_empty_region_over_budget :
    smallMemGen.max_memory_ = 4 ∧ emptyHeap.size = 0 ∧
    (smallMemGen.resize_mem emptyHeap 0x1000 8 onesRng).map (fun x => (x.1, x.2.1.size))
      = some (true, 8) ∧
    ¬ 8 ≤ smallMemGen.max_memory_ := by
  decide

/-! ## C15: the removal step of the Houdini loop -/

theorem remove_at_length (failed : Nat → List Nat) (st : List (List Invariant) × Bool)
    (i : Nat) : (remove_at failed st i).1.length = st.1.length := by
  simp [remove_at]

theorem remove_at_other (failed : Nat → List Nat) (st : List (List Invariant) × Bool)
    (i k : Nat) (h : k ≠ i) : (remove_at failed st i).1.getD k [] = st.1.getD k [] := by
  simp [remove_at, List.getD_eq_getElem?_getD, List.getElem?_set, Ne.symm h]

theorem foldl_remove_at (failed : Nat → List Nat) (l : List Nat) :
    ∀ (st : List (List Invariant) × Bool),
      (l.foldl (remove_at failed) st).1.length = st.1.length ∧
      ∀ k, k ∉ l → (l.foldl (remove_at failed) st).1.getD k [] = st.1.getD k [] := by
  induction l with
  | nil => intro st; exact ⟨rfl, fun _ _ => rfl⟩
  | cons i rest ih =>
    intro st
    rw [List.foldl_cons]
    obtain ⟨h1, h2⟩ := ih (remove_at failed st i)
    refine ⟨by rw [h1, remove_at_length], ?_⟩
    intro k hk
    rw [h2 k (fun h => hk (List.mem_cons_of_mem _ h)),
      remove_at_other failed st i k (fun h => hk (h ▸ List.mem_cons_self _ _))]

theorem remove_at_nothing (failed : Nat → List Nat) (st : List (List Invariant) × Bool)
    (i : Nat) (h : failed i = []) : remove_at failed st i = st := by
  unfold remove_at
  simp only [h, List.insertionSort, List.reverse_nil, remove_loop]
  have : st.1.set i (st.1.getD i []) = st.1 := by
    apply List.ext_getElem
    · simp
    · intro n h1 h2
      rw [List.getElem_set]
      split
      · rename_i hn
        subst hn
        simp [List.getD_eq_getElem?_getD, List.getElem?_eq_getElem h2]
      · rfl
  rw [this]

theorem foldl_remove_at_nothing (failed : Nat → List Nat) (l : List Nat)
    (h : ∀ i ∈ l, failed i = []) (st : List (List Invariant) × Bool) :
    l.foldl (remove_at failed) st = st := by
  induction l generalizing st with
  | nil => rfl
  | cons i rest ih =>
    rw [List.foldl_cons, remove_at_nothing failed st i (h i (List.mem_cons_self _ _))]
    exact ih (fun k hk => h k (List.mem_cons_of_mem _ hk)) st

theorem sub64_length (n : Nat) (h0 : n ≠ 0) (hlt : n < 2 ^ 64) : sub64 n 1 = n - 1 := by
  unfold sub64
  norm_num at hlt ⊢
  omega

/-- C15: the removal step leaves the first and the last entry of the
invariants vector as they were, whatever the map of failed invariants lists
for them; when no interior cutpoint has a failure it changes nothing and
reports no change, and the Houdini iteration then ends with the `break` that
moves on to the next cutpoint choice. -/
theorem C15_removal_keeps_ends (invariants : List (List Invariant))
    (failed_invariants : Nat → List Nat)
    (h0 : invariants.length ≠ 0) (hlt : invariants.length < 2 ^ 64) :
    (removal_step invariants failed_invariants).1.length = invariants.length ∧
    (removal_step invariants failed_invariants).1.getD 0 [] = invariants.getD 0 [] ∧
    (removal_step invariants failed_invariants).1.getD (invariants.length - 1) []
      = invariants.getD (invariants.length - 1) [] ∧
    ((∀ i, 0 < i → i + 1 < invariants.length → failed_invariants i = []) →
      removal_step invariants failed_invariants = (invariants, false)) ∧
    (∀ (env : DdecEnv) (queries : List Query),
      (check_proof env invariants ⟨fun _ => [], queries⟩).1 = false →
      (∀ i, 0 < i → i + 1 < invariants.length →
        (check_proof env invariants ⟨fun _ => [], queries⟩).2.1.failed_invariants i = []) →
      houdini_iteration env invariants queries =
        HoudiniStep.stuck (check_proof env invariants ⟨fun _ => [], queries⟩).2.1.queries) := by
  have hmem : ∀ (i : Nat), i ∈ List.range' 1 (sub64 invariants.length 1 - 1) →
      0 < i ∧ i + 1 < invariants.length := by
    intro i hi
    rw [sub64_length _ h0 hlt, List.mem_range'_1] at hi
    omega
  have hfold := foldl_remove_at failed_invariants
    (List.range' 1 (sub64 invariants.length 1 - 1)) (invariants, false)
  have hnothing : ∀ failed : Nat → List Nat,
      (∀ i, 0 < i → i + 1 < invariants.length → failed i = []) →
      removal_step invariants failed = (invariants, false) := by
    intro failed h
    unfold removal_step
    exact foldl_remove_at_nothing failed _ (fun i hi => h i (hmem i hi).1 (hmem i hi).2) _
  refine ⟨hfold.1, ?_, ?_, hnothing failed_invariants, ?_⟩
  · exact hfold.2 0 (fun h => by have := (hmem 0 h).1; omega)
  · exact hfold.2 _ (fun h => by have := (hmem _ h).2; omega)
  · intro env queries hfalse hinner
    unfold houdini_iteration
    simp only [hfalse, Bool.false_eq_true, if_false, hnothing _ hinner, Bool.not_false, if_true]

/-- C15 at a concrete input: three cutpoints, failures listed for the first
and the last only. -/
theorem C15_removal_keeps_ends_witness :
    threeInvariants.length ≠ 0 ∧ threeInvariants.length < 2 ^ 64 ∧
    (removal_step threeInvariants endsFailed).1.getD 0 [] = threeInvariants.getD 0 [] ∧
    (removal_step threeInvariants endsFailed).1.getD (threeInvariants.length - 1) []
      = threeInvariants.getD (threeInvariants.length - 1) [] ∧
    removal_step threeInvariants endsFailed = (threeInvariants, false) :=
  ⟨by decide, by decide,
    (C15_removal_keeps_ends threeInvariants endsFailed (by decide) (by decide)).2.1,
    (C15_removal_keeps_ends threeInvariants endsFailed (by decide) (by decide)).2.2.1,
    (C15_removal_keeps_ends threeInvariants endsFailed (by decide) (by decide)).2.2.2.1
      (by
        intro i h1 h2
        have : i = 1 := by
          have : threeInvariants.length = 3 := rfl
          omega
        subst this
        rfl)⟩

/-! ## C17 and C18: what `check_proof` leaves in `failed_invariants` -/

theorem check_conjuncts_false (env : DdecEnv) (j : Nat) (p q : List Nat)
    (copy : List Invariant) :
    ∀ (l : List Invariant) (m : Nat) (st : ProofState × Bool), st.2 = false →
      (check_conjuncts env j p q copy m l st).2 = false := by
  intro l
  induction l with
  | nil => intro m st h; exact h
  | cons inv rest ih =>
    intro m st h
    rw [check_conjuncts]
    simp only
    split
    · exact ih _ _ rfl
    · exact ih _ _ h

theorem check_conjuncts_failed (env : DdecEnv) (j : Nat) (p q : List Nat)
    (copy : List Invariant) :
    ∀ (l : List Invariant) (m : Nat) (st : ProofState × Bool),
      (check_conjuncts env j p q copy m l st).2 = true →
      (check_conjuncts env j p q copy m l st).1.failed_invariants = st.1.failed_invariants := by
  intro l
  induction l with
  | nil => intro m st _; rfl
  | cons inv rest ih =>
    intro m st h
    rw [check_conjuncts] at h ⊢
    simp only at h ⊢
    split
    · rename_i hc
      rw [if_pos hc, check_conjuncts_false env j p q copy rest _ _ rfl] at h
      exact Bool.noConfusion h
    · rename_i hc
      rw [if_neg hc] at h
      rw [ih _ _ h]

theorem check_rewrite_paths_false (env : DdecEnv) (invariants : List (List Invariant))
    (i j : Nat) (p : List Nat) (tj : Invariant) :
    ∀ (l : List (List Nat)) (st : ProofState × Bool), st.2 = false →
      (check_rewrite_paths env invariants i j p tj l st).2 = false := by
  intro l
  induction l with
  | nil => intro st h; exact h
  | cons q rest ih =>
    intro st h
    rw [check_rewrite_paths]
    exact ih _ (check_conjuncts_false env j _ _ _ _ _ _ h)

theorem check_rewrite_paths_failed (env : DdecEnv) (invariants : List (List Invariant))
    (i j : Nat) (p : List Nat) (tj : Invariant) :
    ∀ (l : List (List Nat)) (st : ProofState × Bool),
      (check_rewrite_paths env invariants i j p tj l st).2 = true →
      (check_rewrite_paths env invariants i j p tj l st).1.failed_invariants
        = st.1.failed_invariants := by
  intro l
  induction l with
  | nil => intro st _; rfl
  | cons q rest ih =>
    intro st h
    rw [check_rewrite_paths] at h ⊢
    rw [ih _ h]
    apply check_conjuncts_failed
    cases hc : (check_conjuncts env j p
      (erase_start env.rewrite (env.rewrite_cuts.getD i 0) q)
      (invariants.getD i [] ++ [tj] ++ [env.rewrite_jump_inv q]) 0 (invariants.getD j []) st).2
    · rw [check_rewrite_paths_false env invariants i j p tj rest _ hc] at h
      exact Bool.noConfusion h
    · rfl

theorem check_target_paths_false (env : DdecEnv) (invariants : List (List Invariant))
    (i j : Nat) (rw_paths : List (List Nat)) :
    ∀ (l : List (List Nat)) (st : ProofState × Bool), st.2 = false →
      (check_target_paths env invariants i j rw_paths l st).2 = false := by
  intro l
  induction l with
  | nil => intro st h; exact h
  | cons p rest ih =>
    intro st h
    rw [check_target_paths]
    exact ih _ (check_rewrite_paths_false env invariants i j _ _ _ _ h)

theorem check_target_paths_failed (env : DdecEnv) (invariants : List (List Invariant))
    (i j : Nat) (rw_paths : List (List Nat)) :
    ∀ (l : List (List Nat)) (st : ProofState × Bool),
      (check_target_paths env invariants i j rw_paths l st).2 = true →
      (check_target_paths env invariants i j rw_paths l st).1.failed_invariants
        = st.1.failed_invariants := by
  intro l
  induction l with
  | nil => intro st _; rfl
  | cons p rest ih =>
    intro st h
    rw [check_target_paths] at h ⊢
    rw [ih _ h]
    apply check_rewrite_paths_failed
    cases hc : (check_rewrite_paths env invariants i j
      (erase_start env.target (env.target_cuts.getD i 0) p) (env.target_jump_inv p)
      rw_paths st).2
    · rw [check_target_paths_false env invariants i j rw_paths rest _ hc] at h
      exact Bool.noConfusion h
    · rfl

theorem diverge_rewrite_paths_failed (env : DdecEnv) (invariants : List (List Invariant))
    (i : Nat) (p : List Nat) (tj : Invariant) :
    ∀ (l : List (List Nat)) (st : ProofState),
      (diverge_rewrite_paths env invariants i p tj l st).1.failed_invariants
        = st.failed_invariants := by
  intro l
  induction l with
  | nil => intro st; rfl
  | cons q rest ih =>
    intro st
    rw [diverge_rewrite_paths]
    split
    · rfl
    · rw [ih]

theorem diverge_target_paths_failed (env : DdecEnv) (invariants : List (List Invariant))
    (i : Nat) (rw_paths : List (List Nat)) :
    ∀ (l : List (List Nat)) (st : ProofState),
      (diverge_target_paths env invariants i rw_paths l st).1.failed_invariants
        = st.failed_invariants := by
  intro l
  induction l with
  | nil => intro st; rfl
  | cons p rest ih =>
    intro st
    rw [diverge_target_paths]
    have h := diverge_rewrite_paths_failed env invariants i
      (erase_start env.target (env.target_cuts.getD i 0) p) (env.target_jump_inv p) rw_paths st
    split
    · rename_i st1 heq
      rw [heq] at h
      exact h
    · rename_i st1 heq
      rw [heq] at h
      rw [ih, h]

theorem diverge_cutpoints_failed (env : DdecEnv) (invariants : List (List Invariant))
    (i j : Nat) (paths : List (List Nat)) :
    ∀ (l : List Nat) (st : ProofState),
      (diverge_cutpoints env invariants i j paths l st).1.failed_invariants
        = st.failed_invariants := by
  intro l
  induction l with
  | nil => intro st; rfl
  | cons k rest ih =>
    intro st
    rw [diverge_cutpoints]
    split
    · exact ih st
    · simp only
      have h := diverge_target_paths_failed env invariants i
        (enumerate_paths env.rewrite 1 (env.rewrite_cuts.getD i 0) (env.rewrite_cuts.getD k 0)
          (some env.rewrite_cuts)) paths st
      split
      · rename_i st1 heq
        rw [heq] at h
        exact h
      · rename_i st1 heq
        rw [heq] at h
        rw [ih, h]

/-- The body of the double loop leaves `failed_invariants` as it found it
unless it returns through line 388. -/
theorem check_pair_failed (env : DdecEnv) (invariants : List (List Invariant)) (i j : Nat)
    (st : ProofState)
    (h : (check_pair env invariants i j st).2 ≠ some ReturnSite.invariant_failed) :
    (check_pair env invariants i j st).1.failed_invariants = st.failed_invariants := by
  unfold check_pair at h ⊢
  simp only at h ⊢
  split
  · rfl
  · split
    · rfl
    · rename_i h1 h2
      rw [if_neg h1, if_neg h2] at h
      split
      · rename_i h3
        rw [if_pos h3] at h
        exact absurd rfl h
      · rename_i h3
        have h4 : (check_target_paths env invariants i j
            (enumerate_paths env.rewrite 1 (env.rewrite_cuts.getD i 0)
              (env.rewrite_cuts.getD j 0) (some env.rewrite_cuts))
            (enumerate_paths env.target 1 (env.target_cuts.getD i 0)
              (env.target_cuts.getD j 0) (some env.target_cuts)) (st, true)).2 = true := by
          simpa using h3
        have h5 := check_target_paths_failed env invariants i j _ _ _ h4
        split
        · simp only
          rw [diverge_cutpoints_failed, h5]
        · simp only
          rw [diverge_cutpoints_failed, h5]

/-- The body of the double loop goes on to the next pair only if the path
counts of the pair agree. -/
theorem check_pair_none (env : DdecEnv) (invariants : List (List Invariant)) (i j : Nat)
    (st : ProofState) (h : (check_pair env invariants i j st).2 = none) :
    finite_paths env i j := by
  unfold check_pair at h
  simp only at h
  unfold finite_paths
  split at h
  · exact Option.noConfusion h
  · split at h
    · exact Option.noConfusion h
    · rename_i h1 h2
      exact ⟨not_not.mp h1, not_not.mp h2⟩

/-- At a pair whose path counts differ the body returns through line 334 or
line 341 and leaves the state as it found it. -/
theorem check_pair_differ (env : DdecEnv) (invariants : List (List Invariant)) (i j : Nat)
    (st : ProofState) (h : ¬ finite_paths env i j) :
    check_pair env invariants i j st = (st, some ReturnSite.target_paths_differ) ∨
    check_pair env invariants i j st = (st, some ReturnSite.rewrite_paths_differ) := by
  unfold check_pair
  simp only
  split
  · exact Or.inl rfl
  · split
    · exact Or.inr rfl
    · rename_i h1 h2
      exact absurd ⟨not_not.mp h1, not_not.mp h2⟩ h

theorem loop_until_failed {α : Type} (body : ProofState → α → ProofState × Option ReturnSite)
    (hbody : ∀ st a, (body st a).2 ≠ some ReturnSite.invariant_failed →
      (body st a).1.failed_invariants = st.failed_invariants) :
    ∀ (l : List α) (st : ProofState),
      (loop_until body l st).2 ≠ some ReturnSite.invariant_failed →
      (loop_until body l st).1.failed_invariants = st.failed_invariants := by
  intro l
  induction l with
  | nil => intro st _; rfl
  | cons a rest ih =>
    intro st h
    rw [loop_until] at h ⊢
    have hb := hbody st a
    split
    · rename_i st1 site heq
      rw [heq] at hb h
      exact hb h
    · rename_i st1 heq
      rw [heq] at hb h
      simp only at h hb
      rw [ih st1 h, hb (by simp)]

theorem loop_until_none {α : Type} (body : ProofState → α → ProofState × Option ReturnSite) :
    ∀ (l : List α) (st : ProofState), (loop_until body l st).2 = none →
      ∀ a ∈ l, ∃ s, (body s a).2 = none := by
  intro l
  induction l with
  | nil => intro st _ a ha; simp at ha
  | cons x rest ih =>
    intro st h a ha
    rw [loop_until] at h
    split at h
    · exact Option.noConfusion h
    · rename_i st1 heq
      rcases List.mem_cons.mp ha with rfl | hmem
      · exact ⟨st, by rw [heq]⟩
      · exact ih st1 h a hmem

/-- The state `check_proof` leaves holds the `failed_invariants` it was
given unless the return is the one of line 388. -/
theorem check_proof_failed (env : DdecEnv) (invariants : List (List Invariant))
    (st : ProofState)
    (h : (check_proof env invariants st).2.2 ≠ ReturnSite.invariant_failed) :
    (check_proof env invariants st).2.1.failed_invariants = st.failed_invariants := by
  have hinner : ∀ (i : Nat) (s : ProofState),
      (loop_until (fun st j => check_pair env invariants i j st)
        (List.range env.rewrite_cuts.length) s).2 ≠ some ReturnSite.invariant_failed →
      (loop_until (fun st j => check_pair env invariants i j st)
        (List.range env.rewrite_cuts.length) s).1.failed_invariants = s.failed_invariants :=
    fun i s => loop_until_failed _ (fun st a => check_pair_failed env invariants i a st) _ s
  have houter := loop_until_failed
    (fun st i => loop_until (fun st j => check_pair env invariants i j st)
      (List.range env.rewrite_cuts.length) st)
    (fun s i => hinner i s) (List.range env.target_cuts.length) st
  unfold check_proof at h ⊢
  split
  · rename_i st1 site heq
    rw [heq] at h houter
    simp only at h houter
    exact houter (fun hs => h (Option.some.inj hs))
  · rename_i st1 heq
    rw [heq] at houter
    exact houter (by simp)

theorem check_proof_true_site (env : DdecEnv) (invariants : List (List Invariant))
    (st : ProofState) (h : (check_proof env invariants st).1 = true) :
    (check_proof env invariants st).2.2 = ReturnSite.proved := by
  unfold check_proof at h ⊢
  split
  · rename_i st1 site heq
    rw [heq] at h
    exact Bool.noConfusion h
  · rfl

theorem check_proof_true_finite (env : DdecEnv) (invariants : List (List Invariant))
    (st : ProofState) (h : (check_proof env invariants st).1 = true) (i j : Nat)
    (hi : i < env.target_cuts.length) (hj : j < env.rewrite_cuts.length) :
    finite_paths env i j := by
  unfold check_proof at h
  split at h
  · exact Bool.noConfusion h
  · rename_i st1 heq
    have h1 := loop_until_none _ _ st (by rw [heq]) i (List.mem_range.mpr hi)
    obtain ⟨s, hs⟩ := h1
    obtain ⟨s2, hs2⟩ := loop_until_none _ _ s hs j (List.mem_range.mpr hj)
    exact check_pair_none env invariants i j s2 hs2

/-- C17: `check_proof` returns true only if the path counts at bound 1 and
at bound 2 agree for every pair of cutpoints, in the target and in the
rewrite; at a pair where they differ the body of the loop returns false at
once, with the solver queries and the failed invariants as it found them;
and when `check_proof` ends by one of these two returns it returns false and
the failed invariants are those it was given. -/
theorem C17_check_proof_finiteness (env : DdecEnv) (invariants : List (List Invariant))
    (st : ProofState) :
    ((check_proof env invariants st).1 = true →
      ∀ i j, i < env.target_cuts.length → j < env.rewrite_cuts.length →
        finite_paths env i j) ∧
    (∀ (i j : Nat) (s : ProofState), ¬ finite_paths env i j →
      (check_pair env invariants i j s).1 = s ∧
      ((check_pair env invariants i j s).2 = some ReturnSite.target_paths_differ ∨
        (check_pair env invariants i j s).2 = some ReturnSite.rewrite_paths_differ)) ∧
    ((check_proof env invariants st).2.2 = ReturnSite.target_paths_differ ∨
        (check_proof env invariants st).2.2 = ReturnSite.rewrite_paths_differ →
      (check_proof env invariants st).1 = false ∧
      (check_proof env invariants st).2.1.failed_invariants = st.failed_invariants) := by
  refine ⟨fun h i j hi hj => check_proof_true_finite env invariants st h i j hi hj, ?_, ?_⟩
  · intro i j s h
    rcases check_pair_differ env invariants i j s h with h1 | h1
    · rw [h1]
      exact ⟨rfl, Or.inl rfl⟩
    · rw [h1]
      exact ⟨rfl, Or.inr rfl⟩
  · intro h
    constructor
    · cases hr : (check_proof env invariants st).1
      · rfl
      · have := check_proof_true_site env invariants st hr
        rw [this] at h
        rcases h with h | h <;> exact ReturnSite.noConfusion h
    · apply check_proof_failed
      intro hs
      rw [hs] at h
      rcases h with h | h <;> exact ReturnSite.noConfusion h

/-- C17 at a concrete input: block 2 of the graph loops on itself between
the cutpoints 0 and 1, the counts at bound 1 and 2 differ for that pair, and
`check_proof` returns false by line 334 with no query issued and no failed
invariant recorded. -/
theorem C17_check_proof_finiteness_witness :
    ¬ finite_paths innerLoopEnv 0 1 ∧
    (check_proof innerLoopEnv twoInvariants emptyProofState).2.2
      = ReturnSite.target_paths_differ ∧
    (check_proof innerLoopEnv twoInvariants emptyProofState).2.1.queries = [] ∧
    (check_proof innerLoopEnv twoInvariants emptyProofState).1 = false ∧
    (check_proof innerLoopEnv twoInvariants emptyProofState).2.1.failed_invariants
      = emptyProofState.failed_invariants :=
  ⟨by unfold finite_paths; decide, by decide, by decide,
    (C17_check_proof_finiteness innerLoopEnv twoInvariants emptyProofState).2.2
      (Or.inl (by decide))⟩

/-- C18: when `check_proof`, called by the Houdini loop with an empty map of
failed invariants, returns by the divergence check of line 420, it returns
false and the map is still empty at every cutpoint, so the removal step
changes no conjunct, reports no change, and the iteration ends with the
`break` that abandons the cutpoint choice. -/
theorem C18_divergence_not_recoverable (env : DdecEnv) (invariants : List (List Invariant))
    (queries : List Query)
    (h : (check_proof env invariants ⟨fun _ => [], queries⟩).2.2
      = ReturnSite.divergence_failed) :
    (check_proof env invariants ⟨fun _ => [], queries⟩).1 = false ∧
    (∀ i, (check_proof env invariants ⟨fun _ => [], queries⟩).2.1.failed_invariants i = []) ∧
    removal_step invariants
      (check_proof env invariants ⟨fun _ => [], queries⟩).2.1.failed_invariants
        = (invariants, false) ∧
    houdini_iteration env invariants queries =
      HoudiniStep.stuck (check_proof env invariants ⟨fun _ => [], queries⟩).2.1.queries := by
  have hfalse : (check_proof env invariants ⟨fun _ => [], queries⟩).1 = false := by
    cases hr : (check_proof env invariants ⟨fun _ => [], queries⟩).1
    · rfl
    · have := check_proof_true_site env invariants _ hr
      rw [this] at h
      exact ReturnSite.noConfusion h
  have hfailed : ∀ i,
      (check_proof env invariants ⟨fun _ => [], queries⟩).2.1.failed_invariants i = [] := by
    intro i
    rw [check_proof_failed env invariants _ (by rw [h]; decide)]
  have hstep : removal_step invariants
      (check_proof env invariants ⟨fun _ => [], queries⟩).2.1.failed_invariants
        = (invariants, false) := by
    unfold removal_step
    exact foldl_remove_at_nothing _ _ (fun i _ => hfailed i) _
  refine ⟨hfalse, hfailed, hstep, ?_⟩
  unfold houdini_iteration
  simp only [hfalse, Bool.false_eq_true, if_false, hstep, Bool.not_false, if_true]

/-- C18 at a concrete input: from the entry of the graph `fork` the target
can reach cutpoint 1 while the rewrite reaches the exit, the solver does not
prove `false`, and `check_proof` returns by line 420. -/
theorem C18_divergence_not_recoverable_witness :
    (check_proof forkEnv threeInvariants ⟨fun _ => [], []⟩).2.2 = ReturnSite.divergence_failed ∧
    (check_proof forkEnv threeInvariants ⟨fun _ => [], []⟩).1 = false ∧
    removal_step threeInvariants
      (check_proof forkEnv threeInvariants ⟨fun _ => [], []⟩).2.1.failed_invariants
        = (threeInvariants, false) ∧
    houdini_iteration forkEnv threeInvariants [] =
      HoudiniStep.stuck (check_proof forkEnv threeInvariants ⟨fun _ => [], []⟩).2.1.queries :=
  ⟨by decide,
    (C18_divergence_not_recoverable forkEnv threeInvariants [] (by decide)).1,
    (C18_divergence_not_recoverable forkEnv threeInvariants [] (by decide)).2.2.1,
    (C18_divergence_not_recoverable forkEnv threeInvariants [] (by decide)).2.2.2⟩

/-! ## C22: the file names `check_filename` lets through -/

theorem allowed_char_iff (c : Char) : allowed_char c = true ↔ is_letter_digit_or_listed c := by
  unfold allowed_char is_letter_digit_or_listed Char.isAlpha Char.isUpper Char.isLower
    Char.isDigit
  have ha : 'a'.toNat = 97 := rfl
  have hz : 'z'.toNat = 122 := rfl
  have hA : 'A'.toNat = 65 := rfl
  have hZ : 'Z'.toNat = 90 := rfl
  have h0 : '0'.toNat = 48 := rfl
  have h9 : '9'.toNat = 57 := rfl
  have hval : c.val.toNat = c.toNat := rfl
  simp only [ha, hz, hA, hZ, h0, h9, List.mem_cons, List.mem_singleton, List.not_mem_nil,
    or_false, Bool.or_eq_true, Bool.and_eq_true, decide_eq_true_eq, ge_iff_le,
    UInt32.le_def, Fin.le_def]
  constructor
  · intro h
    split_ifs at h with h1 h2 h3 h4
    · exact Or.inl (Or.inr (by simpa [Char.toNat] using h1))
    · exact Or.inl (Or.inl (by simpa [Char.toNat] using h2))
    · exact Or.inr (Or.inl (by simpa [Char.toNat] using h3))
    · exact Or.inr (Or.inr h4)
  · intro h
    rcases h with (h | h) | h | h
    · have : 'A'.toNat ≤ c.toNat ∧ c.toNat ≤ 'Z'.toNat := by simpa [Char.toNat] using h
      simp only [hA, hZ] at this
      split_ifs <;> rfl
    · have : 'a'.toNat ≤ c.toNat ∧ c.toNat ≤ 'z'.toNat := by simpa [Char.toNat] using h
      simp only [ha, hz] at this
      split_ifs
      rfl
    · have : '0'.toNat ≤ c.toNat ∧ c.toNat ≤ '9'.toNat := by simpa [Char.toNat] using h
      simp only [h0, h9] at this
      split_ifs <;> rfl
    · split_ifs <;> rfl

theorem first_rejected_none (s : List Char) :
    first_rejected s = none ↔ ∀ c ∈ s, allowed_char c = true := by
  induction s with
  | nil => simp [first_rejected]
  | cons c rest ih =>
    rw [first_rejected]
    split
    · rename_i h
      rw [ih]
      simp [h]
    · rename_i h
      simp [h]

theorem first_rejected_some (s : List Char) (c : Char) (h : first_rejected s = some c) :
    c ∈ s ∧ allowed_char c = false := by
  induction s with
  | nil => simp [first_rejected] at h
  | cons x rest ih =>
    rw [first_rejected] at h
    split at h
    · exact ⟨List.mem_cons_of_mem _ (ih h).1, (ih h).2⟩
    · rename_i hx
      cases h
      exact ⟨List.mem_cons_self _ _, by simpa using hx⟩

/-- C22: `check_filename` returns true only for names all of whose
characters are ASCII letters, digits or one of `. / _ - ~ @ +` (and that
open); for a name with any other character it returns false with the error
set, without handing the name to `open`, and `run_objdump` then returns
`NULL` without handing any command to the shell. -/
theorem C22_check_filename (env : DisEnv) (d : Disassembler) (s : List Char) :
    ((d.check_filename env s).1 = true →
      (∀ c ∈ s, is_letter_digit_or_listed c) ∧ env.can_open s = true) ∧
    ((∃ c ∈ s, ¬ is_letter_digit_or_listed c) →
      (d.check_filename env s).1 = false ∧
      (d.check_filename env s).2.error_.isSome = true ∧
      (d.check_filename env s).2.opened = d.opened ∧
      ∀ only_header, (d.run_objdump env s only_header).1 = none ∧
        (d.run_objdump env s only_header).2.spawned = d.spawned ∧
        (d.run_objdump env s only_header).2.opened = d.opened) := by
  constructor
  · intro h
    unfold Disassembler.check_filename at h
    split at h
    · exact Bool.noConfusion h
    · rename_i hnone
      constructor
      · intro c hc
        exact (allowed_char_iff c).mp ((first_rejected_none s).mp hnone c hc)
      · simp only at h
        split at h
        · assumption
        · exact Bool.noConfusion h
  · intro ⟨c, hc, hbad⟩
    have hsome : ∃ x, first_rejected s = some x := by
      cases hr : first_rejected s with
      | some x => exact ⟨x, rfl⟩
      | none =>
        exact absurd ((allowed_char_iff c).mp ((first_rejected_none s).mp hr c hc)) hbad
    obtain ⟨x, hx⟩ := hsome
    have hcheck : d.check_filename env s =
        (false, d.set_error ("Character '".toList ++ [x] ++
          "' not allowed in filename for security.".toList)) := by
      unfold Disassembler.check_filename
      rw [hx]
    refine ⟨by rw [hcheck], by rw [hcheck]; rfl, by rw [hcheck]; rfl, ?_⟩
    intro only_header
    have hrun : d.run_objdump env s only_header =
        (none, d.set_error ("Character '".toList ++ [x] ++
          "' not allowed in filename for security.".toList)) := by
      unfold Disassembler.run_objdump
      simp only [hcheck, Bool.not_false, if_true]
    rw [hrun]
    exact ⟨rfl, rfl, rfl⟩

/-- C22 at concrete names: a name with a semicolon and spaces is refused
with the message naming the semicolon and nothing is opened or spawned, also
a name with a backquote or a newline; the name `/bin/ls-2.0_x@y+z~` passes
and the command is built from it. -/
theorem C22_check_filename_witness :
    (freshDisassembler.run_objdump openWorld "a.out; rm -rf x".toList false).1 = none ∧
    (freshDisassembler.run_objdump openWorld "a.out; rm -rf x".toList false).2.spawned = [] ∧
    (freshDisassembler.run_objdump openWorld "a.out; rm -rf x".toList false).2.opened = [] ∧
    (freshDisassembler.check_filename openWorld "a.out; rm -rf x".toList).2.error_
      = some "Character ';' not allowed in filename for security.".toList ∧
    (freshDisassembler.check_filename openWorld ['a', Char.ofNat 96, 'b']).1 = false ∧
    (freshDisassembler.check_filename openWorld ['a', Char.ofNat 10]).1 = false ∧
    (freshDisassembler.run_objdump openWorld "/bin/ls-2.0_x@y+z~".toList true).1
      = some "/usr/bin/objdump -h /bin/ls-2.0_x@y+z~".toList :=
  ⟨((C22_check_filename openWorld freshDisassembler "a.out; rm -rf x".toList).2
      ⟨';', by decide, by
        unfold is_letter_digit_or_listed
        decide⟩).2.2.2 false |>.1,
    by decide, by decide, by decide, by decide, by decide, by decide⟩

/-! ## C27: what the removal step deletes -/

theorem delete_positions_from_nil {α : Type} (k : Nat) (L : List Nat) :
    delete_positions_from k ([] : List α) L = [] := rfl

theorem delete_positions_from_cons {α : Type} (k : Nat) (x : α) (xs : List α) (L : List Nat) :
    delete_positions_from k (x :: xs) L =
      if k ∈ L then delete_positions_from (k + 1) xs L
      else x :: delete_positions_from (k + 1) xs L := by
  unfold delete_positions_from
  rw [List.enumFrom_cons, List.filter_cons]
  by_cases h : k ∈ L
  · simp [h]
  · simp [h]

theorem delete_positions_from_congr {α : Type} (c : List α) (L M : List Nat)
    (h : ∀ x, x ∈ L ↔ x ∈ M) :
    ∀ k, delete_positions_from k c L = delete_positions_from k c M := by
  induction c with
  | nil => intro k; rfl
  | cons x xs ih =>
    intro k
    rw [delete_positions_from_cons, delete_positions_from_cons, ih (k + 1)]
    simp only [h k]

theorem delete_positions_from_below {α : Type} (c : List α) (L : List Nat) :
    ∀ k, (∀ y ∈ L, y < k) → delete_positions_from k c L = c := by
  induction c with
  | nil => intro k _; rfl
  | cons x xs ih =>
    intro k h
    rw [delete_positions_from_cons, if_neg (fun hk => Nat.lt_irrefl k (h k hk)),
      ih (k + 1) (fun y hy => Nat.lt_succ_of_lt (h y hy))]

theorem delete_positions_from_eraseIdx {α : Type} (ds : List Nat) :
    ∀ (c : List α) (k d : Nat), (∀ y ∈ ds, y < k + d) →
      delete_positions_from k (c.eraseIdx d) ds = delete_positions_from k c ((k + d) :: ds) := by
  intro c
  induction c with
  | nil => intro k d _; rfl
  | cons x xs ih =>
    intro k d h
    cases d with
    | zero =>
      rw [List.eraseIdx_cons_zero, delete_positions_from_cons, Nat.add_zero,
        if_pos (List.mem_cons_self _ _)]
      rw [delete_positions_from_below xs ds k (by simpa using h)]
      rw [delete_positions_from_below xs (k :: ds) (k + 1)]
      intro y hy
      rcases List.mem_cons.mp hy with rfl | hy
      · exact Nat.lt_succ_self _
      · exact Nat.lt_succ_of_lt (by simpa using h y hy)
    | succ d =>
      rw [List.eraseIdx_cons_succ, delete_positions_from_cons, delete_positions_from_cons]
      have e : k + (d + 1) = k + 1 + d := by omega
      rw [ih (k + 1) d (by intro y hy; have := h y hy; omega), e]
      have hk : (k ∈ (k + 1 + d) :: ds) ↔ k ∈ ds := by
        simp only [List.mem_cons]
        constructor
        · rintro (h1 | h1)
          · omega
          · exact h1
        · exact Or.inr
      by_cases hm : k ∈ ds
      · rw [if_pos hm, if_pos (hk.mpr hm)]
      · rw [if_neg hm, if_neg (fun h1 => hm (hk.mp h1))]

theorem remove_loop_spec :
    ∀ (ds : List Nat) (last : Nat) (c : List Invariant) (m : Bool),
      ds.Pairwise (fun a b => b ≤ a) → (∀ y ∈ ds, y ≤ last) →
      (remove_loop ds last c m).1 = delete_positions c (ds.filter (fun y => decide (y ≠ last))) := by
  intro ds
  induction ds with
  | nil =>
    intro last c m _ _
    unfold delete_positions
    rw [remove_loop, List.filter_nil, delete_positions_from_below c [] 0 (by simp)]
  | cons it rest ih =>
    intro last c m hs hle
    rw [remove_loop]
    have hrest := (List.pairwise_cons.mp hs)
    split
    · rename_i heq
      rw [ih last c m hrest.2 (fun y hy => hle y (List.mem_cons_of_mem _ hy))]
      rw [List.filter_cons, if_neg (by simp [heq])]
    · rename_i hne
      have hlt : it < last := lt_of_le_of_ne (hle it (List.mem_cons_self _ _)) (Ne.symm hne)
      rw [ih it (c.eraseIdx it) true hrest.2 (fun y hy => hrest.1 y hy)]
      unfold delete_positions
      have h1 := delete_positions_from_eraseIdx
        (rest.filter (fun y => decide (y ≠ it))) c 0 it (by
          intro y hy
          have hy2 := List.mem_filter.mp hy
          have := hrest.1 y hy2.1
          have hne2 : y ≠ it := by simpa using hy2.2
          omega)
      rw [h1, Nat.zero_add]
      apply delete_positions_from_congr
      intro x
      simp only [List.mem_cons, List.mem_filter, decide_eq_true_eq]
      constructor
      · rintro (h2 | h2)
        · exact ⟨Or.inl h2, by omega⟩
        · exact ⟨Or.inr h2.1, by have := hrest.1 x h2.1; omega⟩
      · rintro ⟨h2 | h2, _⟩
        · exact Or.inl h2
        · by_cases hx : x = it
          · exact Or.inl hx
          · exact Or.inr ⟨h2, hx⟩

theorem remove_loop_flag_mono :
    ∀ (ds : List Nat) (last : Nat) (c : List Invariant),
      (remove_loop ds last c true).2 = true := by
  intro ds
  induction ds with
  | nil => intro last c; rfl
  | cons it rest ih =>
    intro last c
    rw [remove_loop]
    split
    · exact ih last c
    · exact ih it _

theorem remove_loop_flag :
    ∀ (ds : List Nat) (last : Nat) (c : List Invariant) (m : Bool),
      (remove_loop ds last c m).2 = true ↔ (m = true ∨ ∃ y ∈ ds, y ≠ last) := by
  intro ds
  induction ds with
  | nil => intro last c m; simp [remove_loop]
  | cons it rest ih =>
    intro last c m
    rw [remove_loop]
    split
    · rename_i heq
      rw [ih last c m]
      constructor
      · rintro (h | ⟨y, hy, hne⟩)
        · exact Or.inl h
        · exact Or.inr ⟨y, List.mem_cons_of_mem _ hy, hne⟩
      · rintro (h | ⟨y, hy, hne⟩)
        · exact Or.inl h
        · rcases List.mem_cons.mp hy with rfl | hy
          · exact absurd heq.symm hne
          · exact Or.inr ⟨y, hy, hne⟩
    · rename_i hne
      rw [remove_loop_flag_mono]
      exact iff_of_true rfl (Or.inr ⟨it, List.mem_cons_self _ _, fun h => hne h.symm⟩)

theorem remove_at_same (failed : Nat → List Nat) (st : List (List Invariant) × Bool)
    (i : Nat) (hi : i < st.1.length) (hL : ∀ y ∈ failed i, y < 2 ^ 64 - 1) :
    (remove_at failed st i).1.getD i [] = delete_positions (st.1.getD i []) (failed i) ∧
    ((remove_at failed st i).2 = true ↔ (st.2 = true ∨ failed i ≠ [])) := by
  have hperm := List.perm_insertionSort (fun a b : Nat => a ≤ b) (failed i)
  have hmem : ∀ x, x ∈ ((failed i).insertionSort (fun a b => a ≤ b)).reverse ↔ x ∈ failed i :=
    fun x => by rw [List.mem_reverse]; exact hperm.mem_iff
  have hsorted : (((failed i).insertionSort (fun a b => a ≤ b)).reverse).Pairwise
      (fun a b => b ≤ a) :=
    List.pairwise_reverse.mpr (List.sorted_insertionSort (fun a b : Nat => a ≤ b) (failed i))
  unfold remove_at
  simp only
  constructor
  · rw [List.getD_eq_getElem?_getD, List.getElem?_set_self hi, Option.getD_some]
    rw [remove_loop_spec _ _ _ _ hsorted
      (fun y hy => Nat.le_of_lt (hL y ((hmem y).mp hy)))]
    unfold delete_positions
    apply delete_positions_from_congr
    intro x
    rw [List.mem_filter, hmem]
    constructor
    · exact fun h => h.1
    · intro h
      exact ⟨h, by simpa using Nat.ne_of_lt (hL x h)⟩
  · rw [remove_loop_flag]
    constructor
    · rintro (h | ⟨y, hy, _⟩)
      · exact Or.inl h
      · exact Or.inr (List.ne_nil_of_mem ((hmem y).mp hy))
    · rintro (h | h)
      · exact Or.inl h
      · obtain ⟨y, hy⟩ := List.exists_mem_of_ne_nil _ h
        exact Or.inr ⟨y, (hmem y).mpr hy, Nat.ne_of_lt (hL y hy)⟩

theorem foldl_remove_at_spec (failed : Nat → List Nat) :
    ∀ (l : List Nat), l.Nodup → (∀ i ∈ l, ∀ y ∈ failed i, y < 2 ^ 64 - 1) →
      ∀ (st : List (List Invariant) × Bool), (∀ i ∈ l, i < st.1.length) →
        (∀ i ∈ l, (l.foldl (remove_at failed) st).1.getD i [] =
          delete_positions (st.1.getD i []) (failed i)) ∧
        ((l.foldl (remove_at failed) st).2 = true ↔
          (st.2 = true ∨ ∃ i ∈ l, failed i ≠ [])) := by
  intro l
  induction l with
  | nil =>
    intro _ _ st _
    exact ⟨fun i hi => by simp at hi, by simp⟩
  | cons a rest ih =>
    intro hnd hL st hlen
    rw [List.foldl_cons]
    have hnd2 := List.nodup_cons.mp hnd
    have ha := remove_at_same failed st a (hlen a (List.mem_cons_self _ _))
      (hL a (List.mem_cons_self _ _))
    obtain ⟨h1, h2⟩ := ih hnd2.2 (fun i hi => hL i (List.mem_cons_of_mem _ hi))
      (remove_at failed st a)
      (fun i hi => by rw [remove_at_length]; exact hlen i (List.mem_cons_of_mem _ hi))
    constructor
    · intro i hi
      rcases List.mem_cons.mp hi with rfl | hi
      · rw [(foldl_remove_at failed rest (remove_at failed st i)).2 i hnd2.1, ha.1]
      · rw [h1 i hi, remove_at_other failed st a i (fun h => hnd2.1 (h ▸ hi))]
    · rw [h2, ha.2]
      constructor
      · rintro ((h | h) | ⟨i, hi, hne⟩)
        · exact Or.inl h
        · exact Or.inr ⟨a, List.mem_cons_self _ _, h⟩
        · exact Or.inr ⟨i, List.mem_cons_of_mem _ hi, hne⟩
      · rintro (h | ⟨i, hi, hne⟩)
        · exact Or.inl (Or.inl h)
        · rcases List.mem_cons.mp hi with rfl | hi
          · exact Or.inl (Or.inr hne)
          · exact Or.inr ⟨i, hi, hne⟩

theorem mem_interior_range (invariants : List (List Invariant))
    (h0 : invariants.length ≠ 0) (hlt : invariants.length < 2 ^ 64) (i : Nat) :
    i ∈ List.range' 1 (sub64 invariants.length 1 - 1) ↔ interior invariants i := by
  rw [sub64_length _ h0 hlt, List.mem_range'_1]
  unfold interior
  omega

/-- The removal step, cutpoint by cutpoint over the range of its loop. -/
theorem removal_step_fold (invariants : List (List Invariant))
    (failed_invariants : Nat → List Nat)
    (h0 : invariants.length ≠ 0) (hlt : invariants.length < 2 ^ 64)
    (hsize : ∀ i, interior invariants i → (invariants.getD i []).length < 2 ^ 64)
    (hrange : ∀ i, interior invariants i →
      ∀ y ∈ failed_invariants i, y < (invariants.getD i []).length) :
    (∀ i ∈ List.range' 1 (sub64 invariants.length 1 - 1),
      ((List.range' 1 (sub64 invariants.length 1 - 1)).foldl (remove_at failed_invariants)
        (invariants, false)).1.getD i [] =
        delete_positions (invariants.getD i []) (failed_invariants i)) ∧
    (((List.range' 1 (sub64 invariants.length 1 - 1)).foldl (remove_at failed_invariants)
        (invariants, false)).2 = true ↔
      (false = true ∨ ∃ i ∈ List.range' 1 (sub64 invariants.length 1 - 1),
        failed_invariants i ≠ [])) :=
  foldl_remove_at_spec failed_invariants
    (List.range' 1 (sub64 invariants.length 1 - 1)) (List.nodup_range' _ _)
    (fun i hi y hy => by
      have hint := (mem_interior_range invariants h0 hlt i).mp hi
      have := hrange i hint y hy
      have := hsize i hint
      omega)
    (invariants, false)
    (fun i hi => by
      have hint := (mem_interior_range invariants h0 hlt i).mp hi
      unfold interior at hint
      simp only
      omega)

/-- C27: for a non-empty invariants vector and a map of failed invariants
that lists, for every interior cutpoint, only positions inside the
conjunction of that cutpoint (in any order, repeated or not), the removal
step leaves at every interior cutpoint the conjunction it held with exactly
the conjuncts at the listed positions deleted, the others in their order;
and `made_a_change` is true if and only if the list of some interior
cutpoint is not empty. -/
theorem C27_removal_exact (invariants : List (List Invariant))
    (failed_invariants : Nat → List Nat)
    (h0 : invariants.length ≠ 0) (hlt : invariants.length < 2 ^ 64)
    (hsize : ∀ i, interior invariants i → (invariants.getD i []).length < 2 ^ 64)
    (hrange : ∀ i, interior invariants i →
      ∀ y ∈ failed_invariants i, y < (invariants.getD i []).length) :
    (∀ i, interior invariants i →
      (removal_step invariants failed_invariants).1.getD i [] =
        delete_positions (invariants.getD i []) (failed_invariants i)) ∧
    ((removal_step invariants failed_invariants).2 = true ↔
      ∃ i, interior invariants i ∧ failed_invariants i ≠ []) := by
  have hspec := removal_step_fold invariants failed_invariants h0 hlt hsize hrange
  unfold removal_step
  constructor
  · intro i hi
    exact hspec.1 i ((mem_interior_range invariants h0 hlt i).mpr hi)
  · rw [hspec.2]
    constructor
    · rintro (h | ⟨i, hi, hne⟩)
      · exact Bool.noConfusion h
      · exact ⟨i, (mem_interior_range invariants h0 hlt i).mp hi, hne⟩
    · rintro ⟨i, hi, hne⟩
      exact Or.inr ⟨i, (mem_interior_range invariants h0 hlt i).mpr hi, hne⟩

/-- C27 at a concrete input: the middle cutpoint holds three conjuncts and
its list of failures is 1, 0, 1; the removal step leaves the third conjunct
only and reports a change. -/
theorem C27_removal_exact_witness :
    (removal_step middleThree unsortedFailed).1.getD 1 [] = [Invariant.memory_equality] ∧
    delete_positions (middleThree.getD 1 []) (unsortedFailed 1) = [Invariant.memory_equality] ∧
    (removal_step middleThree unsortedFailed).2 = true :=
  have hint : ∀ i, interior middleThree i → i = 1 := by
    intro i hi
    unfold interior at hi
    have : middleThree.length = 3 := rfl
    omega
  have h := C27_removal_exact middleThree unsortedFailed (by decide) (by decide)
    (fun i hi => by rw [hint i hi]; decide)
    (fun i hi => by rw [hint i hi]; decide)
  ⟨(h.1 1 (by unfold interior; decide)).trans (by decide), by decide,
    h.2.mpr ⟨1, by unfold interior; decide, by decide⟩⟩

/-! ## C28: the Houdini loop ends -/

theorem delete_positions_from_length {α : Type} (L : List Nat) :
    ∀ (c : List α) (k : Nat),
      (delete_positions_from k c L).length ≤ c.length ∧
      ((∃ y ∈ L, k ≤ y ∧ y < k + c.length) →
        (delete_positions_from k c L).length < c.length) := by
  intro c
  induction c with
  | nil =>
    intro k
    refine ⟨Nat.le_refl _, ?_⟩
    rintro ⟨y, _, h1, h2⟩
    simp at h2
    omega
  | cons x xs ih =>
    intro k
    rw [delete_positions_from_cons]
    obtain ⟨h1, h2⟩ := ih (k + 1)
    by_cases hk : k ∈ L
    · rw [if_pos hk]
      simp only [List.length_cons]
      exact ⟨by omega, fun _ => by omega⟩
    · rw [if_neg hk]
      simp only [List.length_cons]
      refine ⟨by omega, ?_⟩
      rintro ⟨y, hy, h3, h4⟩
      have hne : y ≠ k := fun h => hk (h ▸ hy)
      have := h2 ⟨y, hy, by omega, by omega⟩
      omega

theorem sum_map_lt (l : List Nat) (f g : Nat → Nat) (hle : ∀ i ∈ l, g i ≤ f i)
    (hlt : ∃ i ∈ l, g i < f i) : (l.map g).sum < (l.map f).sum := by
  induction l with
  | nil =>
    obtain ⟨i, hi, _⟩ := hlt
    simp at hi
  | cons a rest ih =>
    simp only [List.map_cons, List.sum_cons]
    have ha := hle a (List.mem_cons_self _ _)
    have hrest : (rest.map g).sum ≤ (rest.map f).sum :=
      List.sum_le_sum (fun i hi => hle i (List.mem_cons_of_mem _ hi))
    obtain ⟨i, hi, hlt2⟩ := hlt
    rcases List.mem_cons.mp hi with rfl | hi
    · omega
    · have := ih (fun i hi => hle i (List.mem_cons_of_mem _ hi)) ⟨i, hi, hlt2⟩
      omega

/-- What a removal step that made a change does to the invariants: same
number of cutpoints, no conjunction longer, fewer interior conjuncts. -/
theorem removal_step_decreases (invariants : List (List Invariant))
    (failed_invariants : Nat → List Nat) (hok : sizes_ok invariants)
    (hrange : ∀ i, ∀ y ∈ failed_invariants i, y < (invariants.getD i []).length) :
    sizes_ok (removal_step invariants failed_invariants).1 ∧
    ((removal_step invariants failed_invariants).2 = true →
      interior_total (removal_step invariants failed_invariants).1
        < interior_total invariants) := by
  obtain ⟨h0, hlt, hsize⟩ := hok
  have hfold := removal_step_fold invariants failed_invariants h0 hlt hsize
    (fun i _ => hrange i)
  have hlen : (removal_step invariants failed_invariants).1.length = invariants.length :=
    (foldl_remove_at failed_invariants _ (invariants, false)).1
  have hrng : List.range' 1 (invariants.length - 2)
      = List.range' 1 (sub64 invariants.length 1 - 1) := by
    rw [sub64_length _ h0 hlt]
    congr 1
  have hentry : ∀ i, interior invariants i →
      (removal_step invariants failed_invariants).1.getD i [] =
        delete_positions (invariants.getD i []) (failed_invariants i) :=
    fun i hi => hfold.1 i ((mem_interior_range invariants h0 hlt i).mpr hi)
  constructor
  · refine ⟨by rw [hlen]; exact h0, by rw [hlen]; exact hlt, ?_⟩
    intro i hi
    have hi2 : interior invariants i := by
      unfold interior at hi ⊢
      rw [hlen] at hi
      exact hi
    rw [hentry i hi2]
    exact lt_of_le_of_lt (delete_positions_from_length _ _ 0).1 (hsize i hi2)
  · intro hflag
    unfold interior_total
    rw [hlen, hrng]
    have hflag2 := hfold.2.mp hflag
    rcases hflag2 with h | ⟨i, hi, hne⟩
    · exact Bool.noConfusion h
    · apply sum_map_lt
      · intro k hk
        rw [hentry k ((mem_interior_range invariants h0 hlt k).mp hk)]
        exact (delete_positions_from_length _ _ 0).1
      · refine ⟨i, hi, ?_⟩
        rw [hentry i ((mem_interior_range invariants h0 hlt i).mp hi)]
        obtain ⟨y, hy⟩ := List.exists_mem_of_ne_nil _ hne
        exact (delete_positions_from_length _ _ 0).2
          ⟨y, hy, Nat.zero_le _, by rw [Nat.zero_add]; exact hrange i y hy⟩

theorem houdini_loop_ends (cp : Nat → List (List Invariant) → Bool × (Nat → List Nat))
    (hcp : reports_in_range cp) :
    ∀ (t fuel n : Nat) (invariants : List (List Invariant)), sizes_ok invariants →
      interior_total invariants ≤ t → t + 1 ≤ fuel →
      ∃ res, houdini_loop cp fuel n invariants = some res ∧ res.2.2 ≤ t + 1 := by
  intro t
  induction t with
  | zero =>
    intro fuel n invariants hok ht hfuel
    obtain ⟨f, rfl⟩ : ∃ f, fuel = f + 1 := ⟨fuel - 1, by omega⟩
    rw [houdini_loop]
    simp only
    split
    · exact ⟨_, rfl, Nat.le_refl _⟩
    · split
      · exact ⟨_, rfl, Nat.le_refl _⟩
      · rename_i hflag
        have := (removal_step_decreases invariants (cp n invariants).2 hok
          (fun i y hy => hcp n invariants i y hy)).2 (by simpa using hflag)
        omega
  | succ t ih =>
    intro fuel n invariants hok ht hfuel
    obtain ⟨f, rfl⟩ : ∃ f, fuel = f + 1 := ⟨fuel - 1, by omega⟩
    rw [houdini_loop]
    simp only
    split
    · exact ⟨_, rfl, by simp⟩
    · split
      · exact ⟨_, rfl, by simp⟩
      · rename_i hflag
        have hdec := removal_step_decreases invariants (cp n invariants).2 hok
          (fun i y hy => hcp n invariants i y hy)
        have hlt := hdec.2 (by simpa using hflag)
        obtain ⟨res, hres, hcount⟩ := ih f (n + 1)
          (removal_step invariants (cp n invariants).2).1 hdec.1 (by omega) (by omega)
        exact ⟨_, by rw [hres]; rfl, by simpa using hcount⟩

/-- C28: for an invariants vector whose sizes fit `size_t` and a
`check_proof` that reports only positions that exist, every iteration of the
Houdini loop that neither returns true nor breaks leaves strictly fewer
conjuncts at the interior cutpoints, and the loop ends after at most (interior
conjuncts + 1) iterations: with that much fuel the model returns a result. -/
theorem C28_houdini_loop_terminates
    (cp : Nat → List (List Invariant) → Bool × (Nat → List Nat))
    (invariants : List (List Invariant)) (hcp : reports_in_range cp)
    (hok : sizes_ok invariants) :
    (∀ n, (cp n invariants).1 = false →
      (removal_step invariants (cp n invariants).2).2 = true →
      interior_total (removal_step invariants (cp n invariants).2).1
        < interior_total invariants) ∧
    (∀ fuel n, interior_total invariants + 1 ≤ fuel →
      ∃ res, houdini_loop cp fuel n invariants = some res ∧
        res.2.2 ≤ interior_total invariants + 1) := by
  constructor
  · intro n _ hflag
    exact (removal_step_decreases invariants (cp n invariants).2 hok
      (fun i y hy => hcp n invariants i y hy)).2 hflag
  · intro fuel n hfuel
    exact houdini_loop_ends cp hcp (interior_total invariants) fuel n invariants hok
      (Nat.le_refl _) hfuel

theorem firstFails_in_range : reports_in_range firstFails := by
  intro n invariants i y hy
  unfold firstFails at hy
  simp only at hy
  split at hy
  · rename_i h
    rw [h.1]
    have : y = 0 := by simpa using hy
    omega
  · simp at hy

theorem middleThree_sizes_ok : sizes_ok middleThree := by
  refine ⟨by decide, by decide, ?_⟩
  intro i hi
  unfold interior at hi
  have : middleThree.length = 3 := rfl
  have : i = 1 := by omega
  subst this
  decide

/-- C28 at a concrete input: three conjuncts at the one interior cutpoint
and a `check_proof` that fails the first of them each time: the loop ends by
the `break` in its fourth iteration, with the interior conjunction empty. -/
theorem C28_houdini_loop_terminates_witness :
    interior_total middleThree = 3 ∧
    houdini_loop firstFails 4 0 middleThree =
      some (false, [[Invariant.no_signals], [],
        [Invariant.no_signals, Invariant.memory_equality]], 4) ∧
    ∃ res, houdini_loop firstFails 10 0 middleThree = some res ∧
      res.2.2 ≤ interior_total middleThree + 1 :=
  ⟨by decide, by decide,
    (C28_houdini_loop_terminates firstFails middleThree firstFails_in_range
      middleThree_sizes_ok).2 10 0 (by decide)⟩

/-! ## C25: `simplify_disjunction` keeps the meaning -/

theorem drop_false_eq_filter {α : Type} [DecidableEq α] (_false : α) (disjs : List (List α)) :
    drop_false_disjuncts _false disjs = disjs.filter (fun d => decide (_false ∉ d)) := by
  induction disjs with
  | nil => rfl
  | cons conj rest ih =>
    rw [drop_false_disjuncts, List.filter_cons, ih]
    by_cases h : _false ∈ conj
    · have h1 : conj.any (fun x => decide (x = _false)) = true := by
        rw [List.any_eq_true]
        exact ⟨_false, h, by simp⟩
      simp [h1, h]
    · have h1 : ¬ conj.any (fun x => decide (x = _false)) = true := by
        rw [List.any_eq_true]
        rintro ⟨x, hx, hxe⟩
        have : x = _false := by simpa using hxe
        exact h (this ▸ hx)
      simp [h1, h]

/-- What holds of the state of the extraction loop: the leaves taken out so
far are in every disjunct of the disjunction `D` the loop started from and
none twice, the disjuncts are those of `D` without these leaves, and no leaf
before index `i` of the first disjunct is in all the others. -/
structure ExtractInv {α : Type} [DecidableEq α] (D : List (List α)) (i : Nat)
    (disjs : List (List α)) (common : List α) : Prop where
  common_in_all : ∀ x ∈ common, ∀ d ∈ D, x ∈ d
  nodup : common.Nodup
  residual : disjs = D.map (fun d => d.filter (fun x => decide (x ∉ common)))
  skipped : ∀ x ∈ (disjs.headD []).take i, ∃ other ∈ disjs.tail, x ∉ other

theorem filter_filter_ne {α : Type} [DecidableEq α] (d common : List α) (leaf : α) :
    (d.filter (fun x => decide (x ∉ common))).filter (fun x => decide (x ≠ leaf))
      = d.filter (fun x => decide (x ∉ common ++ [leaf])) := by
  rw [List.filter_filter]
  apply List.filter_congr
  intro x _
  simp [not_or, and_comm]

theorem extractInv_remove {α : Type} [DecidableEq α] (D : List (List α)) (hD : D ≠ [])
    (i : Nat) (disjs : List (List α)) (common : List α) (leaf : α)
    (h : ExtractInv D i disjs common) (hleaf : (disjs.headD []).get? i = some leaf)
    (hall : disjs.tail.all (fun other => decide (leaf ∈ other)) = true) :
    ExtractInv D i (disjs.map (fun other => other.filter (fun x => decide (x ≠ leaf))))
      (common ++ [leaf]) := by
  have hmem_first : leaf ∈ disjs.headD [] := List.get?_mem hleaf
  have hnotin : leaf ∉ common := by
    intro hc
    rw [h.residual] at hmem_first
    cases D with
    | nil => simp at hmem_first
    | cons d0 rest =>
      simp only [List.map_cons, List.headD_cons, List.mem_filter, decide_eq_true_eq]
        at hmem_first
      exact hmem_first.2 hc
  have hin_all : ∀ d ∈ disjs, leaf ∈ d := by
    intro d hd
    cases disjs with
    | nil => simp at hd
    | cons d0 rest =>
      rcases List.mem_cons.mp hd with rfl | hd
      · exact hmem_first
      · have := List.all_eq_true.mp hall d hd
        simpa using this
  have hnot_taken : leaf ∉ (disjs.headD []).take i := by
    intro ht
    obtain ⟨other, ho, hno⟩ := h.skipped leaf ht
    have := List.all_eq_true.mp hall other ho
    exact hno (by simpa using this)
  refine ⟨?_, ?_, ?_, ?_⟩
  · intro x hx d hd
    rcases List.mem_append.mp hx with hx | hx
    · exact h.common_in_all x hx d hd
    · have hxl : x = leaf := by simpa using hx
      subst hxl
      have : d.filter (fun y => decide (y ∉ common)) ∈ disjs := by
        rw [h.residual]
        exact List.mem_map_of_mem _ hd
      exact (List.mem_filter.mp (hin_all _ this)).1
  · exact List.Nodup.append h.nodup (List.nodup_singleton _) (by
      intro x hx hx2
      have : x = leaf := by simpa using hx2
      exact hnotin (this ▸ hx))
  · rw [h.residual, List.map_map]
    apply List.map_congr_left
    intro d _
    exact filter_filter_ne d common leaf
  · intro x hx
    cases hdis : disjs with
    | nil => rw [hdis] at hx; simp at hx
    | cons d0 rest =>
      rw [hdis] at hx hnot_taken h
      simp only [List.map_cons, List.headD_cons, List.tail_cons] at hx hnot_taken ⊢
      have hi : i < d0.length := by
        rw [hdis] at hleaf
        simp only [List.headD_cons] at hleaf
        exact (List.get?_eq_some.mp hleaf).1
      have hsplit : d0.filter (fun x => decide (x ≠ leaf))
          = d0.take i ++ (d0.drop i).filter (fun x => decide (x ≠ leaf)) := by
        conv_lhs => rw [← List.take_append_drop i d0]
        rw [List.filter_append]
        congr 1
        rw [List.filter_eq_self]
        intro y hy
        simpa using fun hyl : y = leaf => hnot_taken (hyl ▸ hy)
      rw [hsplit, List.take_left' (by simp [Nat.le_of_lt hi])] at hx
      obtain ⟨other, ho, hno⟩ := h.skipped x (by simpa using hx)
      simp only [List.tail_cons] at ho
      refine ⟨other.filter (fun x => decide (x ≠ leaf)), List.mem_map_of_mem _ ho, ?_⟩
      intro hxo
      exact hno (List.mem_filter.mp hxo).1

theorem extractInv_skip {α : Type} [DecidableEq α] (D : List (List α))
    (i : Nat) (disjs : List (List α)) (common : List α) (leaf : α)
    (h : ExtractInv D i disjs common) (hleaf : (disjs.headD []).get? i = some leaf)
    (hall : ¬ disjs.tail.all (fun other => decide (leaf ∈ other)) = true) :
    ExtractInv D (i + 1) disjs common := by
  refine ⟨h.common_in_all, h.nodup, h.residual, ?_⟩
  intro x hx
  rw [List.take_succ, List.mem_append] at hx
  rcases hx with hx | hx
  · exact h.skipped x hx
  · have hxl : x = leaf := by
      rw [List.get?_eq_getElem?] at hleaf
      rw [hleaf] at hx
      simpa using hx
    subst hxl
    rw [List.all_eq_true] at hall
    push_neg at hall
    obtain ⟨other, ho, hno⟩ := hall
    exact ⟨other, ho, by simpa using hno⟩

/-- Enough fuel: the extraction loop ends, in a state that has passed the
whole first disjunct. -/
theorem extract_common_ends {α : Type} [DecidableEq α] (D : List (List α)) (hD : D ≠ []) :
    ∀ (fuel i : Nat) (disjs : List (List α)) (common : List α),
      ExtractInv D i disjs common → (disjs.headD []).length - i < fuel →
      ∃ r, extract_common fuel i disjs common = some r ∧
        ExtractInv D (r.1.headD []).length r.1 r.2 := by
  intro fuel
  induction fuel with
  | zero => intro i disjs common _ hf; omega
  | succ fuel ih =>
    intro i disjs common h hf
    rw [extract_common]
    simp only
    split
    · rename_i hnone
      refine ⟨_, rfl, h.common_in_all, h.nodup, h.residual, ?_⟩
      intro x hx
      have hlen := List.get?_eq_none.mp hnone
      have hx2 : x ∈ (disjs.headD []).take i := by
        rw [List.take_of_length_le hlen]
        simpa using hx
      exact h.skipped x hx2
    · rename_i leaf hleaf
      have hi : i < (disjs.headD []).length := (List.get?_eq_some.mp hleaf).1
      split
      · rename_i hall
        apply ih
        · exact extractInv_remove D hD i disjs common leaf h hleaf hall
        · have hhead : (disjs.map (fun other => other.filter
              (fun x => decide (x ≠ leaf)))).headD []
              = (disjs.headD []).filter (fun x => decide (x ≠ leaf)) := by
            cases disjs <;> rfl
          rw [hhead]
          have hlt : ((disjs.headD []).filter (fun x => decide (x ≠ leaf))).length
              < (disjs.headD []).length := by
            rw [List.length_filter_lt_length_iff_exists]
            exact ⟨leaf, List.get?_mem hleaf, by simp⟩
          omega
      · rename_i hall
        apply ih
        · exact extractInv_skip D i disjs common leaf h hleaf hall
        · omega

theorem eval_residual {α : Type} [DecidableEq α] (v : α → Bool) (D : List (List α))
    (common : List α) (hcommon : ∀ x ∈ common, ∀ d ∈ D, x ∈ d) :
    (eval_conjunction v common &&
      eval_disjunction v (D.map (fun d => d.filter (fun x => decide (x ∉ common)))))
      = eval_disjunction v D := by
  unfold eval_disjunction eval_conjunction
  cases hc : common.all v
  · rw [Bool.false_and]
    symm
    rw [List.any_eq_false]
    intro d hd
    rw [Bool.not_eq_true, List.all_eq_false]
    rw [List.all_eq_false] at hc
    obtain ⟨x, hx, hvx⟩ := hc
    exact ⟨x, hcommon x hx d hd, hvx⟩
  · rw [Bool.true_and, List.any_map]
    congr 1
    funext d
    simp only [Function.comp]
    rw [List.all_eq_true] at hc
    rw [Bool.eq_iff_iff, List.all_eq_true, List.all_eq_true]
    constructor
    · intro h x hx
      by_cases hxc : x ∈ common
      · exact hc x hxc
      · exact h x (List.mem_filter.mpr ⟨hx, by simpa using hxc⟩)
    · intro h x hx
      exact h x (List.mem_filter.mp hx).1

/-- C25: for a disjunction with at least one disjunct that does not hold
false, `simplify_disjunction` returns a conjunction that has, under every
truth assignment to the leaves, the truth value of the input disjunction
with its false-holding disjuncts removed; the residual disjuncts are the
remaining disjuncts without the extracted leaves; every extracted leaf is in
every remaining disjunct; and every leaf that is in every remaining disjunct
is extracted exactly once and is in no residual disjunct. -/
theorem C25_simplify_disjunction {α : Type} [DecidableEq α] (_false : α)
    (disjs : List (List α)) (h : ∃ d ∈ disjs, _false ∉ d) :
    ∃ r, simplify_disjunction _false disjs = some r ∧
      (∀ v : α → Bool,
        eval_simplified v r = eval_disjunction v (disjs.filter (fun d => decide (_false ∉ d)))) ∧
      r.2 = (disjs.filter (fun d => decide (_false ∉ d))).map
        (fun d => d.filter (fun x => decide (x ∉ r.1))) ∧
      (∀ x ∈ r.1, ∀ d ∈ disjs, _false ∉ d → x ∈ d) ∧
      (∀ x, (∀ d ∈ disjs, _false ∉ d → x ∈ d) →
        r.1.count x = 1 ∧ ∀ d ∈ r.2, x ∉ d) := by
  have hfilter := drop_false_eq_filter _false disjs
  have hne : drop_false_disjuncts _false disjs ≠ [] := by
    obtain ⟨d, hd, hf⟩ := h
    rw [hfilter]
    exact List.ne_nil_of_mem (List.mem_filter.mpr ⟨hd, by simpa using hf⟩)
  unfold simplify_disjunction
  cases hD : drop_false_disjuncts _false disjs with
  | nil => exact absurd hD hne
  | cons first rest =>
    simp only
    have hinit : ExtractInv (first :: rest) 0 (first :: rest) [] :=
      ⟨fun x hx => by simp at hx, List.nodup_nil, by simp, fun x hx => by simp at hx⟩
    obtain ⟨r, hr, hinv⟩ := extract_common_ends (first :: rest) (by simp)
      (first.length + 1) 0 (first :: rest) [] hinit (by simp)
    rw [hfilter] at hD
    refine ⟨(r.2, r.1), by rw [hr]; rfl, ?_, ?_, ?_, ?_⟩
    · intro v
      unfold eval_simplified
      simp only
      rw [hinv.residual, hD]
      exact eval_residual v (first :: rest) r.2 hinv.common_in_all
    · simp only
      rw [hD]
      exact hinv.residual
    · intro x hx d hd hf
      exact hinv.common_in_all x hx d (by
        rw [← hD]
        exact List.mem_filter.mpr ⟨hd, by simpa using hf⟩)
    · intro x hx
      have hxD : ∀ d ∈ first :: rest, x ∈ d := by
        intro d hd
        rw [← hD] at hd
        have := List.mem_filter.mp hd
        exact hx d this.1 (by simpa using this.2)
      have hxc : x ∈ r.2 := by
        by_contra hxc
        have hxr : ∀ d ∈ r.1, x ∈ d := by
          intro d hd
          rw [hinv.residual] at hd
          obtain ⟨d0, hd0, rfl⟩ := List.mem_map.mp hd
          exact List.mem_filter.mpr ⟨hxD d0 hd0, by simpa using hxc⟩
        have hr1 : r.1 ≠ [] := by
          rw [hinv.residual]
          simp
        obtain ⟨e, es, hes⟩ := List.exists_cons_of_ne_nil hr1
        have hxe : x ∈ e := hxr e (by rw [hes]; exact List.mem_cons_self _ _)
        obtain ⟨other, ho, hno⟩ := hinv.skipped x (by
          rw [hes]
          simpa using hxe)
        exact hno (hxr other (List.mem_of_mem_tail ho))
      refine ⟨List.count_eq_one_of_mem hinv.nodup hxc, ?_⟩
      intro d hd hxd
      simp only at hd
      rw [hinv.residual] at hd
      obtain ⟨d0, _, rfl⟩ := List.mem_map.mp hd
      have := (List.mem_filter.mp hxd).2
      exact (by simpa using this : x ∉ r.2) hxc

/-- C25 at a concrete input: the disjunct holding false (leaf 0) goes, the
leaves 1 and 3 shared by the three others are extracted once each, and the
residual disjuncts hold what is left. -/
theorem C25_simplify_disjunction_witness :
    simplify_disjunction 0 sampleDisjunction = some ([1, 3], [[2], [5], []]) ∧
    ∃ r, simplify_disjunction 0 sampleDisjunction = some r ∧
      r.1.count 1 = 1 ∧ ∀ d ∈ r.2, 1 ∉ d :=
  ⟨by decide,
    (C25_simplify_disjunction 0 sampleDisjunction ⟨[1, 2, 1, 3], by decide, by decide⟩).imp
      (fun _ hr => ⟨hr.1, hr.2.2.2.2 1 (by decide)⟩)⟩

/-! ## C30: what a repair does to the old region -/

/-- C30 at the failing input: the repair of the 16-byte stack at 0x6FFFFFFF0
for an access of 8 bytes at address 0 returns true and leaves the region
[0, 8): the access is covered, but no address of the old region is in range
any more. -/
theorem C30_low_access_drops_region :
    stackRegion.in_range 0x6FFFFFFF0 = true ∧
    sub64 (add64 0 8) stackRegion.size > stackRegion.lower_bound ∧
    (defaultGen.resize_mem stackRegion 0 8 onesRng).map
      (fun x => (x.1, x.2.1.lower_bound, x.2.1.size, x.2.1.in_range 0, x.2.1.in_range 7,
        x.2.1.in_range 0x6FFFFFFF0)) = some (true, 0, 8, true, true, false) := by
  decide

/-! ## C21: stack and heap after a repair -/

theorem overlap_check_spec (sg : StateGen) (fixed : CpuState) (g : Rng) :
    (overlap_check sg fixed g).fixed = fixed ∧
    ((overlap_check sg fixed g).result = true → ¬ ranges_overlap fixed.stack fixed.heap) ∧
    (ranges_overlap fixed.stack fixed.heap →
      (overlap_check sg fixed g).result = false ∧
      (overlap_check sg fixed g).error_message_ = "Heap and stack overlap.") := by
  unfold overlap_check ranges_overlap Memory.in_range
  simp only [Bool.and_eq_true, decide_eq_true_eq]
  split
  · rename_i h1
    split
    · rename_i h2
      exact ⟨rfl, fun h => Bool.noConfusion h, fun _ => ⟨rfl, rfl⟩⟩
    · rename_i h2
      refine ⟨rfl, ?_, ?_⟩
      · rintro _ ⟨addr, ⟨_, ha2⟩, ⟨hb1, _⟩⟩
        omega
      · rintro ⟨addr, ⟨_, ha2⟩, ⟨hb1, _⟩⟩
        omega
  · rename_i h1
    split
    · rename_i h2
      exact ⟨rfl, fun h => Bool.noConfusion h, fun _ => ⟨rfl, rfl⟩⟩
    · rename_i h2
      refine ⟨rfl, ?_, ?_⟩
      · rintro _ ⟨addr, ⟨ha1, _⟩, ⟨_, hb2⟩⟩
        omega
      · rintro ⟨addr, ⟨ha1, _⟩, ⟨_, hb2⟩⟩
        omega

/-- C21: whenever `fix` has resized a region (lines 298 to 343 end with the
stack or the heap resized), it returns the state with that region resized;
if it returns true the address ranges of stack and heap share no address, and
if they share an address it returns false with the message "Heap and stack
overlap.". -/
theorem C21_fix_regions_disjoint (sg : StateGen) (signal_text : ErrorCode → String)
    (cs fixed : CpuState) (instr : SgInstr) (g : Rng)
    (h : reaches_overlap_test (sg.fix_resize signal_text cs fixed instr g) = true) :
    ∃ stage out, sg.fix_resize signal_text cs fixed instr g = some stage ∧
      sg.fix signal_text cs fixed instr g = some out ∧
      out.fixed = stage.state ∧
      (out.result = true → ¬ ranges_overlap out.fixed.stack out.fixed.heap) ∧
      (ranges_overlap out.fixed.stack out.fixed.heap →
        out.result = false ∧ out.error_message_ = "Heap and stack overlap.") := by
  unfold StateGen.fix
  cases hr : sg.fix_resize signal_text cs fixed instr g with
  | none => rw [hr] at h; exact Bool.noConfusion h
  | some stage =>
    cases stage with
    | done out => rw [hr] at h; exact Bool.noConfusion h
    | resized sg2 fixed2 g2 =>
      have hspec := overlap_check_spec sg2 fixed2 g2
      refine ⟨FixStage.resized sg2 fixed2 g2, overlap_check sg2 fixed2 g2, rfl, rfl, hspec.1, ?_, ?_⟩
      · rw [hspec.1]
        exact hspec.2.1
      · rw [hspec.1]
        exact hspec.2.2

/-- C21 at a concrete input: a load from 0x100000000 faulted; the stack
cannot grow down to it within the budget, the empty heap is resized to hold
the 8 bytes, `fix` returns true and the two ranges share no address. -/
theorem C21_fix_regions_disjoint_witness :
    reaches_overlap_test (defaultGen.fix_resize noText segvState segvState loadRax onesRng)
      = true ∧
    ∃ out, defaultGen.fix noText segvState segvState loadRax onesRng = some out ∧
      out.result = true ∧ out.fixed.heap.lower_bound = 0x100000000 ∧ out.fixed.heap.size = 8 ∧
      out.fixed.stack = stackRegion ∧
      ¬ ranges_overlap out.fixed.stack out.fixed.heap := by
  obtain ⟨stage, out, _, h2, _, h4, _⟩ :=
    C21_fix_regions_disjoint defaultGen noText segvState segvState loadRax onesRng (by decide)
  have hres : (defaultGen.fix noText segvState segvState loadRax onesRng).map
      (fun o => (o.result, o.fixed.heap.lower_bound, o.fixed.heap.size, o.fixed.stack))
      = some (true, 0x100000000, 8, stackRegion) := by decide
  rw [h2] at hres
  simp only [Option.map_some', Option.some.injEq, Prod.mk.injEq] at hres
  exact ⟨by decide, out, h2, hres.1, hres.2.1, hres.2.2.1, hres.2.2.2, h4 hres.1⟩

/-! ## C26: the register change of `fix_misalignment` -/

theorem set_byte_zero (q b : Nat) (hq : q < 2 ^ 64) :
    set_byte q 0 b = 2 ^ 8 * (q / 2 ^ 8) + b % 2 ^ 8 := by
  apply Nat.eq_of_testBit_eq
  intro i
  rw [testBit_set_byte q 0 b i (by decide),
    Nat.testBit_mul_pow_two_add _ (Nat.mod_lt _ (by positivity))]
  by_cases hi : i < 8
  · have h1 : 8 * 0 ≤ i ∧ i < 8 * 0 + 8 := by omega
    rw [if_pos h1, if_pos hi, Nat.testBit_mod_two_pow]
    simp [hi]
  · have h1 : ¬ (8 * 0 ≤ i ∧ i < 8 * 0 + 8) := by omega
    have h8 : 8 + (i - 8) = i := by omega
    rw [if_neg h1, if_neg hi, ← Nat.shiftRight_eq_div_pow, Nat.testBit_shiftRight, h8]
    by_cases h64 : i < 64
    · simp [h64]
    · have h2 : q.testBit i = false :=
        Nat.testBit_lt_two_pow (lt_of_lt_of_le hq (Nat.pow_le_pow_right (by norm_num) (by omega)))
      simp [h2]

theorem getD_set_self {α : Type} (l : List α) (i : Nat) (x d : α) (h : i < l.length) :
    (l.set i x).getD i d = x := by
  simp [List.getD_eq_getElem?_getD, List.getElem?_set, h]

theorem getD_set_ne {α : Type} (l : List α) (i j : Nat) (x d : α) (h : i ≠ j) :
    (l.set i x).getD j d = l.getD j d := by
  simp [List.getD_eq_getElem?_getD, List.getElem?_set, h]

theorem set_gp_byte0_quad (s : CpuState) (hs : s.gp_ok) (b v : Nat) (hb : b < 16) :
    (s.set_gp_byte0 b v).gp_quad b = set_byte (s.gp_quad b) 0 v ∧
    ∀ j, j ≠ b → (s.set_gp_byte0 b v).gp_quad j = s.gp_quad j := by
  obtain ⟨hlen, hq, _⟩ := gp_ok_quad s hs b hb
  constructor
  · unfold CpuState.set_gp_byte0 CpuState.gp_quad set_fixed_byte
    simp only [Nat.zero_div, Nat.zero_mod]
    rw [getD_set_self _ _ _ _ hlen, getD_set_self _ _ _ _ hq]
  · intro j hj
    unfold CpuState.set_gp_byte0 CpuState.gp_quad
    simp only
    rw [getD_set_ne _ _ _ _ _ (Ne.symm hj)]

theorem and_31 (x : Nat) : x &&& 0x1f = x % 32 :=
  Nat.and_pow_two_sub_one_eq_mod x 5

/-- The arithmetic of the correction: replacing the low byte of the base by
`(base mod 32) - offset` makes the sum a multiple of 32. -/
theorem aligned_after (d q t : Nat) :
    (d + (2 ^ 8 * (q / 2 ^ 8) +
      (((q % 32) % 2 ^ 64 + 2 ^ 64 - ((d + q + t) % 32) % 2 ^ 64) % 2 ^ 64) % 2 ^ 8) + t) % 32
      = 0 := by
  norm_num
  omega

theorem fix_misalignment_true (sg : StateGen) (cs fixed : CpuState) (instr : SgInstr)
    (error_message_ : String) (g : Rng) (b : Nat) (hbase : instr.mem.base = some b)
    (hres : (sg.fix_misalignment cs fixed instr error_message_ g).result = true) :
    (sg.fix_misalignment cs fixed instr error_message_ g).fixed =
      fixed.set_gp_byte0 b
        (sub64 (cs.gp_quad b &&& 0x1f) (cs.get_addr_instr instr &&& 0x1f)) ∧
    (sg.fix_misalignment cs fixed instr error_message_ g).sg.tried_to_fix_misalign_ = true := by
  unfold StateGen.fix_misalignment at hres ⊢
  simp only [hbase] at hres ⊢
  split
  · exact ⟨rfl, rfl⟩
  · rename_i hc
    rw [if_neg hc] at hres
    exact Bool.noConfusion hres

theorem fix_misalignment_tried (sg : StateGen) (cs fixed : CpuState) (instr : SgInstr)
    (error_message_ : String) (g : Rng) (h : sg.tried_to_fix_misalign_ = true) :
    (sg.fix_misalignment cs fixed instr error_message_ g).result = false := by
  unfold StateGen.fix_misalignment
  simp only
  split
  · rw [if_neg (by simp [h])]
  · rfl

theorem get_addr_mod (s : CpuState) (m : Mem) (b : Nat) (hbase : m.base = some b) :
    ∃ t, (∀ s2 : CpuState, (∀ i, m.index = some i → s2.gp_quad i = s.gp_quad i) →
      s2.get_addr m % 32 = (m.disp + s2.gp_quad b + t) % 32) := by
  cases hi : m.index with
  | none =>
    refine ⟨0, fun s2 _ => ?_⟩
    unfold CpuState.get_addr add64
    simp only [hbase, hi]
    omega
  | some i =>
    refine ⟨s.gp_quad i * m.scale, fun s2 h2 => ?_⟩
    unfold CpuState.get_addr add64
    simp only [hbase, hi]
    rw [h2 i rfl]
    generalize s.gp_quad i * m.scale = t
    omega

/-- C26, as stated, fails when the index register is the base register: for
a load from `(%rax,%rax,1)` with rax = 1 the correction returns true and
leaves rax = 0xff, so the address becomes 0x1fe, which is not a multiple of
32. -/
theorem C26_index_is_base_unaligned :
    (defaultGen.fix_misalignment raxOneState raxOneState doubledOperand "" onesRng).result
      = true ∧
    (defaultGen.fix_misalignment raxOneState raxOneState doubledOperand "" onesRng).fixed.gp_quad 0
      = 0xff ∧
    (defaultGen.fix_misalignment raxOneState raxOneState doubledOperand "" onesRng).fixed.get_addr
      doubledOperand.mem = 0x1fe ∧
    ¬ (0x1fe % 32 = 0) := by
  decide

/-- C26, amended: for a state with the 16 registers of the constructor and
an instruction whose memory operand has a base register and no index
register equal to it, if `fix_misalignment` returns true (with `fixed` equal
to `cs` beforehand) then the address of the operand in `fixed` is a multiple
of 32, no register other than the base is changed, the base is changed in its
low byte only, nothing else of the state is changed, and every following call
of `fix_misalignment` returns false until the flag is reset. -/
theorem C26_fix_misalignment (sg : StateGen) (cs : CpuState) (instr : SgInstr)
    (error_message_ : String) (g : Rng) (b : Nat)
    (hok : cs.gp_ok) (hb : b < 16) (hbase : instr.mem.base = some b)
    (hindex : instr.mem.index ≠ some b)
    (hres : (sg.fix_misalignment cs cs instr error_message_ g).result = true) :
    (sg.fix_misalignment cs cs instr error_message_ g).fixed.get_addr instr.mem % 32 = 0 ∧
    (∀ j, j ≠ b →
      (sg.fix_misalignment cs cs instr error_message_ g).fixed.gp_quad j = cs.gp_quad j) ∧
    (sg.fix_misalignment cs cs instr error_message_ g).fixed.gp_quad b / 256
      = cs.gp_quad b / 256 ∧
    (sg.fix_misalignment cs cs instr error_message_ g).fixed =
      { cs with gp := (sg.fix_misalignment cs cs instr error_message_ g).fixed.gp } ∧
    (∀ (cs2 fixed2 : CpuState) (instr2 : SgInstr) (message2 : String) (g2 : Rng),
      ((sg.fix_misalignment cs cs instr error_message_ g).sg.fix_misalignment cs2 fixed2 instr2
        message2 g2).result = false) := by
  obtain ⟨hfixed, htried⟩ := fix_misalignment_true sg cs cs instr error_message_ g b hbase hres
  obtain ⟨hqb, hqother⟩ := set_gp_byte0_quad cs hok b
    (sub64 (cs.gp_quad b &&& 0x1f) (cs.get_addr_instr instr &&& 0x1f)) hb
  obtain ⟨_, _, hqlt⟩ := gp_ok_quad cs hok b hb
  rw [hfixed]
  refine ⟨?_, hqother, ?_, rfl, ?_⟩
  · obtain ⟨t, ht⟩ := get_addr_mod cs instr.mem b hbase
    have h1 := ht cs (fun _ _ => rfl)
    have h2 := ht (cs.set_gp_byte0 b
      (sub64 (cs.gp_quad b &&& 0x1f) (cs.get_addr_instr instr &&& 0x1f)))
      (fun i hi => hqother i (fun hib => hindex (hib ▸ hi)))
    rw [h2, hqb, set_byte_zero _ _ hqlt]
    unfold CpuState.get_addr_instr sub64
    rw [and_31, and_31, h1]
    exact aligned_after instr.mem.disp (cs.gp_quad b) t
  · rw [hqb, set_byte_zero _ _ hqlt]
    norm_num
    omega
  · intro cs2 fixed2 instr2 message2 g2
    exact fix_misalignment_tried _ cs2 fixed2 instr2 message2 g2 htried

/-- C26 amended, at a concrete input: for a 32-byte load from `8(%rax)`
with rax = 0x1001 the correction returns true, leaves rax = 0x10f8 and the
address 0x1100. -/
theorem C26_fix_misalignment_witness :
    (defaultGen.fix_misalignment raxOddState raxOddState offsetOperand "" onesRng).result
      = true ∧
    (defaultGen.fix_misalignment raxOddState raxOddState offsetOperand "" onesRng).fixed.gp_quad 0
      = 0x10f8 ∧
    (defaultGen.fix_misalignment raxOddState raxOddState offsetOperand "" onesRng).fixed.get_addr
      offsetOperand.mem % 32 = 0 :=
  ⟨by decide, by decide,
    (C26_fix_misalignment defaultGen raxOddState offsetOperand "" onesRng 0 (by decide)
      (by decide) rfl (by decide) (by decide)).1⟩

/-! ## C29: the regions `memory_map_to_testcase` builds -/

/-- C29 at the failing input: for the entries 8 bytes at 0x1000 and 8 bytes
at 0x1004 the function returns true with the heap at [0x1000, 0x1008) and the
stack at [0x1004, 0x100c): the address 0x1004 is in range of both regions. -/
theorem C29_partial_overlap_regions :
    (memory_map_to_testcase overlappingMap zeroState).1 = true ∧
    (memory_map_to_testcase overlappingMap zeroState).2.heap.lower_bound = 0x1000 ∧
    (memory_map_to_testcase overlappingMap zeroState).2.heap.size = 8 ∧
    (memory_map_to_testcase overlappingMap zeroState).2.stack.lower_bound = 0x1004 ∧
    (memory_map_to_testcase overlappingMap zeroState).2.stack.size = 8 ∧
    (memory_map_to_testcase overlappingMap zeroState).2.heap.in_range 0x1004 = true ∧
    (memory_map_to_testcase overlappingMap zeroState).2.stack.in_range 0x1004 = true := by
  decide

/-- The same slip in `max_addr`, which holds the end of the last entry and
not the largest end seen: for the entries 16 bytes at 0x1000, 2 bytes at
0x1004 and 4 bytes at 0x1008 the one region built is cut back to 12 bytes, and
byte 12 of the first entry, at 0x100c, is in no region. -/
theorem memory_map_shrinks_segment :
    (memory_map_to_testcase nestedMap zeroState).2.heap.lower_bound = 0x1000 ∧
    (memory_map_to_testcase nestedMap zeroState).2.heap.size = 12 ∧
    (memory_map_to_testcase nestedMap zeroState).2.stack.size = 0 ∧
    (memory_map_to_testcase nestedMap zeroState).2.data.size = 0 ∧
    (memory_map_to_testcase nestedMap zeroState).2.segments = [] ∧
    (memory_map_to_testcase nestedMap zeroState).2.heap.in_range 0x100c = false := by
  decide

/-! ## C23: the jump budget -/

/-- The decrement of a counter at zero wraps to the largest value. -/
theorem sub64_zero_one : sub64 0 1 = 2 ^ 64 - 1 := by
  decide

set_option maxRecDepth 100000 in
/-- The tests of the repository fix what the counter counts: of the four
readings, the assertions of `TrivialExampleWorks`, `ShortLoopMaxIterationsOk`
and `ShortLoopOneTooManyIterations` hold under one only, in which a
conditional jump is counted whether taken or not and a return is not
counted. -/
theorem sb_tests_fix_rule (rule : SbRule) : sb_tests_hold rule = true ↔ rule = sb_rule := by
  rcases rule with ⟨_ | _, _ | _⟩ <;> decide

theorem mem_keep_checked (env : LearnEnv) (ts rs : List CpuState) (candidates : List Invariant)
    (c : Invariant) (h : c ∈ keep_checked env ts rs candidates) : c.check env ts rs = true :=
  (List.mem_filter.mp h).2

theorem mem_if_singleton {α : Type} (b : Bool) (x c : α)
    (h : c ∈ (if b = true then [x] else [])) : b = true ∧ c = x := by
  cases b with
  | false => simp at h
  | true => exact ⟨rfl, by simpa using h⟩

theorem mem_topzero_nonzero (env : LearnEnv) (target_regs rewrite_regs : RegSet)
    (ts rs : List CpuState) (c : Invariant)
    (h : c ∈ topzero_nonzero env target_regs rewrite_regs ts rs) : c.check env ts rs = true := by
  unfold topzero_nonzero at h
  obtain ⟨k, _, h⟩ := List.mem_flatMap.mp h
  obtain ⟨it, _, h⟩ := List.mem_flatMap.mp h
  unfold topzero_nonzero_for at h
  simp only at h
  rcases List.mem_append.mp h with h | h
  · obtain ⟨hb, rfl⟩ := mem_if_singleton _ _ _ h
    exact ((Bool.and_eq_true _ _).mp hb).2
  · obtain ⟨hb, rfl⟩ := mem_if_singleton _ _ _ h
    exact ((Bool.and_eq_true _ _).mp hb).2

theorem column_equality_holds (env : LearnEnv) (ci cj : Term) (t r : CpuState)
    (h : ci.from_state t r = cj.from_state t r) :
    (column_equality ci cj).holds env t r = true := by
  unfold column_equality Invariant.holds
  simp only [List.map_cons, List.map_nil, List.sum_cons, List.sum_nil, decide_eq_true_eq]
  have h1 : Term.from_state { ci with coefficient := 1 } t r = ci.from_state t r := rfl
  have h2 : Term.from_state { cj with coefficient := 2 ^ 64 - 1 } t r = cj.from_state t r := rfl
  rw [h1, h2, h]
  generalize cj.from_state t r = v
  have : 1 * v + ((2 ^ 64 - 1) * v + 0) = 2 ^ 64 * v := by
    norm_num
    omega
  rw [this]
  simp

theorem mem_simple_equalities (env : LearnEnv) (ts rs : List CpuState) (c : Invariant) :
    ∀ (columns : List Term), c ∈ simple_equalities ts rs columns → c.check env ts rs = true := by
  intro columns
  induction columns with
  | nil => intro h; simp [simple_equalities] at h
  | cons ci rest ih =>
    intro h
    rw [simple_equalities] at h
    rcases List.mem_append.mp h with h | h
    · obtain ⟨cj, hcj, rfl⟩ := List.mem_map.mp h
      have hmatch := (List.mem_filter.mp hcj).2
      unfold columns_match at hmatch
      unfold Invariant.check
      rw [List.all_eq_true] at hmatch ⊢
      intro p hp
      exact column_equality_holds env ci cj p.1 p.2 (by simpa using hmatch p hp)
    · exact ih h

/-- C16, as stated, fails for the two conjuncts that are always added: for
one pair of states, the target with the error code SIGSEGV and the rewrite
with another heap, the conjunction learned starts with no-signals and
memory-equality, and neither holds on the pair. -/
theorem C16_unchecked_conjuncts :
    (learn_simple_invariant bareEnv raxOnly raxOnly [signalledState] [heapByteState]).map
      (fun conj => conj.take 2) = some [Invariant.no_signals, Invariant.memory_equality] ∧
    Invariant.no_signals.check bareEnv [signalledState] [heapByteState] = false ∧
    Invariant.memory_equality.check bareEnv [signalledState] [heapByteState] = false := by
  decide

/-- C16, amended: for non-empty state lists of equal length the conjunction
learned is no-signals and memory-equality, which are added without being
evaluated, followed by conjuncts each of which holds on every pair of the
i-th target state and the i-th rewrite state: the candidates kept by `check`
and the equalities of the columns found equal on every pair. -/
theorem C16_learned_conjuncts_checked (env : LearnEnv) (target_regs rewrite_regs : RegSet)
    (target_states rewrite_states : List CpuState) (hne : target_states ≠ [])
    (hlen : target_states.length = rewrite_states.length) :
    ∃ rest, learn_simple_invariant env target_regs rewrite_regs target_states rewrite_states
        = some (Invariant.no_signals :: Invariant.memory_equality :: rest) ∧
      ∀ c ∈ rest, c.check env target_states rewrite_states = true := by
  have h0 : ¬ (target_states.length = 0 ∨ rewrite_states.length = 0) := by
    have : target_states.length ≠ 0 := fun h => hne (List.length_eq_zero.mp h)
    omega
  unfold learn_simple_invariant
  rw [if_neg (by simpa using hlen), if_neg h0]
  refine ⟨_, by simp only [List.cons_append, List.nil_append, List.append_assoc]; rfl, ?_⟩
  intro c hc
  simp only [List.mem_append] at hc
  rcases hc with hc | hc | hc | hc | hc | hc | hc
  · exact mem_topzero_nonzero env _ _ _ _ c hc
  · exact mem_keep_checked env _ _ _ c hc
  · exact mem_keep_checked env _ _ _ c hc
  · exact mem_keep_checked env _ _ _ c hc
  · exact mem_keep_checked env _ _ _ c hc
  · exact mem_simple_equalities env _ _ c _ hc
  · exact mem_keep_checked env _ _ _ c hc

/-- C16 amended, at a concrete input: for two pairs of the zero state and
the register set of rax the conjunction learned is no-signals,
memory-equality and the equality of rax in the target and in the rewrite,
which holds on both pairs. -/
theorem C16_learned_conjuncts_checked_witness :
    learn_simple_invariant bareEnv raxOnly raxOnly [zeroState, zeroState] [zeroState, zeroState]
      = some [Invariant.no_signals, Invariant.memory_equality,
          column_equality ⟨TermReg.gp ⟨RType.R_64, 0⟩, false, false, 0, 0⟩
            ⟨TermReg.gp ⟨RType.R_64, 0⟩, true, false, 0, 0⟩] ∧
    ∃ rest, learn_simple_invariant bareEnv raxOnly raxOnly [zeroState, zeroState]
        [zeroState, zeroState]
        = some (Invariant.no_signals :: Invariant.memory_equality :: rest) ∧
      ∀ c ∈ rest, c.check bareEnv [zeroState, zeroState] [zeroState, zeroState] = true :=
  ⟨by decide,
    C16_learned_conjuncts_checked bareEnv raxOnly raxOnly [zeroState, zeroState]
      [zeroState, zeroState] (by decide) (by decide)⟩

end Stoke
